import Mathlib

/-!
# Verification of the lipnet structured log-barrier engine

This file gives a shallow embedding, over exact rational arithmetic, of the
block-structured certificate machinery of the lipnet library:

* the certificate-matrix generators of `lipnet/lipschitz/structure.hpp`
  (`generate_lipschitz_train_a/b/t/q/l`) and the certificate matrix `chi`
  assembled from them as in `lipnet/lipschitz/feasibility.hpp`;
* the block Cholesky sweep `barrierfunction_t::chol`, the selected-inverse
  sweep `barrierfunction_t::inv` and the gradient assembly
  `barrierfunction_t::compute` of `lipnet/lipschitz/barrier.hpp`;
* the eigenvalue post-processing of `feasibilitycheck_t::compute`
  (`lipnet/lipschitz/feasibility.hpp`);
* the central-path Adam optimizer `adam_barrier_t_impl::run`
  (`lipnet/optimizer/adam_barrier.hpp`);
* the training problem `network_problem_log_barrier_t::run`
  (`lipnet/problem/nn_problem_liptrain_barrier.hpp`).

Matrices are embedded as total functions `ℕ → ℕ → ℚ` read on explicit index
ranges; a network topology is a width function `Nf : ℕ → ℕ` together with the
number of layers `L` (the C++ template parameter pack `N...` has `L + 1`
entries, `Nf 0, …, Nf L`).  Block offsets mirror the compile-time offset
computations `sum<I, N...>()` of the C++ source.  Calls into the external
dense linear-algebra library (blaze `llh`, `solve`, `gges`) are modelled by
their defining equations or by oracle parameters, as noted at each
definition.  The C++ code computes in IEEE doubles; the embedding idealizes
this to exact `ℚ` arithmetic.
-/

namespace LipNet

/-! ## Basic flat matrices -/

/-- A matrix embedded as a total function; entries outside the index range
under consideration are irrelevant. -/
abbrev Mat : Type := ℕ → ℕ → ℚ

/-- Matrix product with inner dimension `n` (entrywise definition of the
blaze product `A * B`). -/
def mB (n : ℕ) (f g : Mat) : Mat :=
  fun a b => ∑ c ∈ Finset.range n, f a c * g c b

/-- The identity matrix of order `n` (blaze `IdentityMatrix(n)`). -/
def idF (n : ℕ) : Mat :=
  fun a b => if a = b ∧ a < n then 1 else 0

/-- Transpose (blaze `trans`). -/
def trF (f : Mat) : Mat := fun a b => f b a

/-- Transfer of a square flat matrix to a Mathlib matrix over `Fin n`. -/
def toFinMat (n : ℕ) (f : Mat) : Matrix (Fin n) (Fin n) ℚ :=
  Matrix.of fun i j => f i.val j.val

/-! ## Topology offsets

`ofs Nf i` is the flat offset `sum<I, N...>()` of diagonal block `i`, and
`hofs Nf i` is the offset `sum<I+1, N...>() - at<0, N...>()` used for the
hidden-coordinate space (rows of `generate_lipschitz_train_a/b/t`). -/

/-- Flat offset of diagonal block `i` (the C++ `sum<I, N...>()`). -/
def ofs (Nf : ℕ → ℕ) : ℕ → ℕ
  | 0 => 0
  | i + 1 => ofs Nf i + Nf i

/-- Offset of hidden block `i` inside the hidden-coordinate space
(`sum<I+1, N...>() - at<0, N...>()`). -/
def hofs (Nf : ℕ → ℕ) : ℕ → ℕ
  | 0 => 0
  | i + 1 => hofs Nf i + Nf (i + 1)

/-- Membership of a flat index in diagonal block `i` (the row/column range
of the C++ `submatrix` writes at offset `sum<I, N...>()`). -/
def inBlk (Nf : ℕ → ℕ) (i r : ℕ) : Prop :=
  ofs Nf i ≤ r ∧ r < ofs Nf (i + 1)

instance (Nf : ℕ → ℕ) (i r : ℕ) : Decidable (inBlk Nf i r) := by
  unfold inBlk; infer_instance

/-- Membership of a hidden-space index in hidden block `i`. -/
def inHBlk (Nf : ℕ → ℕ) (i p : ℕ) : Prop :=
  hofs Nf i ≤ p ∧ p < hofs Nf (i + 1)

instance (Nf : ℕ → ℕ) (i p : ℕ) : Decidable (inHBlk Nf i p) := by
  unfold inHBlk; infer_instance

/-! ## Certificate-matrix generators (`lipnet/lipschitz/structure.hpp`)

Each generator writes dense blocks at pairwise disjoint offsets into a
zero-initialized `blaze::CompressedMatrix`; the embedding expresses the
resulting matrix as the sum of the indicator-guarded block writes. -/

/-- `generate_lipschitz_train_a`: weights `W 0 … W (L-2)` placed at
hidden-row block `I`, column block `I` (the last weight is excluded).
`W I` has shape `Nf (I+1) × Nf I`. -/
def trainA (Nf : ℕ → ℕ) (L : ℕ) (W : ℕ → Mat) : Mat :=
  fun r c => ∑ I ∈ Finset.range (L - 1),
    if inHBlk Nf I r ∧ inBlk Nf I c then W I (r - hofs Nf I) (c - ofs Nf I) else 0

/-- `generate_lipschitz_train_b`: the band of ones at column offset
`Nf 0`, i.e. the selector of the hidden coordinates. -/
def trainB (Nf : ℕ → ℕ) (L : ℕ) : Mat :=
  fun r c => if r < hofs Nf (L - 1) ∧ c = Nf 0 + r then 1 else 0

/-- The diagonal of `generate_lipschitz_train_t` as a function of the
hidden-space index: hidden block `I` holds the vector `t I`. -/
def tDiag (Nf : ℕ → ℕ) (L : ℕ) (t : ℕ → ℕ → ℚ) (p : ℕ) : ℚ :=
  ∑ I ∈ Finset.range (L - 1), (if inHBlk Nf I p then t I (p - hofs Nf I) else 0)

/-- `generate_lipschitz_train_t`: the diagonal matrix holding the
`T`-parameter vectors `t 0 … t (L-2)` (vector `t I` has length `Nf (I+1)`). -/
def trainT (Nf : ℕ → ℕ) (L : ℕ) (t : ℕ → ℕ → ℚ) : Mat :=
  fun r c => if r = c then tDiag Nf L t r else 0

/-- `generate_lipschitz_train_q`: the transposed last weight at block
`(L-1, L)`, the last weight at block `(L, L-1)`, `-rho·I` at block `(0,0)`
and `-I` at block `(L, L)`. -/
def trainQ (Nf : ℕ → ℕ) (L : ℕ) (W : ℕ → Mat) (rho : ℚ) : Mat :=
  fun r c =>
    (if inBlk Nf (L - 1) r ∧ inBlk Nf L c then
        W (L - 1) (c - ofs Nf L) (r - ofs Nf (L - 1)) else 0)
    + (if inBlk Nf L r ∧ inBlk Nf (L - 1) c then
        W (L - 1) (r - ofs Nf L) (c - ofs Nf (L - 1)) else 0)
    + (if r < Nf 0 ∧ c < Nf 0 ∧ r = c then -rho else 0)
    + (if inBlk Nf L r ∧ inBlk Nf L c ∧ r = c then -1 else 0)

/-- Entrywise triple product `trans(B) * Z * A` over the hidden-coordinate
space (inner dimension `TN = hofs Nf (L-1)`), with `B` the band matrix. -/
def triBZ (Nf : ℕ → ℕ) (L : ℕ) (Z A : Mat) : Mat :=
  fun r c => ∑ k ∈ Finset.range (hofs Nf (L - 1)), ∑ m ∈ Finset.range (hofs Nf (L - 1)),
    trainB Nf L k r * Z k m * A m c

/-- Entrywise triple product `trans(A) * Z * B`. -/
def triAZ (Nf : ℕ → ℕ) (L : ℕ) (A Z : Mat) : Mat :=
  fun r c => ∑ k ∈ Finset.range (hofs Nf (L - 1)), ∑ m ∈ Finset.range (hofs Nf (L - 1)),
    A k r * Z k m * trainB Nf L m c

/-- The certificate matrix `chi(rho, W, T)` with `rho = Ψ²`.

`feasibilitycheck_t::compute` (`lipnet/lipschitz/feasibility.hpp`) assembles
the constant-coefficient block of the documented pencil
`P - α·D + α²·M = chi(Ψ², W - α·ΔW, T - α·ΔT)` as
`trans(B)*Zp*Ap + trans(Ap)*Zp*B + Qp - 2*trans(B)*Zp*B`, which is `-chi`;
accordingly `chi = 2·BᵀZB - BᵀZA - AᵀZB - Q`, built from the generators of
`structure.hpp`. -/
def chiOf (Nf : ℕ → ℕ) (L : ℕ) (W : ℕ → Mat) (t : ℕ → ℕ → ℚ) (rho : ℚ) : Mat :=
  fun r c =>
    2 * triBZ Nf L (trainT Nf L t) (trainB Nf L) r c
    - triBZ Nf L (trainT Nf L t) (trainA Nf L W) r c
    - triAZ Nf L (trainA Nf L W) (trainT Nf L t) r c
    - trainQ Nf L W rho r c

/-- `generate_lipschitz_train_l`: assembly of the block lower-bidiagonal
Cholesky factor from the stacks `(D0, Dm 1 … Dm L, Lm 0 … Lm (L-1))`; the
`(0,0)` block is `IdentityMatrix(Nf 0) * D0` with a scalar `D0`. -/
def trainL (Nf : ℕ → ℕ) (L : ℕ) (D0 : ℚ) (Dm Lm : ℕ → Mat) : Mat :=
  fun r c =>
    (if r < Nf 0 ∧ c < Nf 0 ∧ r = c then D0 else 0)
    + ∑ I ∈ Finset.range L,
      ((if inBlk Nf (I + 1) r ∧ inBlk Nf I c then
          Lm I (r - ofs Nf (I + 1)) (c - ofs Nf I) else 0)
       + (if inBlk Nf (I + 1) r ∧ inBlk Nf (I + 1) c then
          Dm (I + 1) (r - ofs Nf (I + 1)) (c - ofs Nf (I + 1)) else 0))

/-- The diagonal-block stack of the assembled factor as a single family:
block `0` is the scalar block `D0·I`, block `i+1` is the dense `Dm (i+1)`. -/
def Dblk (D0 : ℚ) (Dm : ℕ → Mat) : ℕ → Mat
  | 0 => fun a b => if a = b then D0 else 0
  | i + 1 => Dm (i + 1)

/-- Blockwise description of the certificate matrix: `rho·I` at `(0,0)`,
`2·diag(t_{i-1})` at interior diagonal blocks, `I` at `(L,L)`,
`-diag(t_i)·W_i` at sub-diagonal blocks (plain `-W_{L-1}` at the last one),
their transposes above the diagonal, and `0` beyond the tridiagonal band. -/
def chiBlk (L : ℕ) (W : ℕ → Mat) (t : ℕ → ℕ → ℚ) (rho : ℚ)
    (i j a b : ℕ) : ℚ :=
  if i = 0 ∧ j = 0 then (if a = b then rho else 0)
  else if i = j ∧ i < L then (if a = b then 2 * t (i - 1) a else 0)
  else if i = j then (if a = b then 1 else 0)
  else if i = j + 1 ∧ i < L then -(t j a * W j a b)
  else if i = j + 1 then -(W (L - 1) a b)
  else if j = i + 1 ∧ j < L then -(t i b * W i b a)
  else if j = i + 1 then -(W (L - 1) b a)
  else 0

/-! ## The block Cholesky sweep (`barrierfunction_t::chol`)

`chol` runs a forward block elimination; dense Cholesky factorizations are
calls to the external `blaze::llh` and triangular solves are calls to
`blaze::solve`.  `cholRel` states the defining equations of a completed
sweep: `llh(X, D)` is captured by `D·Dᵀ = X` and `solve(D, Z) = Y` by
`D·Y = Z`.  The numerical-stability offset `ratio*eye` (template parameter
`kondition`, default `std::ratio<1,100>`) appears as `eps`; `eps = 0`
is the `numeric_stability = false` instantiation. -/

/-- Defining equations of a completed run of `barrierfunction_t::chol` with
Lipschitz constant `Psi`, stabilization offset `eps`, weight stack `W` and
`T`-parameters `t`, producing the stacks `(D0, Dm, Lm)`. -/
def cholRel (Nf : ℕ → ℕ) (L : ℕ) (Psi eps : ℚ) (W : ℕ → Mat) (t : ℕ → ℕ → ℚ)
    (D0 : ℚ) (Dm Lm : ℕ → Mat) : Prop :=
  D0 = Psi
  ∧ (∀ a < Nf 1, ∀ b < Nf 0, Lm 0 a b = -(t 0 a * W 0 a b / Psi))
  ∧ (∀ i, 1 ≤ i → i < L → ∀ a < Nf i, ∀ b < Nf i,
      (∑ c ∈ Finset.range (Nf i), Dm i a c * Dm i b c)
        = (if a = b then 2 * t (i - 1) a + eps else 0)
          - ∑ c ∈ Finset.range (Nf (i - 1)), Lm (i - 1) a c * Lm (i - 1) b c)
  ∧ (∀ i, 1 ≤ i → i < L - 1 → ∀ a < Nf (i + 1), ∀ b < Nf i,
      (∑ c ∈ Finset.range (Nf i), Dm i b c * Lm i a c) = -(W i a b * t i a))
  ∧ (∀ a < Nf L, ∀ b < Nf (L - 1),
      (∑ c ∈ Finset.range (Nf (L - 1)), Dm (L - 1) b c * Lm (L - 1) a c) = -W (L - 1) a b)
  ∧ (∀ a < Nf L, ∀ b < Nf L,
      (∑ c ∈ Finset.range (Nf L), Dm L a c * Dm L b c)
        = (if a = b then 1 + eps else 0)
          - ∑ c ∈ Finset.range (Nf (L - 1)), Lm (L - 1) a c * Lm (L - 1) b c)

/-! ## The selected-inverse sweep (`barrierfunction_t::inv`) -/

/-- Defining equations of a run of `barrierfunction_t::inv` on the stacks
`(D0, Dm, Lm)`, producing the diagonal blocks `Pm 0 … Pm L` and
sub-diagonal blocks `Km 0 … Km (L-1)` of the inverse.  The intermediates of
the C++ code appear explicitly: `tempL = solve(D_L, I)`,
`tmp i = solve(trans(D_i), trans(L_i))`, `temp2 i = solve(D_i, I)` and
`su i = solve(trans(D_i), temp2 i)`; the structure adaptors
`decldiag`/`decllow`/`declupp` are semantic no-ops. -/
def invRel (Nf : ℕ → ℕ) (L : ℕ) (D0 : ℚ) (Dm Lm : ℕ → Mat) (Pm Km : ℕ → Mat)
    (tempL : Mat) (tmp temp2 su : ℕ → Mat) : Prop :=
  (∀ a < Nf L, ∀ b < Nf L,
      (∑ c ∈ Finset.range (Nf L), Dm L a c * tempL c b) = idF (Nf L) a b)
  ∧ (∀ a < Nf L, ∀ b < Nf L,
      (∑ c ∈ Finset.range (Nf L), Dm L c a * Pm L c b) = tempL a b)
  ∧ (∀ i, 1 ≤ i → i < L →
      (∀ p < Nf i, ∀ q < Nf (i + 1),
        (∑ c ∈ Finset.range (Nf i), Dm i c p * tmp i c q) = Lm i q p)
      ∧ (∀ a < Nf (i + 1), ∀ b < Nf i,
        Km i a b = -(∑ c ∈ Finset.range (Nf (i + 1)), tmp i b c * Pm (i + 1) c a))
      ∧ (∀ a < Nf i, ∀ b < Nf i,
        (∑ c ∈ Finset.range (Nf i), Dm i a c * temp2 i c b) = idF (Nf i) a b)
      ∧ (∀ a < Nf i, ∀ b < Nf i,
        (∑ c ∈ Finset.range (Nf i), Dm i c a * su i c b) = temp2 i a b)
      ∧ (∀ a < Nf i, ∀ b < Nf i,
        Pm i a b = su i a b - ∑ c ∈ Finset.range (Nf (i + 1)), tmp i b c * Km i c a))
  ∧ (∀ a < Nf 1, ∀ b < Nf 0,
      Km 0 a b = -((∑ c ∈ Finset.range (Nf 1), Pm 1 c a * Lm 0 c b) / D0))
  ∧ (∀ a < Nf 0, ∀ b < Nf 0,
      Pm 0 a b = (if a = b then 1 / D0 ^ 2 else 0)
        - (∑ c ∈ Finset.range (Nf 1), Km 0 c a * Lm 0 c b) / D0)

/-- The auxiliary matrix `𝕃ᵀ·M` of the inverse analysis, with `𝕃` the
assembled factor and `M` a candidate inverse of the certificate matrix;
when `𝕃·𝕃ᵀ = chi` and `chi·M = I`, this is the inverse of `𝕃`. -/
def Yinv (Nf : ℕ → ℕ) (L : ℕ) (D0 : ℚ) (Dm Lm : ℕ → Mat) (M : Mat) : Mat :=
  mB (ofs Nf (L + 1)) (trF (trainL Nf L D0 Dm Lm)) M

/-! ## The gradient assembly (`barrierfunction_t::compute`)

`compute` factorizes, inverts, and then accumulates the barrier
contribution into the caller-supplied gradient buffer.  The accumulation is
a pure function of the inverse blocks `Pm`/`Km`, the position and `gamma`;
it is embedded here with the blocks as inputs. -/

/-- Weight-gradient accumulation of `barrierfunction_t::compute`: for
`I < L-1` it adds `2*gamma*expand(t_I) % K_I`, for `I = L-1` it adds
`2*gamma*K_{L-1}`; layers beyond `L-1` are untouched. -/
def computeAddW (L : ℕ) (t : ℕ → ℕ → ℚ) (Km : ℕ → Mat) (gamma : ℚ)
    (gW : ℕ → Mat) : ℕ → Mat :=
  fun I =>
    if I < L - 1 then fun a b => gW I a b + 2 * gamma * (t I a * Km I a b)
    else if I = L - 1 then fun a b => gW I a b + 2 * gamma * Km I a b
    else gW I

/-- `T`-gradient accumulation of `barrierfunction_t::compute`: for
`I < L-1` it adds `2*(diagonal(K_I * trans(W_I)) - diagonal(P_{I+1}))`. -/
def computeAddT (Nf : ℕ → ℕ) (L : ℕ) (W : ℕ → Mat) (Pm Km : ℕ → Mat)
    (gT : ℕ → ℕ → ℚ) : ℕ → ℕ → ℚ :=
  fun I =>
    if I < L - 1 then fun k =>
      gT I k + 2 * ((∑ q ∈ Finset.range (Nf I), Km I k q * W I k q) - Pm (I + 1) k k)
    else gT I

/-! ## The training problem (`network_problem_log_barrier_t::run`)

The statistical loss/gradient oracle (backpropagation over the current
mini-batch, an external collaborator) is a parameter `back`; `run`
zero-initializes the gradient, lets backpropagation fill the weight
gradient and the scalar objective, and then lets
`barrierfunction_t::compute` accumulate the barrier contribution into the
gradient only. -/
def problemRun (Nf : ℕ → ℕ) (L : ℕ) (back : (ℕ → Mat) → ((ℕ → Mat) × ℚ))
    (W : ℕ → Mat) (t : ℕ → ℕ → ℚ) (Pm Km : ℕ → Mat) (gamma : ℚ) :
    ((ℕ → Mat) × (ℕ → ℕ → ℚ) × ℚ) :=
  let bg := back W
  (computeAddW L t Km gamma bg.1,
   computeAddT Nf L W Pm Km (fun _ _ => 0),
   bg.2)

/-! ## Failure behaviour of the sweep (`chol` as a fallible computation)

For the failure claim the sweep is embedded monadically: the external
`blaze::llh` is an oracle `llh : ℕ → Mat → Option Mat` (`none` models the
`NotPositiveDefinite` exception raised on a failed `potrf`), and the
triangular solve is an oracle `tsolve`.  `barrierfunction_wot_t::chol`
(`barrier_wot.hpp`) is the same sweep with `stab := false`. -/

/-- Positive definiteness of the order-`n` leading block of a flat matrix. -/
def posDefF (n : ℕ) (X : Mat) : Prop :=
  ∀ v : ℕ → ℚ, (∃ k < n, v k ≠ 0) →
    0 < ∑ a ∈ Finset.range n, ∑ b ∈ Finset.range n, v a * X a b * v b

/-- The Schur block built at the `2*diag(T)` sites (the interior loop body
and the unrolled `X1` site of `chol`): `X_i = 2·diag(t_{i-1}) - L_{i-1}·L_{i-1}ᵀ`,
plus `eps·I` when stabilization is on. -/
def schurDiagT (Nf : ℕ → ℕ) (t : ℕ → ℕ → ℚ) (stab : Bool) (eps : ℚ)
    (i : ℕ) (prevL : Mat) : Mat :=
  fun a b =>
    (if a = b then 2 * t (i - 1) a else 0)
    - (∑ c ∈ Finset.range (Nf (i - 1)), prevL a c * prevL b c)
    + (if stab ∧ a = b then eps else 0)

/-- The Schur block built at the unrolled `X2` site of `chol`:
`X_L = I (+ eps·I) - L_{L-1}·L_{L-1}ᵀ`. -/
def schurLast (Nf : ℕ → ℕ) (L : ℕ) (stab : Bool) (eps : ℚ) (prevL : Mat) : Mat :=
  fun a b =>
    (if a = b then 1 else 0) + (if stab ∧ a = b then eps else 0)
    - ∑ c ∈ Finset.range (Nf (L - 1)), prevL a c * prevL b c

/-- The Schur block fed to `blaze::llh` at step `i ∈ [1, L]` of the sweep. -/
def schurAt (Nf : ℕ → ℕ) (L : ℕ) (t : ℕ → ℕ → ℚ) (stab : Bool) (eps : ℚ)
    (i : ℕ) (prevL : Mat) : Mat :=
  if i = L then schurLast Nf L stab eps prevL else schurDiagT Nf t stab eps i prevL

/-- The first coupling block
`L_0 = -trans(expand(trans(t_0)) % trans(W_0) / Psi)`. -/
def L0m (Nf : ℕ → ℕ) (W : ℕ → Mat) (t : ℕ → ℕ → ℚ) (Psi : ℚ) : Mat :=
  fun a b => -(t 0 a * W 0 a b / Psi)

/-- The coupling block `L_i = -trans(solve(D_i, Z_i))` computed after a
successful factorization of step `i ∈ [1, L-1]`, with
`Z_i = trans(W_i) % expand(trans(t_i))` in the interior and
`Z_{L-1} = trans(W_{L-1})` at the last coupling. -/
def nextLm (Nf : ℕ → ℕ) (L : ℕ) (W : ℕ → Mat) (t : ℕ → ℕ → ℚ)
    (tsolve : ℕ → ℕ → Mat → Mat → Mat) (i : ℕ) (Di : Mat) : Mat :=
  if i < L - 1 then
    fun a b => -(tsolve (Nf i) (Nf (i + 1)) Di (fun p q => W i q p * t i q) b a)
  else
    fun a b => -(tsolve (Nf (L - 1)) (Nf L) Di (fun p q => W (L - 1) q p) b a)

/-- One elimination step of the sweep: factor the Schur block of step `i`
(`none` = `NotPositiveDefinite`), then compute the next coupling block
unless `i = L`.  The state is `(D-blocks, L-blocks, previous L-block)`. -/
def cholStep (Nf : ℕ → ℕ) (L : ℕ) (W : ℕ → Mat) (t : ℕ → ℕ → ℚ)
    (stab : Bool) (eps : ℚ) (llh : ℕ → Mat → Option Mat)
    (tsolve : ℕ → ℕ → Mat → Mat → Mat) (i : ℕ)
    (st : List Mat × List Mat × Mat) : Option (List Mat × List Mat × Mat) :=
  Option.map (fun Di =>
      if i < L then
        (st.1 ++ [Di], st.2.1 ++ [nextLm Nf L W t tsolve i Di],
          nextLm Nf L W t tsolve i Di)
      else
        (st.1 ++ [Di], st.2.1, st.2.2))
    (llh (Nf i) (schurAt Nf L t stab eps i st.2.2))

/-- The sweep after steps `1 … n` (step `0` only emits the closed-form
`L_0`; the scalar `D_0 = Psi` is implicit).  `cholRun … L` is the full
`barrierfunction_t::chol` call. -/
def cholRun (Nf : ℕ → ℕ) (L : ℕ) (W : ℕ → Mat) (t : ℕ → ℕ → ℚ) (Psi : ℚ)
    (stab : Bool) (eps : ℚ) (llh : ℕ → Mat → Option Mat)
    (tsolve : ℕ → ℕ → Mat → Mat → Mat) : ℕ → Option (List Mat × List Mat × Mat)
  | 0 => some ([], [L0m Nf W t Psi], L0m Nf W t Psi)
  | n + 1 => (cholRun Nf L W t Psi stab eps llh tsolve n).bind
      (cholStep Nf L W t stab eps llh tsolve (n + 1))

/-- The default numerical-stability ratio `std::ratio<1, 100>`. -/
def stabRatioDefault : ℚ := 1 / 100

/-! ## Eigenvalue post-processing of the feasibility line-search
(`feasibilitycheck_t::compute`)

The generalized eigensolver `blaze::gges` is external; its output is a list
of pairs `(alpha, beta)` with complex `alpha` modelled as `(re, im)`.  The
function maps each pair through the eligibility filter and returns the
absolute value of the maximum. -/

/-- The per-pair map of `feasibilitycheck_t::compute`: a pair is eligible
when `|Im α| < 1e-6`, `|β| > 1e-6` and the ratio `Re α / β` is negative;
eligible pairs yield their ratio, everything else the sentinel `-1`. -/
def feasMapEntry (a : ℚ × ℚ) (b : ℚ) : ℚ :=
  if |a.2| < 1 / 1000000 ∧ 1 / 1000000 < |b| then
    (if a.1 / b < 0 then a.1 / b else -1)
  else -1

/-- Eligibility of an eigenvalue pair (real pair with negative ratio). -/
def eligPair (p : (ℚ × ℚ) × ℚ) : Prop :=
  |p.1.2| < 1 / 1000000 ∧ 1 / 1000000 < |p.2| ∧ p.1.1 / p.2 < 0

instance (p : (ℚ × ℚ) × ℚ) : Decidable (eligPair p) := by
  unfold eligPair; infer_instance

/-- Maximum of a list of rationals (`blaze::max` over a nonempty vector). -/
def listMax : List ℚ → ℚ
  | [] => 0
  | [x] => x
  | x :: y :: tl => max x (listMax (y :: tl))

/-- The scalar returned by `feasibilitycheck_t::compute` as a function of
the `gges` output: `std::abs(blaze::max(rr))` with `rr` the mapped vector. -/
def feasPost (l : List ((ℚ × ℚ) × ℚ)) : ℚ :=
  |listMax (l.map fun p => feasMapEntry p.1 p.2)|

/-! ## The central-path Adam optimizer (`adam_barrier_t_impl::run`)

The position/gradient type is an abstract `V` with the elementwise
operations the optimizer uses (`VOps`); the loss/gradient oracle `prob`
receives a call counter standing for the mutable batching state
(`metainfo_t`) and the current position and `gamma`; the feasibility check
`fstep` maps (position, direction) to the safe step α⋆.  The stdout
progress printing of the loop is I/O-free here, and
`std::numeric_limits<T>::max()` is a parameter `fxlInit`. -/

/-- Hyperparameters of `adam_barrier_t_impl` (`parameter_t`). -/
structure AdamParams where
  max_iter : ℕ
  cpsteps : ℕ
  diff : ℚ
  threshold : ℚ
  window : ℕ
  gamma : ℚ
  alpha : ℚ
  beta1 : ℚ
  beta2 : ℚ
  beta3 : ℚ
  alphadec : ℚ
  gammadec : ℚ
  eps : ℚ

/-- The default hyperparameters
`{5e5, 5, 1e-10, 1e-8, 300, 1.0, 0.02, 0.9, 0.999, 5.0, 0.5, 0.5, 1e-8}`. -/
def defaultAdamParams : AdamParams :=
  { max_iter := 500000, cpsteps := 5, diff := 1 / 10000000000,
    threshold := 1 / 100000000, window := 300, gamma := 1, alpha := 1 / 50,
    beta1 := 9 / 10, beta2 := 999 / 1000, beta3 := 5, alphadec := 1 / 2,
    gammadec := 1 / 2, eps := 1 / 100000000 }

/-- The elementwise operations used on positions/gradients
(`liptrainweights_t` arithmetic and `function_t` square/sqrt; `zero` is the
default-constructed, zero-initialized `GRAD()`). -/
structure VOps (V : Type) where
  add : V → V → V
  sub : V → V → V
  smul : ℚ → V → V
  cadd : ℚ → V → V
  div : V → V → V
  square : V → V
  sqrt : V → V
  zero : V

/-- The mutable state of the inner Adam loop. -/
structure AdamSt (V : Type) where
  x : V
  m : V
  v : V
  grad : V
  fx : ℚ
  fxl : ℚ
  avg : ℚ
  i : ℕ
  calls : ℕ

/-- First-moment update `momentum = β₁·momentum + (1-β₁)·gradient`. -/
def adamM1 {V : Type} (ops : VOps V) (p : AdamParams) (s : AdamSt V) : V :=
  ops.add (ops.smul p.beta1 s.m) (ops.smul (1 - p.beta1) s.grad)

/-- Second-moment update `velocity = β₂·velocity + (1-β₂)·gradient²`. -/
def adamV1 {V : Type} (ops : VOps V) (p : AdamParams) (s : AdamSt V) : V :=
  ops.add (ops.smul p.beta2 s.v) (ops.smul (1 - p.beta2) (ops.square s.grad))

/-- The bias-corrected Adam direction
`t_momentum / (eps + sqrt(t_velocity))`, using the counter `i` as already
incremented by the loop condition `i++`. -/
def adamDir {V : Type} (ops : VOps V) (p : AdamParams) (s : AdamSt V) : V :=
  ops.div (ops.smul (1 / (1 - p.beta1 ^ (s.i + 1))) (adamM1 ops p s))
    (ops.cadd p.eps (ops.sqrt (ops.smul (1 / (1 - p.beta2 ^ (s.i + 1))) (adamV1 ops p s))))

/-- The loop condition
`abs(fxl - fx) > diff && i++ < max_iter && avglossdecrease < -threshold`
(the post-increment is reflected in `innerBody` setting `i := i + 1`). -/
def innerCond {V : Type} (p : AdamParams) (diffT thrT : ℚ) (s : AdamSt V) : Prop :=
  diffT < |s.fxl - s.fx| ∧ s.i < p.max_iter ∧ s.avg < -thrT

instance {V : Type} (p : AdamParams) (diffT thrT : ℚ) (s : AdamSt V) :
    Decidable (innerCond p diffT thrT s) := by
  unfold innerCond; infer_instance

/-- One iteration of the inner Adam loop, including the optional
feasibility guard, the position update `x -= alpha * dalpha * direction`,
the oracle call and the sliding-window update. -/
def innerBody {V : Type} (ops : VOps V) (prob : ℕ → V → ℚ → V × ℚ)
    (fstep : V → V → ℚ) (feas : Bool) (p : AdamParams) (gamma alpha : ℚ)
    (s : AdamSt V) : AdamSt V :=
  let m1 := adamM1 ops p s
  let v1 := adamV1 ops p s
  let dir := adamDir ops p s
  let guard := feas = true ∧ fstep s.x dir < 1 * alpha
  let m2 := if guard then ops.zero else m1
  let v2 := if guard then ops.zero else v1
  let dalpha : ℚ := if guard then fstep s.x dir / alpha / 4 else 1
  let x1 := ops.sub s.x (ops.smul (alpha * dalpha) dir)
  let pr := prob s.calls x1 gamma
  { x := x1, m := m2, v := v2, grad := pr.1, fx := pr.2, fxl := s.fx,
    avg := (((p.window - 1 : ℕ) : ℚ) * s.avg + pr.2 - s.fx) / (p.window : ℚ),
    i := s.i + 1, calls := s.calls + 1 }

/-- The inner Adam `while` loop of one central-path stage. -/
def innerLoop {V : Type} (ops : VOps V) (prob : ℕ → V → ℚ → V × ℚ)
    (fstep : V → V → ℚ) (feas : Bool) (p : AdamParams) (diffT thrT gamma alpha : ℚ)
    (s : AdamSt V) : AdamSt V :=
  if innerCond p diffT thrT s then
    innerLoop ops prob fstep feas p diffT thrT gamma alpha
      (innerBody ops prob fstep feas p gamma alpha s)
  else s
termination_by p.max_iter - s.i
decreasing_by
  have hi : s.i < p.max_iter := by
    rename_i h
    exact h.2.1
  simp only [innerBody]
  omega

/-- The state carried from one central-path stage to the next: position,
moment accumulators, oracle call counter and last objective value. -/
structure Carry (V : Type) where
  x : V
  m : V
  v : V
  calls : ℕ
  fx : ℚ

def carryOf {V : Type} (s : AdamSt V) : Carry V :=
  ⟨s.x, s.m, s.v, s.calls, s.fx⟩

/-- Stage entry: one oracle call fills `gradient`/`fx`; the iteration
counter restarts at `0`, `fxl` at `numeric_limits::max()` (parameter
`fxlInit`) and the sliding window at `-10`. -/
def stageInit {V : Type} (ops : VOps V) (prob : ℕ → V → ℚ → V × ℚ)
    (fxlInit gamma : ℚ) (c : Carry V) : AdamSt V :=
  let pr := prob c.calls c.x gamma
  { x := c.x, m := c.m, v := c.v, grad := pr.1, fx := pr.2, fxl := fxlInit,
    avg := -10, i := 0, calls := c.calls + 1 }

/-- One central-path stage `j`: thresholds `diff·β₃^(cpsteps-j)` and
`threshold·β₃^(cpsteps-j)`, then the inner loop. -/
def stageStep {V : Type} (ops : VOps V) (prob : ℕ → V → ℚ → V × ℚ)
    (fstep : V → V → ℚ) (feas : Bool) (p : AdamParams) (fxlInit : ℚ)
    (j : ℕ) (gamma alpha : ℚ) (c : Carry V) : Carry V :=
  carryOf (innerLoop ops prob fstep feas p
    (p.diff * p.beta3 ^ (p.cpsteps - j)) (p.threshold * p.beta3 ^ (p.cpsteps - j))
    gamma alpha (stageInit ops prob fxlInit gamma c))

/-- The stage loop `for j in 0 … cpsteps-1`, threading `gamma`/`alpha`
through the decays `gamma *= gammadec`, `alpha *= alphadec`. -/
def runStages {V : Type} (ops : VOps V) (prob : ℕ → V → ℚ → V × ℚ)
    (fstep : V → V → ℚ) (feas : Bool) (p : AdamParams) (fxlInit : ℚ) :
    ℕ → ℕ → ℚ → ℚ → Carry V → Carry V
  | 0, _, _, _, c => c
  | togo + 1, j, gamma, alpha, c =>
      runStages ops prob fstep feas p fxlInit togo (j + 1)
        (gamma * p.gammadec) (alpha * p.alphadec)
        (stageStep ops prob fstep feas p fxlInit j gamma alpha c)

/-- Closed-form variant of the stage loop: stage `j` runs with
`gamma₀·gammadec^j` and `alpha₀·alphadec^j` directly. -/
def runStagesC {V : Type} (ops : VOps V) (prob : ℕ → V → ℚ → V × ℚ)
    (fstep : V → V → ℚ) (feas : Bool) (p : AdamParams) (fxlInit : ℚ) :
    ℕ → ℕ → Carry V → Carry V
  | 0, _, c => c
  | togo + 1, j, c =>
      runStagesC ops prob fstep feas p fxlInit togo (j + 1)
        (stageStep ops prob fstep feas p fxlInit j
          (p.gamma * p.gammadec ^ j) (p.alpha * p.alphadec ^ j) c)

/-- The full `adam_barrier_t_impl::run`: moment accumulators start at the
zero-initialized `GRAD()`, and the final position and objective value are
returned. -/
def adamRun {V : Type} (ops : VOps V) (prob : ℕ → V → ℚ → V × ℚ)
    (fstep : V → V → ℚ) (feas : Bool) (p : AdamParams) (fxlInit : ℚ)
    (x0 : V) : V × ℚ :=
  let c := runStages ops prob fstep feas p fxlInit p.cpsteps 0 p.gamma p.alpha
    ⟨x0, ops.zero, ops.zero, 0, 0⟩
  (c.x, c.fx)

/-! ## A concrete instance: topology `(1, 1, 1)`

A two-layer network with all widths `1`, `Ψ = 13/12`, weights
`W₀ = [[1]]`, `W₁ = [[3/5]]` and `T`-parameter `t₀ = [13/8]`.  The exact
factorization and selected-inverse stacks below satisfy `cholRel` and
`invRel`, and `minv1` is the exact inverse of the certificate matrix
`chi = [[169/144, -13/8, 0], [-13/8, 13/4, -3/5], [0, -3/5, 1]]`. -/

/-- Widths of the `(1,1,1)` instance. -/
def nf1 : ℕ → ℕ := fun _ => 1

/-- Weight stack of the `(1,1,1)` instance. -/
def w1 : ℕ → Mat := fun I _ _ => if I = 0 then 1 else 3 / 5

/-- `T`-parameters of the `(1,1,1)` instance. -/
def t1 : ℕ → ℕ → ℚ := fun _ _ => 13 / 8

/-- Diagonal factor blocks: `Dm 1 = [[1]]`, `Dm 2 = [[4/5]]`. -/
def d1 : ℕ → Mat := fun i _ _ => if i = 1 then 1 else 4 / 5

/-- Sub-diagonal factor blocks: `Lm 0 = [[-3/2]]`, `Lm 1 = [[-3/5]]`. -/
def l1 : ℕ → Mat := fun I _ _ => if I = 0 then -(3 / 2) else -(3 / 5)

/-- Diagonal inverse blocks: `Pm 0 = [[2601/676]]`, `Pm 1 = Pm 2 = [[25/16]]`. -/
def pm1 : ℕ → Mat := fun i _ _ => if i = 0 then 2601 / 676 else 25 / 16

/-- Sub-diagonal inverse blocks: `Km 0 = [[225/104]]`, `Km 1 = [[15/16]]`. -/
def km1 : ℕ → Mat := fun i _ _ => if i = 0 then 225 / 104 else 15 / 16

/-- Intermediate `tempL = solve(D_L, I) = [[5/4]]`. -/
def tempL1 : Mat := fun _ _ => 5 / 4

/-- Intermediate `tmp 1 = solve(trans(D_1), trans(L_1)) = [[-3/5]]`. -/
def tmp1 : ℕ → Mat := fun _ _ _ => -(3 / 5)

/-- Intermediate `temp2 1 = solve(D_1, I) = [[1]]`. -/
def temp21 : ℕ → Mat := fun _ _ _ => 1

/-- Intermediate `su 1 = solve(trans(D_1), temp2 1) = [[1]]`. -/
def su1 : ℕ → Mat := fun _ _ _ => 1

/-- The exact inverse of the certificate matrix of the `(1,1,1)` instance. -/
def minv1 : Mat := fun r c =>
  if r = 0 ∧ c = 0 then 2601 / 676
  else if (r = 0 ∧ c = 1) ∨ (r = 1 ∧ c = 0) then 225 / 104
  else if (r = 0 ∧ c = 2) ∨ (r = 2 ∧ c = 0) then 135 / 104
  else if (r = 1 ∧ c = 1) ∨ (r = 2 ∧ c = 2) then 25 / 16
  else 15 / 16

/-- Rational-valued instance of the elementwise vector operations, used to
exercise the optimizer embedding on scalars (`sqrt` is an oracle here and
is instantiated by the identity). -/
def qVOps : VOps ℚ :=
  { add := fun a b => a + b, sub := fun a b => a - b, smul := fun c v => c * v,
    cadd := fun c v => c + v, div := fun a b => a / b,
    square := fun v => v * v, sqrt := fun v => v, zero := 0 }

/-- A Cholesky oracle resolving the two dense blocks visited by the sweep
on the `(1,1,1)` instance: `[[1]] ↦ [[1]]` and `[[16/25]] ↦ [[4/5]]`. -/
def llhW : ℕ → Mat → Option Mat := fun _ X =>
  if X 0 0 = 1 then some (fun _ _ => 1)
  else if X 0 0 = 16 / 25 then some (fun _ _ => 4 / 5)
  else none

/-- An exact triangular-solve oracle for `1 × 1` diagonal blocks. -/
def tsolveW : ℕ → ℕ → Mat → Mat → Mat := fun _ _ D Z => fun p q => Z p q / D p p

/-! # Theorems -/

/-! ## Flat-matrix lemmas -/

theorem mB_assoc (m n : ℕ) (f g h : Mat) (a b : ℕ) :
    mB n (mB m f g) h a b = mB m f (mB n g h) a b := by
  simp only [mB, Finset.sum_mul, Finset.mul_sum]
  rw [Finset.sum_comm]
  simp [mul_assoc]

theorem mB_id_left (n : ℕ) (f : Mat) (a b : ℕ) (ha : a < n) :
    mB n (idF n) f a b = f a b := by
  simp only [mB, idF]
  rw [Finset.sum_eq_single a]
  · simp [ha]
  · intro c _ hc
    have hne : ¬(a = c ∧ a < n) := fun h => hc h.1.symm
    simp [hne]
  · intro h
    exact absurd (Finset.mem_range.mpr ha) h

theorem mB_id_right (n : ℕ) (f : Mat) (a b : ℕ) (hb : b < n) :
    mB n f (idF n) a b = f a b := by
  simp only [mB, idF]
  rw [Finset.sum_eq_single b]
  · simp [hb]
  · intro c _ hc
    have hne : ¬(c = b ∧ c < n) := fun h => hc h.1
    simp [hne]
  · intro h
    exact absurd (Finset.mem_range.mpr hb) h

theorem mB_congr_right (n : ℕ) (f g1 g2 : Mat) (a b : ℕ)
    (h : ∀ c < n, g1 c b = g2 c b) : mB n f g1 a b = mB n f g2 a b := by
  simp only [mB]
  exact Finset.sum_congr rfl fun c hc => by
    rw [h c (Finset.mem_range.mp hc)]

theorem mB_congr_left (n : ℕ) (f1 f2 g : Mat) (a b : ℕ)
    (h : ∀ c < n, f1 a c = f2 a c) : mB n f1 g a b = mB n f2 g a b := by
  simp only [mB]
  exact Finset.sum_congr rfl fun c hc => by
    rw [h c (Finset.mem_range.mp hc)]

theorem toFinMat_mul (n : ℕ) (f g : Mat) :
    toFinMat n (mB n f g) = toFinMat n f * toFinMat n g := by
  ext i j
  simp only [toFinMat, Matrix.mul_apply, Matrix.of_apply, mB]
  rw [← Fin.sum_univ_eq_sum_range fun c => f i.val c * g c j.val]

theorem toFinMat_id (n : ℕ) : toFinMat n (idF n) = 1 := by
  ext i j
  simp only [toFinMat, Matrix.of_apply, idF, Matrix.one_apply]
  rcases eq_or_ne i j with h | h
  · simp [h, j.isLt]
  · have : i.val ≠ j.val := fun hv => h (Fin.ext hv)
    simp [h, this]

/-- A square one-sided inverse on a range is two-sided
(`Matrix.mul_eq_one_comm` transported to flat matrices). -/
theorem mB_one_comm (n : ℕ) (f g : Mat)
    (h : ∀ a < n, ∀ b < n, mB n f g a b = idF n a b) :
    ∀ a < n, ∀ b < n, mB n g f a b = idF n a b := by
  have hfg : toFinMat n f * toFinMat n g = 1 := by
    rw [← toFinMat_mul, ← toFinMat_id n]
    ext i j
    exact h i.val i.isLt j.val j.isLt
  have hgf : toFinMat n g * toFinMat n f = 1 := Matrix.mul_eq_one_comm.mp hfg
  intro a ha b hb
  have h2 : toFinMat n (mB n g f) = toFinMat n (idF n) := by
    rw [toFinMat_mul, toFinMat_id, hgf]
  have h3 := congrFun (congrFun h2 ⟨a, ha⟩) ⟨b, hb⟩
  simpa [toFinMat] using h3

/-- Right cancellation: if `d` has a right inverse `e` of order `n` and
`f·d = g·d` holds on the `m × n` range, then `f = g` there. -/
theorem mB_cancel_right (n m : ℕ) (f g d e : Mat)
    (hde : ∀ a < n, ∀ b < n, mB n d e a b = idF n a b)
    (hfg : ∀ a < m, ∀ b < n, mB n f d a b = mB n g d a b) :
    ∀ a < m, ∀ b < n, f a b = g a b := by
  intro a ha b hb
  have hf : f a b = mB n (mB n f d) e a b := by
    rw [mB_assoc n n f d e a b,
        mB_congr_right n f (mB n d e) (idF n) a b (fun c hc => hde c hc b hb),
        mB_id_right n f a b hb]
  have hg : g a b = mB n (mB n g d) e a b := by
    rw [mB_assoc n n g d e a b,
        mB_congr_right n g (mB n d e) (idF n) a b (fun c hc => hde c hc b hb),
        mB_id_right n g a b hb]
  rw [hf, hg]
  exact mB_congr_left n (mB n f d) (mB n g d) e a b (fun c hc => hfg a ha c hc)

/-! ## Offset lemmas -/

theorem ofs_succ_eq (Nf : ℕ → ℕ) (i : ℕ) :
    ofs Nf (i + 1) = Nf 0 + hofs Nf i := by
  induction i with
  | zero => simp [ofs, hofs]
  | succ i ih =>
    rw [show ofs Nf (i + 1 + 1) = ofs Nf (i + 1) + Nf (i + 1) from rfl, ih,
      show hofs Nf (i + 1) = hofs Nf i + Nf (i + 1) from rfl]
    ring

theorem ofs_mono (Nf : ℕ → ℕ) {i j : ℕ} (h : i ≤ j) : ofs Nf i ≤ ofs Nf j := by
  induction j with
  | zero => simp_all
  | succ j ih =>
    rcases Nat.lt_or_ge i (j + 1) with hlt | hge
    · exact le_trans (ih (Nat.lt_succ_iff.mp hlt)) (Nat.le_add_right _ _)
    · have : i = j + 1 := le_antisymm h hge
      simp [this]

theorem hofs_mono (Nf : ℕ → ℕ) {i j : ℕ} (h : i ≤ j) : hofs Nf i ≤ hofs Nf j := by
  induction j with
  | zero => simp_all
  | succ j ih =>
    rcases Nat.lt_or_ge i (j + 1) with hlt | hge
    · exact le_trans (ih (Nat.lt_succ_iff.mp hlt)) (Nat.le_add_right _ _)
    · have : i = j + 1 := le_antisymm h hge
      simp [this]

theorem inBlk_ofs_add (Nf : ℕ → ℕ) (i a : ℕ) (ha : a < Nf i) :
    inBlk Nf i (ofs Nf i + a) := by
  refine ⟨Nat.le_add_right _ _, ?_⟩
  simpa [ofs] using ha

theorem inBlk_unique (Nf : ℕ → ℕ) {i j r : ℕ}
    (hi : inBlk Nf i r) (hj : inBlk Nf j r) : i = j := by
  by_contra hne
  rcases Nat.lt_or_ge i j with h | h
  · have h1 : ofs Nf (i + 1) ≤ ofs Nf j := ofs_mono Nf h
    have h2 := hi.2
    have h3 := hj.1
    omega
  · have hj_lt : j < i := lt_of_le_of_ne h (Ne.symm hne)
    have h1 : ofs Nf (j + 1) ≤ ofs Nf i := ofs_mono Nf hj_lt
    have h2 := hj.2
    have h3 := hi.1
    omega

theorem inBlk_iff (Nf : ℕ → ℕ) {i j b : ℕ} (hb : b < Nf j) :
    inBlk Nf i (ofs Nf j + b) ↔ i = j := by
  constructor
  · intro h
    exact inBlk_unique Nf h (inBlk_ofs_add Nf j b hb)
  · intro h
    subst h
    exact inBlk_ofs_add Nf i b hb

/-- Every flat index below `ofs Nf m` lies in a block. -/
theorem blk_decompose (Nf : ℕ → ℕ) (m : ℕ) :
    ∀ r < ofs Nf m, ∃ i < m, ∃ a < Nf i, r = ofs Nf i + a := by
  induction m with
  | zero => simp [ofs]
  | succ m ih =>
    intro r hr
    rcases Nat.lt_or_ge r (ofs Nf m) with h | h
    · obtain ⟨i, hi, a, hA, hEq⟩ := ih r h
      exact ⟨i, Nat.lt_succ_of_lt hi, a, hA, hEq⟩
    · refine ⟨m, Nat.lt_succ_self m, r - ofs Nf m, ?_, ?_⟩
      · have : r < ofs Nf m + Nf m := by simpa [ofs] using hr
        omega
      · omega

/-- Splitting a contiguous range sum at an offset. -/
theorem sum_range_split (p q : ℕ) (f : ℕ → ℚ) :
    ∑ k ∈ Finset.range (p + q), f k
      = (∑ k ∈ Finset.range p, f k) + ∑ a ∈ Finset.range q, f (p + a) := by
  induction q with
  | zero => simp
  | succ q ih =>
    rw [show p + (q + 1) = (p + q) + 1 by ring, Finset.sum_range_succ, ih,
      Finset.sum_range_succ]
    ring

/-- A flat sum over `range (ofs Nf m)` decomposes into blockwise sums. -/
theorem sum_range_ofs (Nf : ℕ → ℕ) (m : ℕ) (f : ℕ → ℚ) :
    ∑ k ∈ Finset.range (ofs Nf m), f k
      = ∑ i ∈ Finset.range m, ∑ a ∈ Finset.range (Nf i), f (ofs Nf i + a) := by
  induction m with
  | zero => simp [ofs]
  | succ m ih =>
    rw [show ofs Nf (m + 1) = ofs Nf m + Nf m from rfl, sum_range_split, ih,
      Finset.sum_range_succ]

/-- The analogous decomposition for the hidden-coordinate space. -/
theorem sum_range_hofs (Nf : ℕ → ℕ) (m : ℕ) (f : ℕ → ℚ) :
    ∑ k ∈ Finset.range (hofs Nf m), f k
      = ∑ i ∈ Finset.range m, ∑ a ∈ Finset.range (Nf (i + 1)), f (hofs Nf i + a) := by
  induction m with
  | zero => simp [hofs]
  | succ m ih =>
    rw [show hofs Nf (m + 1) = hofs Nf m + Nf (m + 1) from rfl, sum_range_split, ih,
      Finset.sum_range_succ]

theorem inHBlk_hofs_add (Nf : ℕ → ℕ) (i a : ℕ) (ha : a < Nf (i + 1)) :
    inHBlk Nf i (hofs Nf i + a) := by
  refine ⟨Nat.le_add_right _ _, ?_⟩
  simpa [hofs] using ha

theorem inHBlk_iff (Nf : ℕ → ℕ) {i j b : ℕ} (hb : b < Nf (j + 1)) :
    inHBlk Nf i (hofs Nf j + b) ↔ i = j := by
  constructor
  · intro h
    by_contra hne
    rcases Nat.lt_or_ge i j with hlt | hge
    · have h1 : hofs Nf (i + 1) ≤ hofs Nf j := hofs_mono Nf hlt
      have := h.2
      omega
    · have hj_lt : j < i := lt_of_le_of_ne hge (Ne.symm hne)
      have h1 : hofs Nf (j + 1) ≤ hofs Nf i := hofs_mono Nf hj_lt
      have h2 := h.1
      have h3 : hofs Nf j + b < hofs Nf (j + 1) := by simpa [hofs] using hb
      omega
  · intro h
    subst h
    exact inHBlk_hofs_add Nf i b hb

theorem ofs_add_inj (Nf : ℕ → ℕ) {i j a b : ℕ} (ha : a < Nf i) (hb : b < Nf j)
    (h : ofs Nf i + a = ofs Nf j + b) : i = j ∧ a = b := by
  have h1 : inBlk Nf i (ofs Nf j + b) := h ▸ inBlk_ofs_add Nf i a ha
  have h2 : i = j := (inBlk_iff Nf hb).mp h1
  subst h2
  exact ⟨rfl, by omega⟩

theorem N0_le_ofs (Nf : ℕ → ℕ) {i : ℕ} (h : 1 ≤ i) : Nf 0 ≤ ofs Nf i := by
  have := ofs_mono Nf h
  simpa [ofs] using this

/-! ## Block evaluation of the assembled Cholesky factor -/

theorem Dblk_pos (D0 : ℚ) (Dm : ℕ → Mat) {i : ℕ} (h : 1 ≤ i) :
    Dblk D0 Dm i = Dm i := by
  obtain ⟨i0, rfl⟩ : ∃ i0, i = i0 + 1 := ⟨i - 1, by omega⟩
  rfl

theorem trainL_blk (Nf : ℕ → ℕ) (L : ℕ) (D0 : ℚ) (Dm Lm : ℕ → Mat)
    {i j a b : ℕ} (hi : i ≤ L) (hj : j ≤ L) (ha : a < Nf i) (hb : b < Nf j) :
    trainL Nf L D0 Dm Lm (ofs Nf i + a) (ofs Nf j + b)
      = if i = j then Dblk D0 Dm i a b
        else if i = j + 1 then Lm j a b
        else 0 := by
  have hrB : ∀ I : ℕ, inBlk Nf I (ofs Nf i + a) ↔ I = i := fun I => inBlk_iff Nf ha
  have hcB : ∀ I : ℕ, inBlk Nf I (ofs Nf j + b) ↔ I = j := fun I => inBlk_iff Nf hb
  have hsub_r : ∀ I : ℕ, I = i → ofs Nf i + a - ofs Nf I = a := by
    intro I h; subst h; omega
  have hsub_c : ∀ I : ℕ, I = j → ofs Nf j + b - ofs Nf I = b := by
    intro I h; subst h; omega
  -- the scalar (0,0) write
  have hfirst : (if ofs Nf i + a < Nf 0 ∧ ofs Nf j + b < Nf 0 ∧ ofs Nf i + a = ofs Nf j + b
        then D0 else 0)
      = if i = 0 ∧ j = 0 ∧ a = b then D0 else 0 := by
    rcases Nat.eq_zero_or_pos i with hi0 | hipos
    · rcases Nat.eq_zero_or_pos j with hj0 | hjpos
      · subst hi0; subst hj0
        simp only [ofs, Nat.zero_add]
        by_cases hab : a = b
        · subst hab
          simp [ha, hb]
        · have : ¬((0 : ℕ) + a = 0 + b) := by omega
          simp [hab, ha, hb, this]
      · have hge : Nf 0 ≤ ofs Nf j + b := le_trans (N0_le_ofs Nf hjpos) (Nat.le_add_right _ _)
        have h1 : ¬(ofs Nf j + b < Nf 0) := by omega
        have h2 : ¬(j = 0) := by omega
        simp [h1, h2]
    · have hge : Nf 0 ≤ ofs Nf i + a := le_trans (N0_le_ofs Nf hipos) (Nat.le_add_right _ _)
      have h1 : ¬(ofs Nf i + a < Nf 0) := by omega
      have h2 : ¬(i = 0) := by omega
      simp [h1, h2]
  simp only [trainL]
  rw [hfirst]
  -- the blockwise writes
  by_cases hij : i = j
  · subst hij
    rcases Nat.eq_zero_or_pos i with hi0 | hipos
    · subst hi0
      have hz : ∀ I ∈ Finset.range L,
          ((if inBlk Nf (I + 1) (ofs Nf 0 + a) ∧ inBlk Nf I (ofs Nf 0 + b) then
              Lm I (ofs Nf 0 + a - ofs Nf (I + 1)) (ofs Nf 0 + b - ofs Nf I) else 0)
           + (if inBlk Nf (I + 1) (ofs Nf 0 + a) ∧ inBlk Nf (I + 1) (ofs Nf 0 + b) then
              Dm (I + 1) (ofs Nf 0 + a - ofs Nf (I + 1)) (ofs Nf 0 + b - ofs Nf (I + 1)) else 0))
            = 0 := by
        intro I _
        have h1 : ¬(I + 1 = 0) := by omega
        simp [hrB, h1]
      rw [Finset.sum_eq_zero hz]
      simp [Dblk]
    · obtain ⟨i0, rfl⟩ : ∃ i0, i = i0 + 1 := ⟨i - 1, by omega⟩
      have hmem : i0 ∈ Finset.range L := Finset.mem_range.mpr (by omega)
      rw [Finset.sum_eq_single_of_mem i0 hmem ?side]
      case side =>
        intro I _ hne
        have h1 : ¬(I + 1 = i0 + 1) := by omega
        simp [hrB, h1]
      have h1 : ¬(i0 = i0 + 1) := by omega
      have h2 : (i0 + 1 = i0 + 1) := rfl
      simp only [hrB, hcB, h2, h1, and_true, and_false, if_true, if_false, true_and]
      rw [hsub_r (i0 + 1) rfl, hsub_c (i0 + 1) rfl]
      have h3 : ¬(i0 + 1 = 0 ∧ i0 + 1 = 0 ∧ a = b) := by omega
      simp [h3, Dblk]
  · by_cases hij1 : i = j + 1
    · subst hij1
      have hmem : j ∈ Finset.range L := Finset.mem_range.mpr (by omega)
      rw [Finset.sum_eq_single_of_mem j hmem ?side2]
      case side2 =>
        intro I _ hne
        have h1 : ¬(I + 1 = j + 1) := by omega
        simp [hrB, h1]
      have h1 : ¬(j = j + 1) := by omega
      simp only [hrB, hcB, h1, and_false, if_false, true_and, and_true]
      rw [hsub_r (j + 1) rfl, hsub_c j rfl]
      have h3 : ¬(j + 1 = 0 ∧ j = 0 ∧ a = b) := by omega
      have h4 : ¬(j + 1 = j) := by omega
      simp [h3, h4]
    · have hz : ∀ I ∈ Finset.range L,
          ((if inBlk Nf (I + 1) (ofs Nf i + a) ∧ inBlk Nf I (ofs Nf j + b) then
              Lm I (ofs Nf i + a - ofs Nf (I + 1)) (ofs Nf j + b - ofs Nf I) else 0)
           + (if inBlk Nf (I + 1) (ofs Nf i + a) ∧ inBlk Nf (I + 1) (ofs Nf j + b) then
              Dm (I + 1) (ofs Nf i + a - ofs Nf (I + 1)) (ofs Nf j + b - ofs Nf (I + 1)) else 0))
            = 0 := by
        intro I _
        by_cases hIi : I + 1 = i
        · have h1 : ¬(I = j) := by omega
          have h2 : ¬(I + 1 = j) := by omega
          simp [hrB, hcB, h1, h2]
        · simp [hrB, hIi]
      rw [Finset.sum_eq_zero hz]
      have h3 : ¬(i = 0 ∧ j = 0 ∧ a = b) := by
        rintro ⟨h0, h00, _⟩
        exact hij (h0.trans h00.symm)
      simp [h3, hij, hij1]

/-! ## Block evaluation of the certificate matrix -/

theorem tDiag_at (Nf : ℕ → ℕ) (L : ℕ) (t : ℕ → ℕ → ℚ) {I0 a : ℕ}
    (hI0 : I0 < L - 1) (ha : a < Nf (I0 + 1)) :
    tDiag Nf L t (hofs Nf I0 + a) = t I0 a := by
  unfold tDiag
  rw [Finset.sum_eq_single_of_mem I0 (Finset.mem_range.mpr hI0)]
  · rw [if_pos (inHBlk_hofs_add Nf I0 a ha)]
    congr 1
    omega
  · intro I _ hne
    rw [if_neg]
    intro hmem
    exact hne ((inHBlk_iff Nf ha).mp hmem)

theorem ofs_hidden (Nf : ℕ → ℕ) {i : ℕ} (hi : 1 ≤ i) (a : ℕ) :
    ofs Nf i + a = Nf 0 + (hofs Nf (i - 1) + a) := by
  obtain ⟨i0, rfl⟩ : ∃ i0, i = i0 + 1 := ⟨i - 1, by omega⟩
  rw [ofs_succ_eq]
  simp
  ring

theorem hidden_lt_TN (Nf : ℕ → ℕ) (L : ℕ) {i a : ℕ} (h1 : 1 ≤ i) (h2 : i < L)
    (ha : a < Nf i) : hofs Nf (i - 1) + a < hofs Nf (L - 1) := by
  have e1 : hofs Nf (i - 1) + a < hofs Nf i := by
    obtain ⟨i0, rfl⟩ : ∃ i0, i = i0 + 1 := ⟨i - 1, by omega⟩
    have : hofs Nf (i0 + 1) = hofs Nf i0 + Nf (i0 + 1) := rfl
    simp only [Nat.add_sub_cancel]
    omega
  exact lt_of_lt_of_le e1 (hofs_mono Nf (by omega))

/-- Rows of the band matrix vanish outside the hidden range. -/
theorem trainB_row_zero (Nf : ℕ → ℕ) (L : ℕ) {i a : ℕ}
    (hcase : i = 0 ∨ i = L) (hL : 2 ≤ L) (hi : i ≤ L) (ha : a < Nf i) :
    ∀ k ∈ Finset.range (hofs Nf (L - 1)), trainB Nf L k (ofs Nf i + a) = 0 := by
  intro k hk
  have hkTN := Finset.mem_range.mp hk
  unfold trainB
  rcases hcase with h0 | hLL
  · subst h0
    rw [if_neg]
    rintro ⟨-, heq⟩
    have : a < Nf 0 := ha
    simp only [ofs] at heq
    omega
  · rw [if_neg]
    rintro ⟨-, heq⟩
    rw [ofs_hidden Nf (by omega : 1 ≤ i) a] at heq
    have he : i - 1 = L - 1 := by omega
    rw [he] at heq
    omega

theorem triBZ_TB_blk (Nf : ℕ → ℕ) (L : ℕ) (t : ℕ → ℕ → ℚ)
    {i j a b : ℕ} (hL : 2 ≤ L) (hi : i ≤ L) (hj : j ≤ L)
    (ha : a < Nf i) (hb : b < Nf j) :
    triBZ Nf L (trainT Nf L t) (trainB Nf L) (ofs Nf i + a) (ofs Nf j + b)
      = if i = j ∧ 1 ≤ i ∧ i < L ∧ a = b then t (i - 1) a else 0 := by
  unfold triBZ
  by_cases hhid : 1 ≤ i ∧ i < L
  · -- row in the hidden range: the band collapses the outer sum
    have hp : hofs Nf (i - 1) + a < hofs Nf (L - 1) :=
      hidden_lt_TN Nf L hhid.1 hhid.2 ha
    have hr : ofs Nf i + a = Nf 0 + (hofs Nf (i - 1) + a) := ofs_hidden Nf hhid.1 a
    rw [Finset.sum_eq_single_of_mem (hofs Nf (i - 1) + a) (Finset.mem_range.mpr hp)]
    · have hB1 : trainB Nf L (hofs Nf (i - 1) + a) (ofs Nf i + a) = 1 := by
        unfold trainB
        rw [if_pos ⟨hp, hr⟩]
      -- collapse the diagonal T-matrix
      rw [Finset.sum_eq_single_of_mem (hofs Nf (i - 1) + a) (Finset.mem_range.mpr hp)]
      · have hT : trainT Nf L t (hofs Nf (i - 1) + a) (hofs Nf (i - 1) + a)
            = t (i - 1) a := by
          unfold trainT
          rw [if_pos rfl]
          exact tDiag_at Nf L t (by omega) (by
            have : i - 1 + 1 = i := by omega
            rw [this]
            exact ha)
        rw [hB1, hT, one_mul]
        -- the trailing band entry decides the diagonal indicator
        unfold trainB
        by_cases hcase : i = j ∧ a = b
        · rw [if_pos ⟨hp, by rw [← hr, hcase.1, hcase.2]⟩,
            if_pos ⟨hcase.1, hhid.1, hhid.2, hcase.2⟩, mul_one]
        · have hnc1 : ¬(hofs Nf (i - 1) + a < hofs Nf (L - 1)
              ∧ ofs Nf j + b = Nf 0 + (hofs Nf (i - 1) + a)) := by
            rintro ⟨-, heq⟩
            rw [← hr] at heq
            obtain ⟨hji, hba⟩ := ofs_add_inj Nf hb ha heq
            exact hcase ⟨hji.symm, hba.symm⟩
          have hnc2 : ¬(i = j ∧ 1 ≤ i ∧ i < L ∧ a = b) :=
            fun hcon => hcase ⟨hcon.1, hcon.2.2.2⟩
          rw [if_neg hnc1, if_neg hnc2, mul_zero]
      · intro m _ hne
        have hT0 : trainT Nf L t (hofs Nf (i - 1) + a) m = 0 := by
          unfold trainT
          rw [if_neg (fun h => hne h.symm)]
        rw [hT0, mul_zero, zero_mul]
    · intro k _ hne
      have hB0 : trainB Nf L k (ofs Nf i + a) = 0 := by
        unfold trainB
        rw [if_neg]
        rintro ⟨-, heq⟩
        rw [hr] at heq
        omega
      rw [hB0]
      simp
  · -- row outside the hidden range: every band entry vanishes
    have hcase : i = 0 ∨ i = L := by omega
    have hz := trainB_row_zero Nf L hcase hL hi ha
    rw [Finset.sum_eq_zero]
    · have : ¬(i = j ∧ 1 ≤ i ∧ i < L ∧ a = b) := by tauto
      simp [this]
    · intro k hk
      rw [hz k hk]
      simp

theorem trainA_at (Nf : ℕ → ℕ) (L : ℕ) (W : ℕ → Mat) {jr j a b : ℕ}
    (ha : a < Nf (jr + 1)) (hb : b < Nf j) :
    trainA Nf L W (hofs Nf jr + a) (ofs Nf j + b)
      = if jr < L - 1 ∧ jr = j then W jr a b else 0 := by
  unfold trainA
  by_cases hjr : jr < L - 1
  · rw [Finset.sum_eq_single_of_mem jr (Finset.mem_range.mpr hjr)]
    · by_cases hjj : jr = j
      · subst hjj
        rw [if_pos ⟨inHBlk_hofs_add Nf jr a ha, inBlk_ofs_add Nf jr b hb⟩,
          if_pos ⟨hjr, rfl⟩]
        congr 1 <;> omega
      · rw [if_neg, if_neg (fun h => hjj h.2)]
        rintro ⟨-, hc⟩
        exact hjj ((inBlk_iff Nf hb).mp hc)
    · intro I _ hne
      rw [if_neg]
      rintro ⟨hrow, -⟩
      exact hne ((inHBlk_iff Nf ha).mp hrow)
  · rw [Finset.sum_eq_zero, if_neg (fun h => hjr h.1)]
    intro I hI
    rw [if_neg]
    rintro ⟨hrow, -⟩
    have : I = jr := (inHBlk_iff Nf ha).mp hrow
    have := Finset.mem_range.mp hI
    omega

theorem triBZ_TA_blk (Nf : ℕ → ℕ) (L : ℕ) (W : ℕ → Mat) (t : ℕ → ℕ → ℚ)
    {i j a b : ℕ} (hL : 2 ≤ L) (hi : i ≤ L) (hj : j ≤ L)
    (ha : a < Nf i) (hb : b < Nf j) :
    triBZ Nf L (trainT Nf L t) (trainA Nf L W) (ofs Nf i + a) (ofs Nf j + b)
      = if i = j + 1 ∧ i < L then t j a * W j a b else 0 := by
  unfold triBZ
  by_cases hhid : 1 ≤ i ∧ i < L
  · have hp : hofs Nf (i - 1) + a < hofs Nf (L - 1) :=
      hidden_lt_TN Nf L hhid.1 hhid.2 ha
    have hr : ofs Nf i + a = Nf 0 + (hofs Nf (i - 1) + a) := ofs_hidden Nf hhid.1 a
    have hai : a < Nf (i - 1 + 1) := by
      have : i - 1 + 1 = i := by omega
      rw [this]
      exact ha
    rw [Finset.sum_eq_single_of_mem (hofs Nf (i - 1) + a) (Finset.mem_range.mpr hp)]
    · have hB1 : trainB Nf L (hofs Nf (i - 1) + a) (ofs Nf i + a) = 1 := by
        unfold trainB
        rw [if_pos ⟨hp, hr⟩]
      rw [Finset.sum_eq_single_of_mem (hofs Nf (i - 1) + a) (Finset.mem_range.mpr hp)]
      · have hT : trainT Nf L t (hofs Nf (i - 1) + a) (hofs Nf (i - 1) + a)
            = t (i - 1) a := by
          unfold trainT
          rw [if_pos rfl]
          exact tDiag_at Nf L t (by omega) hai
        rw [hB1, hT, one_mul, trainA_at Nf L W hai hb]
        by_cases hcase : i = j + 1
        · have hj1 : i - 1 = j := by omega
          have hlt : i - 1 < L - 1 := by omega
          rw [if_pos ⟨hlt, hj1⟩, if_pos ⟨hcase, hhid.2⟩, hj1]
        · have hn1 : ¬(i - 1 < L - 1 ∧ i - 1 = j) := by
            rintro ⟨-, hj1⟩
            omega
          rw [if_neg hn1, if_neg (fun h => hcase h.1), mul_zero]
      · intro m _ hne
        have hT0 : trainT Nf L t (hofs Nf (i - 1) + a) m = 0 := by
          unfold trainT
          rw [if_neg (fun h => hne h.symm)]
        rw [hT0, mul_zero, zero_mul]
    · intro k _ hne
      have hB0 : trainB Nf L k (ofs Nf i + a) = 0 := by
        unfold trainB
        rw [if_neg]
        rintro ⟨-, heq⟩
        rw [hr] at heq
        omega
      rw [hB0]
      simp
  · have hcase : i = 0 ∨ i = L := by omega
    have hz := trainB_row_zero Nf L hcase hL hi ha
    rw [Finset.sum_eq_zero]
    · have hnot : ¬(i = j + 1 ∧ i < L) := by
        rcases hcase with h0 | hLL
        · rintro ⟨h, -⟩
          omega
        · rintro ⟨-, h⟩
          omega
      simp [hnot]
    · intro k hk
      rw [hz k hk]
      simp

theorem triAZ_AT_blk (Nf : ℕ → ℕ) (L : ℕ) (W : ℕ → Mat) (t : ℕ → ℕ → ℚ)
    {i j a b : ℕ} (hL : 2 ≤ L) (hi : i ≤ L) (hj : j ≤ L)
    (ha : a < Nf i) (hb : b < Nf j) :
    triAZ Nf L (trainA Nf L W) (trainT Nf L t) (ofs Nf i + a) (ofs Nf j + b)
      = if j = i + 1 ∧ j < L then W i b a * t i b else 0 := by
  unfold triAZ
  by_cases hhid : 1 ≤ j ∧ j < L
  · have hq : hofs Nf (j - 1) + b < hofs Nf (L - 1) :=
      hidden_lt_TN Nf L hhid.1 hhid.2 hb
    have hc : ofs Nf j + b = Nf 0 + (hofs Nf (j - 1) + b) := ofs_hidden Nf hhid.1 b
    have hbj : b < Nf (j - 1 + 1) := by
      have : j - 1 + 1 = j := by omega
      rw [this]
      exact hb
    -- collapse the inner band sum pointwise, then the diagonal T-matrix
    have hinner : ∀ k ∈ Finset.range (hofs Nf (L - 1)),
        (∑ m ∈ Finset.range (hofs Nf (L - 1)),
          trainA Nf L W k (ofs Nf i + a) * trainT Nf L t k m * trainB Nf L m (ofs Nf j + b))
        = trainA Nf L W k (ofs Nf i + a) * trainT Nf L t k (hofs Nf (j - 1) + b) := by
      intro k _
      rw [Finset.sum_eq_single_of_mem (hofs Nf (j - 1) + b) (Finset.mem_range.mpr hq)]
      · have hB1 : trainB Nf L (hofs Nf (j - 1) + b) (ofs Nf j + b) = 1 := by
          unfold trainB
          rw [if_pos ⟨hq, hc⟩]
        rw [hB1, mul_one]
      · intro m _ hne
        have hB0 : trainB Nf L m (ofs Nf j + b) = 0 := by
          unfold trainB
          rw [if_neg]
          rintro ⟨-, heq⟩
          rw [hc] at heq
          omega
        rw [hB0, mul_zero]
    rw [Finset.sum_congr rfl hinner,
      Finset.sum_eq_single_of_mem (hofs Nf (j - 1) + b) (Finset.mem_range.mpr hq)]
    · have hT : trainT Nf L t (hofs Nf (j - 1) + b) (hofs Nf (j - 1) + b)
          = t (j - 1) b := by
        unfold trainT
        rw [if_pos rfl]
        exact tDiag_at Nf L t (by omega) hbj
      rw [hT, trainA_at Nf L W hbj ha]
      by_cases hcase : j = i + 1
      · have hi1 : j - 1 = i := by omega
        have hlt : j - 1 < L - 1 := by omega
        rw [if_pos ⟨hlt, hi1⟩, if_pos ⟨hcase, hhid.2⟩, hi1]
      · have hn1 : ¬(j - 1 < L - 1 ∧ j - 1 = i) := by
          rintro ⟨-, hi1⟩
          omega
        rw [if_neg hn1, if_neg (fun h => hcase h.1), zero_mul]
    · intro k _ hne
      have hT0 : trainT Nf L t k (hofs Nf (j - 1) + b) = 0 := by
        unfold trainT
        rw [if_neg hne]
      rw [hT0, mul_zero]
  · have hcase : j = 0 ∨ j = L := by omega
    have hz := trainB_row_zero Nf L hcase hL hj hb
    rw [Finset.sum_eq_zero]
    · have hnot : ¬(j = i + 1 ∧ j < L) := by
        rcases hcase with h0 | hLL
        · rintro ⟨h, -⟩
          omega
        · rintro ⟨-, h⟩
          omega
      simp [hnot]
    · intro k _
      rw [Finset.sum_eq_zero]
      intro m hm
      rw [hz m hm, mul_zero]

theorem trainQ_blk (Nf : ℕ → ℕ) (L : ℕ) (W : ℕ → Mat) (rho : ℚ)
    {i j a b : ℕ} (hL : 2 ≤ L) (hi : i ≤ L) (hj : j ≤ L)
    (ha : a < Nf i) (hb : b < Nf j) :
    trainQ Nf L W rho (ofs Nf i + a) (ofs Nf j + b)
      = if i = L - 1 ∧ j = L then W (L - 1) b a
        else if i = L ∧ j = L - 1 then W (L - 1) a b
        else if i = 0 ∧ j = 0 ∧ a = b then -rho
        else if i = L ∧ j = L ∧ a = b then -1
        else 0 := by
  have e1 : ∀ I : ℕ, inBlk Nf I (ofs Nf i + a) ↔ I = i := fun I => inBlk_iff Nf ha
  have e2 : ∀ I : ℕ, inBlk Nf I (ofs Nf j + b) ↔ I = j := fun I => inBlk_iff Nf hb
  have e3r : ofs Nf i + a < Nf 0 ↔ i = 0 := by
    constructor
    · intro h
      by_contra h0
      have := N0_le_ofs Nf (by omega : 1 ≤ i)
      omega
    · intro h
      subst h
      simpa [ofs] using ha
  have e3c : ofs Nf j + b < Nf 0 ↔ j = 0 := by
    constructor
    · intro h
      by_contra h0
      have := N0_le_ofs Nf (by omega : 1 ≤ j)
      omega
    · intro h
      subst h
      simpa [ofs] using hb
  have e4 : ofs Nf i + a = ofs Nf j + b ↔ i = j ∧ a = b := by
    constructor
    · exact ofs_add_inj Nf ha hb
    · rintro ⟨h1, h2⟩
      rw [h1, h2]
  unfold trainQ
  by_cases h1 : i = L - 1 ∧ j = L
  · have ea : ofs Nf j + b - ofs Nf L = b := by rw [h1.2]; omega
    have eb : ofs Nf i + a - ofs Nf (L - 1) = a := by rw [h1.1]; omega
    rw [if_pos ⟨(e1 (L - 1)).mpr h1.1.symm, (e2 L).mpr h1.2.symm⟩,
      if_neg (fun h => by have := (e1 L).mp h.1; omega),
      if_neg (fun h => by have := e3r.mp h.1; omega),
      if_neg (fun h => by have := (e1 L).mp h.1; omega),
      if_pos h1, ea, eb]
    ring
  · by_cases h2 : i = L ∧ j = L - 1
    · have ea : ofs Nf i + a - ofs Nf L = a := by rw [h2.1]; omega
      have eb : ofs Nf j + b - ofs Nf (L - 1) = b := by rw [h2.2]; omega
      rw [if_neg (fun h => by have u1 := (e1 (L - 1)).mp h.1; have u2 := (e2 L).mp h.2; omega),
        if_pos ⟨(e1 L).mpr h2.1.symm, (e2 (L - 1)).mpr h2.2.symm⟩,
        if_neg (fun h => by have := e3r.mp h.1; omega),
        if_neg (fun h => by have u1 := (e1 L).mp h.1; have u2 := (e2 L).mp h.2.1; omega),
        if_neg h1, if_pos h2, ea, eb]
      ring
    · by_cases h3 : i = 0 ∧ j = 0
      · rw [if_neg (fun h => by have := (e2 L).mp h.2; omega),
          if_neg (fun h => by have := (e1 L).mp h.1; omega)]
        by_cases hab : a = b
        · rw [if_pos ⟨e3r.mpr h3.1, e3c.mpr h3.2,
              e4.mpr ⟨h3.1.trans h3.2.symm, hab⟩⟩,
            if_neg (fun h => by have := (e1 L).mp h.1; omega),
            if_neg (fun h => by have := h.2; omega),
            if_neg (fun h => by have := h.1; omega),
            if_pos ⟨h3.1, h3.2, hab⟩]
          ring
        · rw [if_neg (fun h => hab (e4.mp h.2.2).2),
            if_neg (fun h => by have := (e1 L).mp h.1; omega),
            if_neg (fun h => by have := h.2; omega),
            if_neg (fun h => by have := h.1; omega),
            if_neg (fun h => hab h.2.2),
            if_neg (fun h => by have := h.1; omega)]
          ring
      · by_cases h4 : i = L ∧ j = L
        · rw [if_neg (fun h => by have := (e1 (L - 1)).mp h.1; omega),
            if_neg (fun h => by have := (e2 (L - 1)).mp h.2; omega),
            if_neg (fun h => by have := e3r.mp h.1; omega)]
          by_cases hab : a = b
          · rw [if_pos ⟨(e1 L).mpr h4.1.symm, (e2 L).mpr h4.2.symm,
                e4.mpr ⟨h4.1.trans h4.2.symm, hab⟩⟩,
              if_neg (fun h => by have := h.1; omega),
              if_neg (fun h => by have := h.2; omega),
              if_neg (fun h => by have := h.1; omega),
              if_pos ⟨h4.1, h4.2, hab⟩]
            ring
          · rw [if_neg (fun h => hab (e4.mp h.2.2).2),
              if_neg (fun h => by have := h.1; omega),
              if_neg (fun h => by have := h.2; omega),
              if_neg (fun h => by have := h.1; omega),
              if_neg (fun h => hab h.2.2)]
            ring
        · rw [if_neg (fun h => h1 ⟨(e1 (L - 1)).mp h.1 |>.symm, (e2 L).mp h.2 |>.symm⟩),
            if_neg (fun h => h2 ⟨(e1 L).mp h.1 |>.symm, (e2 (L - 1)).mp h.2 |>.symm⟩),
            if_neg (fun h => h3 ⟨e3r.mp h.1, e3c.mp h.2.1⟩),
            if_neg (fun h => h4 ⟨(e1 L).mp h.1 |>.symm, (e2 L).mp h.2.1 |>.symm⟩),
            if_neg h1, if_neg h2,
            if_neg (fun h => h3 ⟨h.1, h.2.1⟩),
            if_neg (fun h => h4 ⟨h.1, h.2.1⟩)]
          ring

/-- The certificate matrix evaluated at block coordinates. -/
theorem chiOf_blk (Nf : ℕ → ℕ) (L : ℕ) (W : ℕ → Mat) (t : ℕ → ℕ → ℚ) (rho : ℚ)
    {i j a b : ℕ} (hL : 2 ≤ L) (hi : i ≤ L) (hj : j ≤ L)
    (ha : a < Nf i) (hb : b < Nf j) :
    chiOf Nf L W t rho (ofs Nf i + a) (ofs Nf j + b) = chiBlk L W t rho i j a b := by
  unfold chiOf
  rw [triBZ_TB_blk Nf L t hL hi hj ha hb, triBZ_TA_blk Nf L W t hL hi hj ha hb,
    triAZ_AT_blk Nf L W t hL hi hj ha hb, trainQ_blk Nf L W rho hL hi hj ha hb]
  unfold chiBlk
  by_cases c0 : i = 0 ∧ j = 0
  · rw [if_neg (fun h : i = j ∧ 1 ≤ i ∧ i < L ∧ a = b => by omega),
      if_neg (fun h : i = j + 1 ∧ i < L => by omega),
      if_neg (fun h : j = i + 1 ∧ j < L => by omega),
      if_neg (fun h : i = L - 1 ∧ j = L => by omega),
      if_neg (fun h : i = L ∧ j = L - 1 => by omega),
      if_neg (fun h : i = L ∧ j = L ∧ a = b => by omega),
      if_pos c0]
    by_cases hab : a = b
    · rw [if_pos ⟨c0.1, c0.2, hab⟩, if_pos hab]
      ring
    · rw [if_neg (fun h => hab h.2.2), if_neg hab]
      ring
  · by_cases cd : i = j ∧ i < L
    · rw [if_neg (fun h : i = j + 1 ∧ i < L => by omega),
        if_neg (fun h : j = i + 1 ∧ j < L => by omega),
        if_neg (fun h : i = L - 1 ∧ j = L => by omega),
        if_neg (fun h : i = L ∧ j = L - 1 => by omega),
        if_neg (fun h : i = 0 ∧ j = 0 ∧ a = b => by omega),
        if_neg (fun h : i = L ∧ j = L ∧ a = b => by omega),
        if_neg c0, if_pos cd]
      by_cases hab : a = b
      · rw [if_pos ⟨cd.1, by omega, cd.2, hab⟩, if_pos hab]
        ring
      · rw [if_neg (fun h => hab h.2.2.2), if_neg hab]
        ring
    · by_cases cdL : i = j
      · have hiL : i = L := by omega
        rw [if_neg (fun h : i = j ∧ 1 ≤ i ∧ i < L ∧ a = b => by omega),
          if_neg (fun h : i = j + 1 ∧ i < L => by omega),
          if_neg (fun h : j = i + 1 ∧ j < L => by omega),
          if_neg (fun h : i = L - 1 ∧ j = L => by omega),
          if_neg (fun h : i = L ∧ j = L - 1 => by omega),
          if_neg (fun h : i = 0 ∧ j = 0 ∧ a = b => by omega),
          if_neg c0, if_neg cd, if_pos cdL]
        by_cases hab : a = b
        · rw [if_pos ⟨hiL, by omega, hab⟩, if_pos hab]
          ring
        · rw [if_neg (fun h => hab h.2.2), if_neg hab]
          ring
      · by_cases cs : i = j + 1 ∧ i < L
        · rw [if_neg (fun h : i = j ∧ 1 ≤ i ∧ i < L ∧ a = b => by omega),
            if_pos cs,
            if_neg (fun h : j = i + 1 ∧ j < L => by omega),
            if_neg (fun h : i = L - 1 ∧ j = L => by omega),
            if_neg (fun h : i = L ∧ j = L - 1 => by omega),
            if_neg (fun h : i = 0 ∧ j = 0 ∧ a = b => by omega),
            if_neg (fun h : i = L ∧ j = L ∧ a = b => by omega),
            if_neg c0, if_neg cd, if_neg cdL, if_pos cs]
          ring
        · by_cases csL : i = j + 1
          · have hiL : i = L := by omega
            have hjL : j = L - 1 := by omega
            rw [if_neg (fun h : i = j ∧ 1 ≤ i ∧ i < L ∧ a = b => by omega),
              if_neg cs,
              if_neg (fun h : j = i + 1 ∧ j < L => by omega),
              if_neg (fun h : i = L - 1 ∧ j = L => by omega),
              if_pos ⟨hiL, hjL⟩,
              if_neg c0, if_neg cd, if_neg cdL, if_neg cs, if_pos csL]
            ring
          · by_cases cu : j = i + 1 ∧ j < L
            · rw [if_neg (fun h : i = j ∧ 1 ≤ i ∧ i < L ∧ a = b => by omega),
                if_neg (fun h : i = j + 1 ∧ i < L => by omega),
                if_pos cu,
                if_neg (fun h : i = L - 1 ∧ j = L => by omega),
                if_neg (fun h : i = L ∧ j = L - 1 => by omega),
                if_neg (fun h : i = 0 ∧ j = 0 ∧ a = b => by omega),
                if_neg (fun h : i = L ∧ j = L ∧ a = b => by omega),
                if_neg c0, if_neg cd, if_neg cdL,
                if_neg (fun h : i = j + 1 ∧ i < L => by omega),
                if_neg csL, if_pos cu]
              ring
            · by_cases cuL : j = i + 1
              · have hjL : j = L := by omega
                have hiL : i = L - 1 := by omega
                rw [if_neg (fun h : i = j ∧ 1 ≤ i ∧ i < L ∧ a = b => by omega),
                  if_neg (fun h : i = j + 1 ∧ i < L => by omega),
                  if_neg cu,
                  if_pos ⟨hiL, hjL⟩,
                  if_neg c0, if_neg cd, if_neg cdL,
                  if_neg (fun h : i = j + 1 ∧ i < L => by omega),
                  if_neg csL, if_neg cu, if_pos cuL]
                ring
              · rw [if_neg (fun h : i = j ∧ 1 ≤ i ∧ i < L ∧ a = b => by omega),
                  if_neg (fun h : i = j + 1 ∧ i < L => by omega),
                  if_neg cu,
                  if_neg (fun h : i = L - 1 ∧ j = L => by omega),
                  if_neg (fun h : i = L ∧ j = L - 1 => by omega),
                  if_neg (fun h : i = 0 ∧ j = 0 ∧ a = b => by omega),
                  if_neg (fun h : i = L ∧ j = L ∧ a = b => by omega),
                  if_neg c0, if_neg cd, if_neg cdL,
                  if_neg (fun h : i = j + 1 ∧ i < L => by omega),
                  if_neg csL, if_neg cu, if_neg cuL]
                ring

/-! ## The round-trip factorization -/

/-- Blockwise form of `L·Lᵀ = chi` for a completed sweep (lower-left half;
the other half follows by symmetry). -/
theorem LLt_blk (Nf : ℕ → ℕ) (L : ℕ) (Psi : ℚ) (W : ℕ → Mat) (t : ℕ → ℕ → ℚ)
    (D0 : ℚ) (Dm Lm : ℕ → Mat) (hL : 2 ≤ L) (hPsi : Psi ≠ 0)
    (hch : cholRel Nf L Psi 0 W t D0 Dm Lm)
    {i j a b : ℕ} (hi : i ≤ L) (hj : j ≤ L) (ha : a < Nf i) (hb : b < Nf j)
    (hij : j ≤ i) :
    (∑ k ∈ Finset.range (ofs Nf (L + 1)),
        trainL Nf L D0 Dm Lm (ofs Nf i + a) k * trainL Nf L D0 Dm Lm (ofs Nf j + b) k)
      = chiBlk L W t (Psi * Psi) i j a b := by
  obtain ⟨hD0, hL0, hX, hsolve, hsolveL, hXL⟩ := hch
  rw [sum_range_ofs]
  have hsum : ∀ k2 ∈ Finset.range (L + 1),
      (∑ c ∈ Finset.range (Nf k2),
        trainL Nf L D0 Dm Lm (ofs Nf i + a) (ofs Nf k2 + c)
          * trainL Nf L D0 Dm Lm (ofs Nf j + b) (ofs Nf k2 + c))
      = ∑ c ∈ Finset.range (Nf k2),
          ((if i = k2 then Dblk D0 Dm i a c else if i = k2 + 1 then Lm k2 a c else 0)
           * (if j = k2 then Dblk D0 Dm j b c else if j = k2 + 1 then Lm k2 b c else 0)) := by
    intro k2 hk2
    refine Finset.sum_congr rfl fun c hc => ?_
    rw [trainL_blk Nf L D0 Dm Lm hi (Nat.lt_succ_iff.mp (Finset.mem_range.mp hk2))
        ha (Finset.mem_range.mp hc),
      trainL_blk Nf L D0 Dm Lm hj (Nat.lt_succ_iff.mp (Finset.mem_range.mp hk2))
        hb (Finset.mem_range.mp hc)]
  rw [Finset.sum_congr rfl hsum]
  by_cases hii : i = j
  · subst hii
    rcases Nat.eq_zero_or_pos i with h0 | hpos
    · subst h0
      rw [Finset.sum_eq_single_of_mem 0 (Finset.mem_range.mpr (by omega))]
      · have hD : ∀ x y : ℕ, Dblk D0 Dm 0 x y = if x = y then D0 else 0 := fun x y => rfl
        have hval : (∑ c ∈ Finset.range (Nf 0),
            (if (0 : ℕ) = 0 then Dblk D0 Dm 0 a c else if (0 : ℕ) = 0 + 1 then Lm 0 a c else 0)
            * (if (0 : ℕ) = 0 then Dblk D0 Dm 0 b c else if (0 : ℕ) = 0 + 1 then Lm 0 b c else 0))
            = if a = b then D0 * D0 else 0 := by
          simp only [if_pos rfl, hD]
          by_cases hab : a = b
          · subst hab
            rw [Finset.sum_eq_single_of_mem a (Finset.mem_range.mpr ha)]
            · simp
            · intro c _ hca
              have hna : a ≠ c := fun h => hca h.symm
              simp [hna]
          · simp only [if_neg hab]
            apply Finset.sum_eq_zero
            intro c _
            by_cases hac : a = c
            · have hnb : b ≠ c := fun h => hab (hac.trans h.symm)
              simp [hnb]
            · simp [hac]
        rw [hval]
        unfold chiBlk
        rw [if_pos (⟨rfl, rfl⟩ : (0 : ℕ) = 0 ∧ (0 : ℕ) = 0), hD0]
      · intro k2 _ hk0
        apply Finset.sum_eq_zero
        intro c _
        rw [if_neg (fun h : (0 : ℕ) = k2 => hk0 h.symm), if_neg (by omega : ¬(0 : ℕ) = k2 + 1)]
        ring
    · obtain ⟨i0, rfl⟩ : ∃ i0, i = i0 + 1 := ⟨i - 1, by omega⟩
      have hne : i0 ≠ i0 + 1 := by omega
      have hsub : ({i0, i0 + 1} : Finset ℕ) ⊆ Finset.range (L + 1) := by
        intro x hx
        simp only [Finset.mem_insert, Finset.mem_singleton] at hx
        rcases hx with rfl | rfl
        · exact Finset.mem_range.mpr (by omega)
        · exact Finset.mem_range.mpr (by omega)
      rw [← Finset.sum_subset hsub ?hz]
      case hz =>
        intro x hxr hxn
        simp only [Finset.mem_insert, Finset.mem_singleton, not_or] at hxn
        apply Finset.sum_eq_zero
        intro c _
        rw [if_neg (fun h : i0 + 1 = x => hxn.2 h.symm),
          if_neg (fun h : i0 + 1 = x + 1 => hxn.1 (by omega))]
        ring
      rw [Finset.sum_pair hne]
      have e1 : (∑ c ∈ Finset.range (Nf i0),
          (if i0 + 1 = i0 then Dblk D0 Dm (i0 + 1) a c
            else if i0 + 1 = i0 + 1 then Lm i0 a c else 0)
          * (if i0 + 1 = i0 then Dblk D0 Dm (i0 + 1) b c
            else if i0 + 1 = i0 + 1 then Lm i0 b c else 0))
          = ∑ c ∈ Finset.range (Nf i0), Lm i0 a c * Lm i0 b c := by
        refine Finset.sum_congr rfl fun c _ => ?_
        rw [if_neg (by omega : ¬i0 + 1 = i0), if_neg (by omega : ¬i0 + 1 = i0),
          if_pos rfl, if_pos rfl]
      have e2 : (∑ c ∈ Finset.range (Nf (i0 + 1)),
          (if i0 + 1 = i0 + 1 then Dblk D0 Dm (i0 + 1) a c
            else if i0 + 1 = i0 + 1 + 1 then Lm (i0 + 1) a c else 0)
          * (if i0 + 1 = i0 + 1 then Dblk D0 Dm (i0 + 1) b c
            else if i0 + 1 = i0 + 1 + 1 then Lm (i0 + 1) b c else 0))
          = ∑ c ∈ Finset.range (Nf (i0 + 1)), Dm (i0 + 1) a c * Dm (i0 + 1) b c := by
        refine Finset.sum_congr rfl fun c _ => ?_
        rw [if_pos rfl, if_pos rfl]
        rfl
      rw [e1, e2]
      rcases Nat.lt_or_ge (i0 + 1) L with hlt | hge
      · rw [hX (i0 + 1) (by omega) hlt a ha b hb]
        unfold chiBlk
        rw [if_neg (by omega : ¬(i0 + 1 = 0 ∧ i0 + 1 = 0)),
          if_pos (⟨rfl, hlt⟩ : i0 + 1 = i0 + 1 ∧ i0 + 1 < L)]
        have : i0 + 1 - 1 = i0 := rfl
        rw [this]
        by_cases hab : a = b
        · rw [if_pos hab, if_pos hab]
          ring
        · rw [if_neg hab, if_neg hab]
          ring
      · have hiL : i0 + 1 = L := by omega
        subst hiL
        rw [hXL a ha b hb]
        unfold chiBlk
        rw [if_neg (by omega : ¬(i0 + 1 = 0 ∧ i0 + 1 = 0)),
          if_neg (by omega : ¬(i0 + 1 = i0 + 1 ∧ i0 + 1 < i0 + 1)), if_pos rfl]
        simp only [Nat.add_sub_cancel, Nat.add_sub_cancel_left]
        by_cases hab : a = b
        · rw [if_pos hab, if_pos hab]
          ring
        · rw [if_neg hab, if_neg hab]
          ring
  · by_cases hsucc : i = j + 1
    · subst hsucc
      rw [Finset.sum_eq_single_of_mem j (Finset.mem_range.mpr (by omega))]
      · have einner : (∑ c ∈ Finset.range (Nf j),
            (if j + 1 = j then Dblk D0 Dm (j + 1) a c
              else if j + 1 = j + 1 then Lm j a c else 0)
            * (if j = j then Dblk D0 Dm j b c else if j = j + 1 then Lm j b c else 0))
            = ∑ c ∈ Finset.range (Nf j), Lm j a c * Dblk D0 Dm j b c := by
          refine Finset.sum_congr rfl fun c _ => ?_
          rw [if_neg (by omega : ¬j + 1 = j), if_pos rfl, if_pos rfl]
        rw [einner]
        rcases Nat.eq_zero_or_pos j with hj0 | hjpos
        · subst hj0
          have hcol : (∑ c ∈ Finset.range (Nf 0), Lm 0 a c * Dblk D0 Dm 0 b c)
              = Lm 0 a b * D0 := by
            have hD : ∀ x y : ℕ, Dblk D0 Dm 0 x y = if x = y then D0 else 0 :=
              fun x y => rfl
            rw [Finset.sum_eq_single_of_mem b (Finset.mem_range.mpr hb)]
            · rw [hD, if_pos rfl]
            · intro c _ hcb
              rw [hD, if_neg (fun h => hcb h.symm)]
              ring
          rw [hcol, hL0 a ha b hb, hD0]
          unfold chiBlk
          rw [if_neg (by omega : ¬((0 : ℕ) + 1 = 0 ∧ (0 : ℕ) = 0)),
            if_neg (by omega : ¬((0 : ℕ) + 1 = 0 ∧ (0 : ℕ) + 1 < L)),
            if_neg (by omega : ¬(0 : ℕ) + 1 = 0),
            if_pos (⟨rfl, by omega⟩ : (0 : ℕ) + 1 = 0 + 1 ∧ (0 : ℕ) + 1 < L)]
          field_simp
        · rcases Nat.lt_or_ge j (L - 1) with hjlt | hjge
          · rw [Dblk_pos D0 Dm hjpos]
            have hcomm : (∑ c ∈ Finset.range (Nf j), Lm j a c * Dm j b c)
                = ∑ c ∈ Finset.range (Nf j), Dm j b c * Lm j a c :=
              Finset.sum_congr rfl fun c _ => mul_comm _ _
            rw [hcomm, hsolve j hjpos hjlt a ha b hb]
            unfold chiBlk
            rw [if_neg (by omega : ¬(j + 1 = 0 ∧ j = 0)),
              if_neg (by omega : ¬(j + 1 = j ∧ j + 1 < L)),
              if_neg (by omega : ¬j + 1 = j),
              if_pos (⟨rfl, by omega⟩ : j + 1 = j + 1 ∧ j + 1 < L)]
            ring
          · have hjL : j = L - 1 := by omega
            have hiL : j + 1 = L := by omega
            rw [Dblk_pos D0 Dm hjpos]
            have hcomm : (∑ c ∈ Finset.range (Nf j), Lm j a c * Dm j b c)
                = ∑ c ∈ Finset.range (Nf j), Dm j b c * Lm j a c :=
              Finset.sum_congr rfl fun c _ => mul_comm _ _
            have hsL := hsolveL a (by rw [← hiL]; exact ha) b (by rw [← hjL]; exact hb)
            rw [← hjL] at hsL
            rw [hcomm, hsL]
            unfold chiBlk
            rw [if_neg (by omega : ¬(j + 1 = 0 ∧ j = 0)),
              if_neg (by omega : ¬(j + 1 = j ∧ j + 1 < L)),
              if_neg (by omega : ¬j + 1 = j),
              if_neg (by omega : ¬(j + 1 = j + 1 ∧ j + 1 < L)),
              if_pos rfl, hjL]
      · intro k2 _ hk2j
        apply Finset.sum_eq_zero
        intro c _
        by_cases hk2i : j + 1 = k2
        · rw [if_neg (fun h : j = k2 => by omega), if_neg (fun h : j = k2 + 1 => by omega)]
          ring
        · rw [if_neg hk2i, if_neg (fun h : j + 1 = k2 + 1 => hk2j (by omega))]
          ring
    · have hzero : ∀ k2 ∈ Finset.range (L + 1),
          (∑ c ∈ Finset.range (Nf k2),
            (if i = k2 then Dblk D0 Dm i a c else if i = k2 + 1 then Lm k2 a c else 0)
            * (if j = k2 then Dblk D0 Dm j b c else if j = k2 + 1 then Lm k2 b c else 0))
          = 0 := by
        intro k2 _
        apply Finset.sum_eq_zero
        intro c _
        by_cases h1 : i = k2
        · rw [if_neg (fun h : j = k2 => hii (by omega)),
            if_neg (fun h : j = k2 + 1 => by omega)]
          ring
        · by_cases h2 : i = k2 + 1
          · rw [if_neg (fun h : j = k2 => hsucc (by omega)),
              if_neg (fun h : j = k2 + 1 => hii (by omega))]
            ring
          · rw [if_neg h1, if_neg h2]
            ring
      rw [Finset.sum_eq_zero hzero]
      unfold chiBlk
      rw [if_neg (fun h : i = 0 ∧ j = 0 => by omega),
        if_neg (fun h : i = j ∧ i < L => by omega),
        if_neg (fun h : i = j => by omega),
        if_neg (fun h : i = j + 1 ∧ i < L => by omega),
        if_neg (fun h : i = j + 1 => by omega),
        if_neg (fun h : j = i + 1 ∧ j < L => by omega),
        if_neg (fun h : j = i + 1 => by omega)]

/-! ## Symmetry of the certificate matrix -/

theorem trainT_symm (Nf : ℕ → ℕ) (L : ℕ) (t : ℕ → ℕ → ℚ) (k m : ℕ) :
    trainT Nf L t k m = trainT Nf L t m k := by
  unfold trainT
  by_cases h : k = m
  · subst h
    rfl
  · rw [if_neg h, if_neg (fun hh => h hh.symm)]

theorem trainQ_symm (Nf : ℕ → ℕ) (L : ℕ) (W : ℕ → Mat) (rho : ℚ) (r c : ℕ) :
    trainQ Nf L W rho r c = trainQ Nf L W rho c r := by
  unfold trainQ
  have h1 : (if inBlk Nf (L - 1) r ∧ inBlk Nf L c then
        W (L - 1) (c - ofs Nf L) (r - ofs Nf (L - 1)) else 0)
      = (if inBlk Nf L c ∧ inBlk Nf (L - 1) r then
        W (L - 1) (c - ofs Nf L) (r - ofs Nf (L - 1)) else 0) :=
    if_congr and_comm rfl rfl
  have h2 : (if inBlk Nf L r ∧ inBlk Nf (L - 1) c then
        W (L - 1) (r - ofs Nf L) (c - ofs Nf (L - 1)) else 0)
      = (if inBlk Nf (L - 1) c ∧ inBlk Nf L r then
        W (L - 1) (r - ofs Nf L) (c - ofs Nf (L - 1)) else 0) :=
    if_congr and_comm rfl rfl
  have h3 : (if r < Nf 0 ∧ c < Nf 0 ∧ r = c then -rho else 0)
      = (if c < Nf 0 ∧ r < Nf 0 ∧ c = r then -rho else 0) :=
    if_congr ⟨fun h => ⟨h.2.1, h.1, h.2.2.symm⟩, fun h => ⟨h.2.1, h.1, h.2.2.symm⟩⟩ rfl rfl
  have h4 : (if inBlk Nf L r ∧ inBlk Nf L c ∧ r = c then (-1 : ℚ) else 0)
      = (if inBlk Nf L c ∧ inBlk Nf L r ∧ c = r then (-1 : ℚ) else 0) :=
    if_congr ⟨fun h => ⟨h.2.1, h.1, h.2.2.symm⟩, fun h => ⟨h.2.1, h.1, h.2.2.symm⟩⟩ rfl rfl
  rw [h1, h2, h3, h4]
  ring

theorem triBZ_TB_symm (Nf : ℕ → ℕ) (L : ℕ) (t : ℕ → ℕ → ℚ) (r c : ℕ) :
    triBZ Nf L (trainT Nf L t) (trainB Nf L) r c
      = triBZ Nf L (trainT Nf L t) (trainB Nf L) c r := by
  unfold triBZ
  rw [Finset.sum_comm]
  refine Finset.sum_congr rfl fun x _ => Finset.sum_congr rfl fun y _ => ?_
  rw [trainT_symm Nf L t y x]
  ring

theorem triBZ_triAZ_swap (Nf : ℕ → ℕ) (L : ℕ) (A : Mat) (t : ℕ → ℕ → ℚ) (r c : ℕ) :
    triBZ Nf L (trainT Nf L t) A r c = triAZ Nf L A (trainT Nf L t) c r := by
  unfold triBZ triAZ
  rw [Finset.sum_comm]
  refine Finset.sum_congr rfl fun x _ => Finset.sum_congr rfl fun y _ => ?_
  rw [trainT_symm Nf L t y x]
  ring

theorem chiOf_symm (Nf : ℕ → ℕ) (L : ℕ) (W : ℕ → Mat) (t : ℕ → ℕ → ℚ) (rho : ℚ)
    (r c : ℕ) : chiOf Nf L W t rho r c = chiOf Nf L W t rho c r := by
  unfold chiOf
  rw [triBZ_TB_symm Nf L t r c, trainQ_symm Nf L W rho r c,
    triBZ_triAZ_swap Nf L (trainA Nf L W) t r c,
    show triAZ Nf L (trainA Nf L W) (trainT Nf L t) r c
        = triBZ Nf L (trainT Nf L t) (trainA Nf L W) c r from
      (triBZ_triAZ_swap Nf L (trainA Nf L W) t c r).symm]
  ring

/-- Helper: the full flat round-trip identity for a completed sweep. -/
theorem LLt_flat (Nf : ℕ → ℕ) (L : ℕ) (Psi : ℚ)
    (W : ℕ → Mat) (t : ℕ → ℕ → ℚ) (D0 : ℚ) (Dm Lm : ℕ → Mat)
    (hL : 2 ≤ L) (hPsi : 0 < Psi)
    (hch : cholRel Nf L Psi 0 W t D0 Dm Lm) :
    ∀ r < ofs Nf (L + 1), ∀ c < ofs Nf (L + 1),
      (∑ k ∈ Finset.range (ofs Nf (L + 1)),
        trainL Nf L D0 Dm Lm r k * trainL Nf L D0 Dm Lm c k)
      = chiOf Nf L W t (Psi * Psi) r c := by
  intro r hr c hc
  obtain ⟨i, hi, a, ha, rfl⟩ := blk_decompose Nf (L + 1) r hr
  obtain ⟨j, hj, b, hb, rfl⟩ := blk_decompose Nf (L + 1) c hc
  have hi2 : i ≤ L := by omega
  have hj2 : j ≤ L := by omega
  rcases le_or_lt j i with hij | hij
  · rw [chiOf_blk Nf L W t (Psi * Psi) hL hi2 hj2 ha hb]
    exact LLt_blk Nf L Psi W t D0 Dm Lm hL (ne_of_gt hPsi) hch hi2 hj2 ha hb hij
  · have hsymm : (∑ k ∈ Finset.range (ofs Nf (L + 1)),
        trainL Nf L D0 Dm Lm (ofs Nf i + a) k * trainL Nf L D0 Dm Lm (ofs Nf j + b) k)
        = ∑ k ∈ Finset.range (ofs Nf (L + 1)),
          trainL Nf L D0 Dm Lm (ofs Nf j + b) k * trainL Nf L D0 Dm Lm (ofs Nf i + a) k :=
      Finset.sum_congr rfl fun k _ => mul_comm _ _
    rw [hsymm, chiOf_symm Nf L W t (Psi * Psi) (ofs Nf i + a) (ofs Nf j + b),
      chiOf_blk Nf L W t (Psi * Psi) hL hj2 hi2 hb ha]
    exact LLt_blk Nf L Psi W t D0 Dm Lm hL (ne_of_gt hPsi) hch hj2 hi2 hb ha
      (Nat.le_of_lt hij)

/-- Claim C1 (round-trip factorization): for every Lipschitz bound `Ψ > 0`,
weight stack `W` and `T`-parameters such that `barrierfunction_t::chol` with
stabilization disabled (`eps = 0`) completes — its defining equations
`cholRel` hold for the returned stacks — the block lower-triangular matrix
assembled by `generate_lipschitz_train_l`, multiplied by its own transpose,
equals the certificate matrix `chi(Ψ², W, T)` at every entry.  (The theorem
needs no positive-definiteness hypothesis: the sweep equations alone force
the identity.) -/
theorem chol_roundtrip_factorization (Nf : ℕ → ℕ) (L : ℕ) (Psi : ℚ)
    (W : ℕ → Mat) (t : ℕ → ℕ → ℚ) (D0 : ℚ) (Dm Lm : ℕ → Mat)
    (hL : 2 ≤ L) (hPsi : 0 < Psi)
    (hch : cholRel Nf L Psi 0 W t D0 Dm Lm) :
    ∀ r < ofs Nf (L + 1), ∀ c < ofs Nf (L + 1),
      (∑ k ∈ Finset.range (ofs Nf (L + 1)),
        trainL Nf L D0 Dm Lm r k * trainL Nf L D0 Dm Lm c k)
      = chiOf Nf L W t (Psi * Psi) r c :=
  LLt_flat Nf L Psi W t D0 Dm Lm hL hPsi hch

/-! ## Inverse algebra on flat matrices -/

theorem mB_cancel_left (n m : ℕ) (f g d e : Mat)
    (hed : ∀ a < n, ∀ b < n, mB n e d a b = idF n a b)
    (hfg : ∀ a < n, ∀ b < m, mB n d f a b = mB n d g a b) :
    ∀ a < n, ∀ b < m, f a b = g a b := by
  intro a ha b hb
  have hf : f a b = mB n e (mB n d f) a b := by
    rw [← mB_assoc n n e d f a b,
      mB_congr_left n (mB n e d) (idF n) f a b (fun c hc => hed a ha c hc),
      mB_id_left n f a b ha]
  have hg : g a b = mB n e (mB n d g) a b := by
    rw [← mB_assoc n n e d g a b,
      mB_congr_left n (mB n e d) (idF n) g a b (fun c hc => hed a ha c hc),
      mB_id_left n g a b ha]
  rw [hf, hg]
  exact mB_congr_right n e (mB n d f) (mB n d g) a b (fun c hc => hfg c hc b hb)

theorem inv_unique (n : ℕ) (X s1 s2 : Mat)
    (h1 : ∀ a < n, ∀ b < n, mB n X s1 a b = idF n a b)
    (h2 : ∀ a < n, ∀ b < n, mB n s2 X a b = idF n a b) :
    ∀ a < n, ∀ b < n, s1 a b = s2 a b := by
  intro a ha b hb
  have : s2 a b = s1 a b := by
    calc s2 a b = mB n s2 (idF n) a b := (mB_id_right n s2 a b hb).symm
      _ = mB n s2 (mB n X s1) a b :=
          mB_congr_right n s2 (idF n) (mB n X s1) a b
            (fun c hc => (h1 c hc b hb).symm)
      _ = mB n (mB n s2 X) s1 a b := (mB_assoc n n s2 X s1 a b).symm
      _ = mB n (idF n) s1 a b :=
          mB_congr_left n (mB n s2 X) (idF n) s1 a b (fun c hc => h2 a ha c hc)
      _ = s1 a b := mB_id_left n s1 a b ha
  exact this.symm

theorem idF_symm (n a b : ℕ) : idF n a b = idF n b a := by
  unfold idF
  by_cases h : a = b
  · subst h
    rfl
  · rw [if_neg (fun hh => h hh.1), if_neg (fun hh => h hh.1.symm)]

/-- The inverse of a symmetric matrix is symmetric. -/
theorem inv_symm (n : ℕ) (X s : Mat)
    (hX : ∀ a < n, ∀ b < n, X a b = X b a)
    (h : ∀ a < n, ∀ b < n, mB n X s a b = idF n a b) :
    ∀ a < n, ∀ b < n, s a b = s b a := by
  have hsT : ∀ a < n, ∀ b < n, mB n (trF s) X a b = idF n a b := by
    intro a ha b hb
    have e1 : mB n (trF s) X a b = mB n X s b a := by
      simp only [mB, trF]
      refine Finset.sum_congr rfl fun c hc => ?_
      rw [hX c (Finset.mem_range.mp hc) b hb]
      ring
    rw [e1, h b hb a ha, idF_symm]
  intro a ha b hb
  exact (inv_unique n X s (trF s) h hsT a ha b hb).trans rfl

/-! ## Block structure of products with the assembled factor -/

theorem idF_blk (Nf : ℕ → ℕ) (L : ℕ) {i2 j2 a b : ℕ}
    (hi2 : i2 ≤ L) (hj2 : j2 ≤ L) (ha : a < Nf i2) (hb : b < Nf j2) :
    idF (ofs Nf (L + 1)) (ofs Nf i2 + a) (ofs Nf j2 + b)
      = if i2 = j2 then idF (Nf i2) a b else 0 := by
  have hlt : ofs Nf i2 + a < ofs Nf (L + 1) := by
    have h1 : ofs Nf i2 + a < ofs Nf (i2 + 1) := by
      simp only [ofs]
      omega
    exact lt_of_lt_of_le h1 (ofs_mono Nf (by omega))
  unfold idF
  by_cases hij : i2 = j2
  · subst hij
    by_cases hab : a = b
    · subst hab
      rw [if_pos ⟨rfl, hlt⟩, if_pos rfl, if_pos ⟨rfl, ha⟩]
    · rw [if_neg (fun hh => hab (ofs_add_inj Nf ha hb hh.1).2),
        if_pos rfl, if_neg (fun hh => hab hh.1)]
  · rw [if_neg (fun hh => hij (ofs_add_inj Nf ha hb hh.1).1), if_neg hij]

/-- A product `G · 𝕃` evaluated at a block column of the assembled factor. -/
theorem mul_trainL_col (Nf : ℕ → ℕ) (L : ℕ) (D0 : ℚ) (Dm Lm : ℕ → Mat)
    {j2 b : ℕ} (hj2 : j2 ≤ L) (hb : b < Nf j2) (G : Mat) (r : ℕ) :
    mB (ofs Nf (L + 1)) G (trainL Nf L D0 Dm Lm) r (ofs Nf j2 + b)
      = (∑ c2 ∈ Finset.range (Nf j2), G r (ofs Nf j2 + c2) * Dblk D0 Dm j2 c2 b)
        + (if j2 < L then
            ∑ c2 ∈ Finset.range (Nf (j2 + 1)), G r (ofs Nf (j2 + 1) + c2) * Lm j2 c2 b
          else 0) := by
  unfold mB
  rw [sum_range_ofs]
  have hterm : ∀ k2 ∈ Finset.range (L + 1),
      (∑ c2 ∈ Finset.range (Nf k2),
        G r (ofs Nf k2 + c2) * trainL Nf L D0 Dm Lm (ofs Nf k2 + c2) (ofs Nf j2 + b))
      = ∑ c2 ∈ Finset.range (Nf k2),
          G r (ofs Nf k2 + c2) *
            (if k2 = j2 then Dblk D0 Dm k2 c2 b
              else if k2 = j2 + 1 then Lm j2 c2 b else 0) := by
    intro k2 hk2
    refine Finset.sum_congr rfl fun c2 hc2 => ?_
    rw [trainL_blk Nf L D0 Dm Lm (Nat.lt_succ_iff.mp (Finset.mem_range.mp hk2)) hj2
      (Finset.mem_range.mp hc2) hb]
  rw [Finset.sum_congr rfl hterm]
  by_cases hjL : j2 < L
  · have hne : j2 ≠ j2 + 1 := by omega
    have hsub : ({j2, j2 + 1} : Finset ℕ) ⊆ Finset.range (L + 1) := by
      intro x hx
      simp only [Finset.mem_insert, Finset.mem_singleton] at hx
      rcases hx with rfl | rfl
      · exact Finset.mem_range.mpr (by omega)
      · exact Finset.mem_range.mpr (by omega)
    rw [← Finset.sum_subset hsub ?hz2]
    case hz2 =>
      intro x hxr hxn
      simp only [Finset.mem_insert, Finset.mem_singleton, not_or] at hxn
      apply Finset.sum_eq_zero
      intro c2 _
      rw [if_neg hxn.1, if_neg (fun h : x = j2 + 1 => hxn.2 h)]
      ring
    rw [Finset.sum_pair hne, if_pos hjL]
    have e1 : (∑ c2 ∈ Finset.range (Nf j2),
        G r (ofs Nf j2 + c2) *
          (if j2 = j2 then Dblk D0 Dm j2 c2 b else if j2 = j2 + 1 then Lm j2 c2 b else 0))
        = ∑ c2 ∈ Finset.range (Nf j2), G r (ofs Nf j2 + c2) * Dblk D0 Dm j2 c2 b := by
      refine Finset.sum_congr rfl fun c2 _ => ?_
      rw [if_pos rfl]
    have e2 : (∑ c2 ∈ Finset.range (Nf (j2 + 1)),
        G r (ofs Nf (j2 + 1) + c2) *
          (if j2 + 1 = j2 then Dblk D0 Dm (j2 + 1) c2 b
            else if j2 + 1 = j2 + 1 then Lm j2 c2 b else 0))
        = ∑ c2 ∈ Finset.range (Nf (j2 + 1)), G r (ofs Nf (j2 + 1) + c2) * Lm j2 c2 b := by
      refine Finset.sum_congr rfl fun c2 _ => ?_
      rw [if_neg (by omega : ¬j2 + 1 = j2), if_pos rfl]
    rw [e1, e2]
  · have hjL2 : j2 = L := by omega
    rw [Finset.sum_eq_single_of_mem j2 (Finset.mem_range.mpr (by omega)), if_neg hjL]
    · have e1 : (∑ c2 ∈ Finset.range (Nf j2),
          G r (ofs Nf j2 + c2) *
            (if j2 = j2 then Dblk D0 Dm j2 c2 b else if j2 = j2 + 1 then Lm j2 c2 b else 0))
          = ∑ c2 ∈ Finset.range (Nf j2), G r (ofs Nf j2 + c2) * Dblk D0 Dm j2 c2 b := by
        refine Finset.sum_congr rfl fun c2 _ => ?_
        rw [if_pos rfl]
      rw [e1]
      ring
    · intro k2 hk2 hkj
      apply Finset.sum_eq_zero
      intro c2 _
      rw [if_neg hkj, if_neg (by
        intro h
        have := Finset.mem_range.mp hk2
        omega : ¬k2 = j2 + 1)]
      ring

/-- A product `𝕃ᵀ · M` evaluated at a block row of the assembled factor. -/
theorem trainLT_row_mul (Nf : ℕ → ℕ) (L : ℕ) (D0 : ℚ) (Dm Lm : ℕ → Mat)
    {i2 a : ℕ} (hi2 : i2 ≤ L) (ha : a < Nf i2) (M : Mat) (c : ℕ) :
    mB (ofs Nf (L + 1)) (trF (trainL Nf L D0 Dm Lm)) M (ofs Nf i2 + a) c
      = (∑ c2 ∈ Finset.range (Nf i2), Dblk D0 Dm i2 c2 a * M (ofs Nf i2 + c2) c)
        + (if i2 < L then
            ∑ c2 ∈ Finset.range (Nf (i2 + 1)), Lm i2 c2 a * M (ofs Nf (i2 + 1) + c2) c
          else 0) := by
  unfold mB trF
  rw [sum_range_ofs]
  have hterm : ∀ k2 ∈ Finset.range (L + 1),
      (∑ c2 ∈ Finset.range (Nf k2),
        trainL Nf L D0 Dm Lm (ofs Nf k2 + c2) (ofs Nf i2 + a) * M (ofs Nf k2 + c2) c)
      = ∑ c2 ∈ Finset.range (Nf k2),
          (if k2 = i2 then Dblk D0 Dm k2 c2 a
            else if k2 = i2 + 1 then Lm i2 c2 a else 0) * M (ofs Nf k2 + c2) c := by
    intro k2 hk2
    refine Finset.sum_congr rfl fun c2 hc2 => ?_
    rw [trainL_blk Nf L D0 Dm Lm (Nat.lt_succ_iff.mp (Finset.mem_range.mp hk2)) hi2
      (Finset.mem_range.mp hc2) ha]
  rw [Finset.sum_congr rfl hterm]
  by_cases hiL : i2 < L
  · have hne : i2 ≠ i2 + 1 := by omega
    have hsub : ({i2, i2 + 1} : Finset ℕ) ⊆ Finset.range (L + 1) := by
      intro x hx
      simp only [Finset.mem_insert, Finset.mem_singleton] at hx
      rcases hx with rfl | rfl
      · exact Finset.mem_range.mpr (by omega)
      · exact Finset.mem_range.mpr (by omega)
    rw [← Finset.sum_subset hsub ?hz3]
    case hz3 =>
      intro x hxr hxn
      simp only [Finset.mem_insert, Finset.mem_singleton, not_or] at hxn
      apply Finset.sum_eq_zero
      intro c2 _
      rw [if_neg hxn.1, if_neg (fun h : x = i2 + 1 => hxn.2 h)]
      ring
    rw [Finset.sum_pair hne, if_pos hiL]
    have e1 : (∑ c2 ∈ Finset.range (Nf i2),
        (if i2 = i2 then Dblk D0 Dm i2 c2 a else if i2 = i2 + 1 then Lm i2 c2 a else 0)
          * M (ofs Nf i2 + c2) c)
        = ∑ c2 ∈ Finset.range (Nf i2), Dblk D0 Dm i2 c2 a * M (ofs Nf i2 + c2) c := by
      refine Finset.sum_congr rfl fun c2 _ => ?_
      rw [if_pos rfl]
    have e2 : (∑ c2 ∈ Finset.range (Nf (i2 + 1)),
        (if i2 + 1 = i2 then Dblk D0 Dm (i2 + 1) c2 a
          else if i2 + 1 = i2 + 1 then Lm i2 c2 a else 0) * M (ofs Nf (i2 + 1) + c2) c)
        = ∑ c2 ∈ Finset.range (Nf (i2 + 1)), Lm i2 c2 a * M (ofs Nf (i2 + 1) + c2) c := by
      refine Finset.sum_congr rfl fun c2 _ => ?_
      rw [if_neg (by omega : ¬i2 + 1 = i2), if_pos rfl]
    rw [e1, e2]
  · rw [Finset.sum_eq_single_of_mem i2 (Finset.mem_range.mpr (by omega)), if_neg hiL]
    · have e1 : (∑ c2 ∈ Finset.range (Nf i2),
          (if i2 = i2 then Dblk D0 Dm i2 c2 a else if i2 = i2 + 1 then Lm i2 c2 a else 0)
            * M (ofs Nf i2 + c2) c)
          = ∑ c2 ∈ Finset.range (Nf i2), Dblk D0 Dm i2 c2 a * M (ofs Nf i2 + c2) c := by
        refine Finset.sum_congr rfl fun c2 _ => ?_
        rw [if_pos rfl]
      rw [e1]
      ring
    · intro k2 hk2 hki
      apply Finset.sum_eq_zero
      intro c2 _
      rw [if_neg hki, if_neg (by
        intro h
        have := Finset.mem_range.mp hk2
        omega : ¬k2 = i2 + 1)]
      ring

theorem ofs_blk_lt (Nf : ℕ → ℕ) {L i a : ℕ} (hi : i ≤ L) (ha : a < Nf i) :
    ofs Nf i + a < ofs Nf (L + 1) := by
  have h1 : ofs Nf i + a < ofs Nf (i + 1) := by
    simp only [ofs]
    omega
  exact lt_of_lt_of_le h1 (ofs_mono Nf (by omega))

/-- Block-row structure of `Yinv` (a restatement of `trainLT_row_mul`). -/
theorem Yinv_row (Nf : ℕ → ℕ) (L : ℕ) (D0 : ℚ) (Dm Lm : ℕ → Mat) (M : Mat)
    {i2 a : ℕ} (hi2 : i2 ≤ L) (ha : a < Nf i2) (c : ℕ) :
    Yinv Nf L D0 Dm Lm M (ofs Nf i2 + a) c
      = (∑ c2 ∈ Finset.range (Nf i2), Dblk D0 Dm i2 c2 a * M (ofs Nf i2 + c2) c)
        + (if i2 < L then
            ∑ c2 ∈ Finset.range (Nf (i2 + 1)), Lm i2 c2 a * M (ofs Nf (i2 + 1) + c2) c
          else 0) :=
  trainLT_row_mul Nf L D0 Dm Lm hi2 ha M c

/-- When `𝕃𝕃ᵀ = chi` (from `cholRel`) and `chi·M = I`, the matrix
`Yinv = 𝕃ᵀM` is a right inverse of the assembled factor `𝕃`. -/
theorem Yinv_mul_right (Nf : ℕ → ℕ) (L : ℕ) (Psi : ℚ) (W : ℕ → Mat)
    (t : ℕ → ℕ → ℚ) (D0 : ℚ) (Dm Lm : ℕ → Mat) (M : Mat)
    (hL : 2 ≤ L) (hPsi : 0 < Psi)
    (hch : cholRel Nf L Psi 0 W t D0 Dm Lm)
    (hM : ∀ r < ofs Nf (L + 1), ∀ c < ofs Nf (L + 1),
      mB (ofs Nf (L + 1)) (chiOf Nf L W t (Psi * Psi)) M r c
        = idF (ofs Nf (L + 1)) r c) :
    ∀ r < ofs Nf (L + 1), ∀ c < ofs Nf (L + 1),
      mB (ofs Nf (L + 1)) (trainL Nf L D0 Dm Lm) (Yinv Nf L D0 Dm Lm M) r c
        = idF (ofs Nf (L + 1)) r c := by
  intro r hr c hc
  have hstep : mB (ofs Nf (L + 1)) (trainL Nf L D0 Dm Lm) (Yinv Nf L D0 Dm Lm M) r c
      = mB (ofs Nf (L + 1))
          (mB (ofs Nf (L + 1)) (trainL Nf L D0 Dm Lm) (trF (trainL Nf L D0 Dm Lm)))
          M r c :=
    (mB_assoc (ofs Nf (L + 1)) (ofs Nf (L + 1)) (trainL Nf L D0 Dm Lm)
      (trF (trainL Nf L D0 Dm Lm)) M r c).symm
  have h2 : ∀ k < ofs Nf (L + 1),
      mB (ofs Nf (L + 1)) (trainL Nf L D0 Dm Lm) (trF (trainL Nf L D0 Dm Lm)) r k
        = chiOf Nf L W t (Psi * Psi) r k := by
    intro k hk
    have hflat := LLt_flat Nf L Psi W t D0 Dm Lm hL hPsi hch r hr k hk
    simpa [mB, trF] using hflat
  rw [hstep, mB_congr_left (ofs Nf (L + 1)) _ (chiOf Nf L W t (Psi * Psi)) M r c h2]
  exact hM r hr c hc

/-- `Yinv` is likewise a left inverse of the assembled factor. -/
theorem Yinv_mul_left (Nf : ℕ → ℕ) (L : ℕ) (Psi : ℚ) (W : ℕ → Mat)
    (t : ℕ → ℕ → ℚ) (D0 : ℚ) (Dm Lm : ℕ → Mat) (M : Mat)
    (hL : 2 ≤ L) (hPsi : 0 < Psi)
    (hch : cholRel Nf L Psi 0 W t D0 Dm Lm)
    (hM : ∀ r < ofs Nf (L + 1), ∀ c < ofs Nf (L + 1),
      mB (ofs Nf (L + 1)) (chiOf Nf L W t (Psi * Psi)) M r c
        = idF (ofs Nf (L + 1)) r c) :
    ∀ r < ofs Nf (L + 1), ∀ c < ofs Nf (L + 1),
      mB (ofs Nf (L + 1)) (Yinv Nf L D0 Dm Lm M) (trainL Nf L D0 Dm Lm) r c
        = idF (ofs Nf (L + 1)) r c :=
  mB_one_comm (ofs Nf (L + 1)) (trainL Nf L D0 Dm Lm) (Yinv Nf L D0 Dm Lm M)
    (Yinv_mul_right Nf L Psi W t D0 Dm Lm M hL hPsi hch hM)

/-- The inverse factor `Yinv` is block lower triangular: every block
strictly above the diagonal vanishes. -/
theorem Yinv_upper_zero (Nf : ℕ → ℕ) (L : ℕ) (Psi : ℚ) (W : ℕ → Mat)
    (t : ℕ → ℕ → ℚ) (D0 : ℚ) (Dm Lm Pm Km : ℕ → Mat)
    (tempL : Mat) (tmp temp2 su : ℕ → Mat) (M : Mat)
    (hL : 2 ≤ L) (hPsi : 0 < Psi)
    (hch : cholRel Nf L Psi 0 W t D0 Dm Lm)
    (hinv : invRel Nf L D0 Dm Lm Pm Km tempL tmp temp2 su)
    (hM : ∀ r < ofs Nf (L + 1), ∀ c < ofs Nf (L + 1),
      mB (ofs Nf (L + 1)) (chiOf Nf L W t (Psi * Psi)) M r c
        = idF (ofs Nf (L + 1)) r c) :
    ∀ j2 ≤ L, ∀ i2 < j2, ∀ a < Nf i2, ∀ b < Nf j2,
      Yinv Nf L D0 Dm Lm M (ofs Nf i2 + a) (ofs Nf j2 + b) = 0 := by
  have hYL := Yinv_mul_left Nf L Psi W t D0 Dm Lm M hL hPsi hch hM
  obtain ⟨hiv1, hiv2, hiv3, hiv4, hiv5⟩ := hinv
  have hblk : ∀ j2 ≤ L, ∀ i2 < j2, ∀ a < Nf i2, ∀ b < Nf j2,
      (∑ c2 ∈ Finset.range (Nf j2),
        Yinv Nf L D0 Dm Lm M (ofs Nf i2 + a) (ofs Nf j2 + c2) * Dblk D0 Dm j2 c2 b)
      + (if j2 < L then ∑ c2 ∈ Finset.range (Nf (j2 + 1)),
          Yinv Nf L D0 Dm Lm M (ofs Nf i2 + a) (ofs Nf (j2 + 1) + c2) * Lm j2 c2 b
        else 0) = 0 := by
    intro j2 hj2 i2 hij a ha b hb
    have hi2 : i2 ≤ L := by omega
    have h1 := hYL (ofs Nf i2 + a) (ofs_blk_lt Nf hi2 ha) (ofs Nf j2 + b)
      (ofs_blk_lt Nf hj2 hb)
    rw [mul_trainL_col Nf L D0 Dm Lm hj2 hb] at h1
    rw [h1, idF_blk Nf L hi2 hj2 ha hb, if_neg (by omega : ¬i2 = j2)]
  have key : ∀ d, ∀ j2, j2 + d = L → ∀ i2 < j2, ∀ a < Nf i2, ∀ b < Nf j2,
      Yinv Nf L D0 Dm Lm M (ofs Nf i2 + a) (ofs Nf j2 + b) = 0 := by
    intro d
    induction d with
    | zero =>
      intro j2 hj2 i2 hij a ha b hb
      obtain rfl : L = j2 := by omega
      refine mB_cancel_right (Nf L) (Nf i2)
        (fun p q => Yinv Nf L D0 Dm Lm M (ofs Nf i2 + p) (ofs Nf L + q))
        (fun p q => 0) (Dm L) tempL
        (fun x hx y hy => by simpa [mB] using hiv1 x hx y hy) ?_ a ha b hb
      intro p hp q hq
      have h2 := hblk L le_rfl i2 hij p hp q hq
      rw [if_neg (lt_irrefl L), add_zero, Dblk_pos D0 Dm (by omega : 1 ≤ L)] at h2
      simp only [mB]
      simpa using h2
    | succ d ih =>
      intro j2 hj2 i2 hij a ha b hb
      have hj2L : j2 < L := by omega
      have hj21 : 1 ≤ j2 := by omega
      obtain ⟨htmp, hKmE, htemp2, hsu, hPmE⟩ := hiv3 j2 hj21 hj2L
      refine mB_cancel_right (Nf j2) (Nf i2)
        (fun p q => Yinv Nf L D0 Dm Lm M (ofs Nf i2 + p) (ofs Nf j2 + q))
        (fun p q => 0) (Dm j2) (temp2 j2)
        (fun x hx y hy => by simpa [mB] using htemp2 x hx y hy) ?_ a ha b hb
      intro p hp q hq
      have h2 := hblk j2 (by omega) i2 hij p hp q hq
      rw [if_pos hj2L, Dblk_pos D0 Dm hj21] at h2
      have h3 : (∑ c2 ∈ Finset.range (Nf (j2 + 1)),
          Yinv Nf L D0 Dm Lm M (ofs Nf i2 + p) (ofs Nf (j2 + 1) + c2) * Lm j2 c2 q)
          = 0 := by
        refine Finset.sum_eq_zero fun c2 hc2 => ?_
        rw [ih (j2 + 1) (by omega) i2 (by omega) p hp c2 (Finset.mem_range.mp hc2)]
        ring
      rw [h3, add_zero] at h2
      simp only [mB]
      simpa using h2
  intro j2 hj2 i2 hij a ha b hb
  exact key (L - j2) j2 (by omega) i2 hij a ha b hb

/-- Each diagonal block of `Yinv` is a left inverse of the corresponding
diagonal factor block. -/
theorem Yinv_diag (Nf : ℕ → ℕ) (L : ℕ) (Psi : ℚ) (W : ℕ → Mat)
    (t : ℕ → ℕ → ℚ) (D0 : ℚ) (Dm Lm Pm Km : ℕ → Mat)
    (tempL : Mat) (tmp temp2 su : ℕ → Mat) (M : Mat)
    (hL : 2 ≤ L) (hPsi : 0 < Psi)
    (hch : cholRel Nf L Psi 0 W t D0 Dm Lm)
    (hinv : invRel Nf L D0 Dm Lm Pm Km tempL tmp temp2 su)
    (hM : ∀ r < ofs Nf (L + 1), ∀ c < ofs Nf (L + 1),
      mB (ofs Nf (L + 1)) (chiOf Nf L W t (Psi * Psi)) M r c
        = idF (ofs Nf (L + 1)) r c) :
    ∀ i2 ≤ L, ∀ a < Nf i2, ∀ b < Nf i2,
      (∑ c ∈ Finset.range (Nf i2),
        Yinv Nf L D0 Dm Lm M (ofs Nf i2 + a) (ofs Nf i2 + c) * Dblk D0 Dm i2 c b)
        = idF (Nf i2) a b := by
  intro i2 hi2 a ha b hb
  have hYL := Yinv_mul_left Nf L Psi W t D0 Dm Lm M hL hPsi hch hM
  have h1 := hYL (ofs Nf i2 + a) (ofs_blk_lt Nf hi2 ha) (ofs Nf i2 + b)
    (ofs_blk_lt Nf hi2 hb)
  rw [mul_trainL_col Nf L D0 Dm Lm hi2 hb, idF_blk Nf L hi2 hi2 ha hb,
    if_pos rfl] at h1
  by_cases hiL : i2 < L
  · rw [if_pos hiL] at h1
    have h3 : (∑ c2 ∈ Finset.range (Nf (i2 + 1)),
        Yinv Nf L D0 Dm Lm M (ofs Nf i2 + a) (ofs Nf (i2 + 1) + c2) * Lm i2 c2 b)
        = 0 := by
      refine Finset.sum_eq_zero fun c2 hc2 => ?_
      rw [Yinv_upper_zero Nf L Psi W t D0 Dm Lm Pm Km tempL tmp temp2 su M
        hL hPsi hch hinv hM (i2 + 1) (by omega) i2 (by omega) a ha c2
        (Finset.mem_range.mp hc2)]
      ring
    rw [h3, add_zero] at h1
    exact h1
  · rw [if_neg hiL, add_zero] at h1
    exact h1

/-- The candidate inverse `M` of the certificate matrix is symmetric on the
index range. -/
theorem Minv_symm (Nf : ℕ → ℕ) (L : ℕ) (W : ℕ → Mat) (t : ℕ → ℕ → ℚ)
    (rho : ℚ) (M : Mat)
    (hM : ∀ r < ofs Nf (L + 1), ∀ c < ofs Nf (L + 1),
      mB (ofs Nf (L + 1)) (chiOf Nf L W t rho) M r c = idF (ofs Nf (L + 1)) r c) :
    ∀ r < ofs Nf (L + 1), ∀ c < ofs Nf (L + 1), M r c = M c r :=
  inv_symm (ofs Nf (L + 1)) (chiOf Nf L W t rho) M
    (fun a _ b _ => chiOf_symm Nf L W t rho a b) hM

/-- First off-diagonal blocks of the inverse: for an interior index `i`,
the block `M[i, i+1]` equals `-(tmp i)·M[i+1, i+1]`. -/
theorem Minv_off (Nf : ℕ → ℕ) (L : ℕ) (Psi : ℚ) (W : ℕ → Mat)
    (t : ℕ → ℕ → ℚ) (D0 : ℚ) (Dm Lm Pm Km : ℕ → Mat)
    (tempL : Mat) (tmp temp2 su : ℕ → Mat) (M : Mat)
    (hL : 2 ≤ L) (hPsi : 0 < Psi)
    (hch : cholRel Nf L Psi 0 W t D0 Dm Lm)
    (hinv : invRel Nf L D0 Dm Lm Pm Km tempL tmp temp2 su)
    (hM : ∀ r < ofs Nf (L + 1), ∀ c < ofs Nf (L + 1),
      mB (ofs Nf (L + 1)) (chiOf Nf L W t (Psi * Psi)) M r c
        = idF (ofs Nf (L + 1)) r c) :
    ∀ i, 1 ≤ i → i < L → ∀ p < Nf i, ∀ q < Nf (i + 1),
      M (ofs Nf i + p) (ofs Nf (i + 1) + q)
        = -∑ c ∈ Finset.range (Nf (i + 1)),
            tmp i p c * M (ofs Nf (i + 1) + c) (ofs Nf (i + 1) + q) := by
  intro i hi1 hiL
  obtain ⟨htmp, hKmE, htemp2, hsu, hPmE⟩ := hinv.2.2.1 i hi1 hiL
  refine mB_cancel_left (Nf i) (Nf (i + 1))
    (fun p q => M (ofs Nf i + p) (ofs Nf (i + 1) + q))
    (fun p q => -∑ c ∈ Finset.range (Nf (i + 1)),
        tmp i p c * M (ofs Nf (i + 1) + c) (ofs Nf (i + 1) + q))
    (fun x y => Dm i y x) (fun x y => temp2 i y x) ?_ ?_
  · intro x hx y hy
    simp only [mB]
    rw [show (∑ c ∈ Finset.range (Nf i), temp2 i c x * Dm i y c)
        = ∑ c ∈ Finset.range (Nf i), Dm i y c * temp2 i c x from
      Finset.sum_congr rfl fun c _ => mul_comm _ _, htemp2 y hy x hx]
    exact idF_symm (Nf i) y x
  · intro a haa q hq
    simp only [mB]
    have hR : (∑ c ∈ Finset.range (Nf i), Dm i c a *
          (-∑ e ∈ Finset.range (Nf (i + 1)),
            tmp i c e * M (ofs Nf (i + 1) + e) (ofs Nf (i + 1) + q)))
        = -∑ e ∈ Finset.range (Nf (i + 1)),
            (∑ c ∈ Finset.range (Nf i), Dm i c a * tmp i c e)
              * M (ofs Nf (i + 1) + e) (ofs Nf (i + 1) + q) := by
      simp only [mul_neg, Finset.mul_sum, Finset.sum_neg_distrib]
      rw [Finset.sum_comm]
      congr 1
      refine Finset.sum_congr rfl fun e _ => ?_
      rw [Finset.sum_mul]
      exact Finset.sum_congr rfl fun c _ => by ring
    have hgoal2 : (-∑ e ∈ Finset.range (Nf (i + 1)),
          (∑ c ∈ Finset.range (Nf i), Dm i c a * tmp i c e)
            * M (ofs Nf (i + 1) + e) (ofs Nf (i + 1) + q))
        = -∑ e ∈ Finset.range (Nf (i + 1)),
            Lm i e a * M (ofs Nf (i + 1) + e) (ofs Nf (i + 1) + q) := by
      congr 1
      refine Finset.sum_congr rfl fun e he => ?_
      rw [htmp a haa e (Finset.mem_range.mp he)]
    rw [hR, hgoal2]
    have hYrow := Yinv_row Nf L D0 Dm Lm M (show i ≤ L by omega) haa
      (ofs Nf (i + 1) + q)
    rw [Yinv_upper_zero Nf L Psi W t D0 Dm Lm Pm Km tempL tmp temp2 su M
        hL hPsi hch hinv hM (i + 1) (by omega) i (by omega) a haa q hq,
      Dblk_pos D0 Dm hi1, if_pos hiL] at hYrow
    linarith [hYrow]

/-- Diagonal blocks of the selected inverse: for every block index from `1`
to `L`, the block `Pm i` equals the diagonal block `M[i, i]` of the inverse
of the certificate matrix. -/
theorem Pm_diag (Nf : ℕ → ℕ) (L : ℕ) (Psi : ℚ) (W : ℕ → Mat)
    (t : ℕ → ℕ → ℚ) (D0 : ℚ) (Dm Lm Pm Km : ℕ → Mat)
    (tempL : Mat) (tmp temp2 su : ℕ → Mat) (M : Mat)
    (hL : 2 ≤ L) (hPsi : 0 < Psi)
    (hch : cholRel Nf L Psi 0 W t D0 Dm Lm)
    (hinv : invRel Nf L D0 Dm Lm Pm Km tempL tmp temp2 su)
    (hM : ∀ r < ofs Nf (L + 1), ∀ c < ofs Nf (L + 1),
      mB (ofs Nf (L + 1)) (chiOf Nf L W t (Psi * Psi)) M r c
        = idF (ofs Nf (L + 1)) r c) :
    ∀ i, 1 ≤ i → i ≤ L → ∀ a < Nf i, ∀ b < Nf i,
      Pm i a b = M (ofs Nf i + a) (ofs Nf i + b) := by
  have hsym := Minv_symm Nf L W t (Psi * Psi) M hM
  have hdiag := Yinv_diag Nf L Psi W t D0 Dm Lm Pm Km tempL tmp temp2 su M
    hL hPsi hch hinv hM
  have key : ∀ d i, i + d = L → 1 ≤ i → ∀ a < Nf i, ∀ b < Nf i,
      Pm i a b = M (ofs Nf i + a) (ofs Nf i + b) := by
    intro d
    induction d with
    | zero =>
      intro i hiL hi1 a ha b hb
      obtain rfl : L = i := by omega
      have htL : ∀ p < Nf L, ∀ q < Nf L,
          tempL p q = Yinv Nf L D0 Dm Lm M (ofs Nf L + p) (ofs Nf L + q) :=
        inv_unique (Nf L) (Dm L) tempL
          (fun p q => Yinv Nf L D0 Dm Lm M (ofs Nf L + p) (ofs Nf L + q))
          (fun x hx y hy => by simpa [mB] using hinv.1 x hx y hy)
          (fun x hx y hy => by
            have h0 := hdiag L le_rfl x hx y hy
            rw [Dblk_pos D0 Dm (by omega : 1 ≤ L)] at h0
            simpa [mB] using h0)
      refine mB_cancel_left (Nf L) (Nf L) (Pm L)
        (fun p q => M (ofs Nf L + p) (ofs Nf L + q))
        (fun x y => Dm L y x) (fun x y => tempL y x) ?_ ?_ a ha b hb
      · intro x hx y hy
        simp only [mB]
        rw [show (∑ c ∈ Finset.range (Nf L), tempL c x * Dm L y c)
            = ∑ c ∈ Finset.range (Nf L), Dm L y c * tempL c x from
          Finset.sum_congr rfl fun c _ => mul_comm _ _, hinv.1 y hy x hx]
        exact idF_symm (Nf L) y x
      · intro x hx y hy
        simp only [mB]
        rw [hinv.2.1 x hx y hy]
        have hYrow := Yinv_row Nf L D0 Dm Lm M (le_refl L) hx (ofs Nf L + y)
        rw [if_neg (lt_irrefl L), add_zero, Dblk_pos D0 Dm (by omega : 1 ≤ L)]
          at hYrow
        rw [← hYrow]
        exact htL x hx y hy
    | succ d ih =>
      intro i hiLd hi1 a ha b hb
      have hiL : i < L := by omega
      obtain ⟨htmp, hKmE, htemp2, hsu, hPmE⟩ := hinv.2.2.1 i hi1 hiL
      have hP1 : ∀ p < Nf (i + 1), ∀ q < Nf (i + 1),
          Pm (i + 1) p q = M (ofs Nf (i + 1) + p) (ofs Nf (i + 1) + q) :=
        ih (i + 1) (by omega) (by omega)
      have hHsymm : ∀ p < Nf i, ∀ q < Nf i,
          (∑ c ∈ Finset.range (Nf (i + 1)), tmp i p c * Km i c q)
            = ∑ c ∈ Finset.range (Nf (i + 1)), tmp i q c * Km i c p := by
        have hexp : ∀ u < Nf i, ∀ v < Nf i,
            (∑ c ∈ Finset.range (Nf (i + 1)), tmp i u c * Km i c v)
              = -∑ c ∈ Finset.range (Nf (i + 1)), ∑ e ∈ Finset.range (Nf (i + 1)),
                  tmp i u c * (tmp i v e * Pm (i + 1) e c) := by
          intro u hu v hv
          calc (∑ c ∈ Finset.range (Nf (i + 1)), tmp i u c * Km i c v)
              = ∑ c ∈ Finset.range (Nf (i + 1)), tmp i u c *
                  (-∑ e ∈ Finset.range (Nf (i + 1)),
                    tmp i v e * Pm (i + 1) e c) :=
                Finset.sum_congr rfl fun c hc => by
                  rw [hKmE c (Finset.mem_range.mp hc) v hv]
            _ = -∑ c ∈ Finset.range (Nf (i + 1)), ∑ e ∈ Finset.range (Nf (i + 1)),
                  tmp i u c * (tmp i v e * Pm (i + 1) e c) := by
                simp only [mul_neg, Finset.mul_sum, Finset.sum_neg_distrib]
        intro p hp q hq
        rw [hexp p hp q hq, hexp q hq p hp]
        congr 1
        rw [Finset.sum_comm]
        refine Finset.sum_congr rfl fun x hx => Finset.sum_congr rfl fun y hy => ?_
        have hPs : Pm (i + 1) x y = Pm (i + 1) y x := by
          rw [hP1 x (Finset.mem_range.mp hx) y (Finset.mem_range.mp hy),
            hP1 y (Finset.mem_range.mp hy) x (Finset.mem_range.mp hx)]
          exact hsym (ofs Nf (i + 1) + x)
            (ofs_blk_lt Nf (by omega) (Finset.mem_range.mp hx))
            (ofs Nf (i + 1) + y)
            (ofs_blk_lt Nf (by omega) (Finset.mem_range.mp hy))
        rw [hPs]
        ring
      have hKi : ∀ p < Nf (i + 1), ∀ q < Nf i,
          Km i p q = M (ofs Nf (i + 1) + p) (ofs Nf i + q) := by
        intro p hp q hq
        rw [hKmE p hp q hq]
        have h1 : (∑ c ∈ Finset.range (Nf (i + 1)), tmp i q c * Pm (i + 1) c p)
            = ∑ c ∈ Finset.range (Nf (i + 1)),
                tmp i q c * M (ofs Nf (i + 1) + c) (ofs Nf (i + 1) + p) :=
          Finset.sum_congr rfl fun c hc => by
            rw [hP1 c (Finset.mem_range.mp hc) p hp]
        rw [h1, ← Minv_off Nf L Psi W t D0 Dm Lm Pm Km tempL tmp temp2 su M
          hL hPsi hch hinv hM i hi1 hiL q hq p hp]
        exact hsym (ofs Nf i + q) (ofs_blk_lt Nf (by omega) hq)
          (ofs Nf (i + 1) + p) (ofs_blk_lt Nf (by omega) hp)
      have ht2 : ∀ p < Nf i, ∀ q < Nf i,
          temp2 i p q = Yinv Nf L D0 Dm Lm M (ofs Nf i + p) (ofs Nf i + q) :=
        inv_unique (Nf i) (Dm i) (temp2 i)
          (fun p q => Yinv Nf L D0 Dm Lm M (ofs Nf i + p) (ofs Nf i + q))
          (fun x hx y hy => by simpa [mB] using htemp2 x hx y hy)
          (fun x hx y hy => by
            have h0 := hdiag i (by omega) x hx y hy
            rw [Dblk_pos D0 Dm hi1] at h0
            simpa [mB] using h0)
      refine mB_cancel_left (Nf i) (Nf i) (Pm i)
        (fun p q => M (ofs Nf i + p) (ofs Nf i + q))
        (fun x y => Dm i y x) (fun x y => temp2 i y x) ?_ ?_ a ha b hb
      · intro x hx y hy
        simp only [mB]
        rw [show (∑ c ∈ Finset.range (Nf i), temp2 i c x * Dm i y c)
            = ∑ c ∈ Finset.range (Nf i), Dm i y c * temp2 i c x from
          Finset.sum_congr rfl fun c _ => mul_comm _ _, htemp2 y hy x hx]
        exact idF_symm (Nf i) y x
      · intro x hx y hy
        simp only [mB]
        have hLHS : (∑ c ∈ Finset.range (Nf i), Dm i c x * Pm i c y)
            = temp2 i x y - ∑ c ∈ Finset.range (Nf i),
                Dm i c x * (∑ e ∈ Finset.range (Nf (i + 1)),
                  tmp i y e * Km i e c) := by
          have h1 : (∑ c ∈ Finset.range (Nf i), Dm i c x * Pm i c y)
              = ∑ c ∈ Finset.range (Nf i),
                  (Dm i c x * su i c y
                    - Dm i c x * (∑ e ∈ Finset.range (Nf (i + 1)),
                        tmp i y e * Km i e c)) := by
            refine Finset.sum_congr rfl fun c hc => ?_
            rw [hPmE c (Finset.mem_range.mp hc) y hy]
            ring
          rw [h1, Finset.sum_sub_distrib, hsu x hx y hy]
        have hRHS : (∑ c ∈ Finset.range (Nf i),
              Dm i c x * M (ofs Nf i + c) (ofs Nf i + y))
            = temp2 i x y - ∑ c ∈ Finset.range (Nf (i + 1)),
                Lm i c x * M (ofs Nf (i + 1) + c) (ofs Nf i + y) := by
          have hYrow := Yinv_row Nf L D0 Dm Lm M (show i ≤ L by omega) hx
            (ofs Nf i + y)
          rw [Dblk_pos D0 Dm hi1, if_pos hiL, ← ht2 x hx y hy] at hYrow
          linarith [hYrow]
        rw [hLHS, hRHS]
        have hAB : (∑ c ∈ Finset.range (Nf i),
              Dm i c x * (∑ e ∈ Finset.range (Nf (i + 1)),
                tmp i y e * Km i e c))
            = ∑ c ∈ Finset.range (Nf (i + 1)),
                Lm i c x * M (ofs Nf (i + 1) + c) (ofs Nf i + y) := by
          have hA : (∑ c ∈ Finset.range (Nf i),
                Dm i c x * (∑ e ∈ Finset.range (Nf (i + 1)),
                  tmp i y e * Km i e c))
              = ∑ c ∈ Finset.range (Nf i),
                  Dm i c x * (∑ e ∈ Finset.range (Nf (i + 1)),
                    tmp i c e * Km i e y) :=
            Finset.sum_congr rfl fun c hc => by
              rw [hHsymm y hy c (Finset.mem_range.mp hc)]
          have hB : (∑ c ∈ Finset.range (Nf (i + 1)),
                Lm i c x * M (ofs Nf (i + 1) + c) (ofs Nf i + y))
              = ∑ c ∈ Finset.range (Nf (i + 1)),
                  (∑ d2 ∈ Finset.range (Nf i), Dm i d2 x * tmp i d2 c)
                    * Km i c y :=
            Finset.sum_congr rfl fun c hc => by
              rw [htmp x hx c (Finset.mem_range.mp hc),
                hKi c (Finset.mem_range.mp hc) y hy]
          rw [hA, hB]
          simp only [Finset.mul_sum, Finset.sum_mul]
          rw [Finset.sum_comm]
          exact Finset.sum_congr rfl fun c _ =>
            Finset.sum_congr rfl fun e _ => by ring
        rw [hAB]
  intro i hi1 hiL a ha b hb
  exact key (L - i) i (by omega) hi1 a ha b hb

theorem Dblk_zero (D0 : ℚ) (Dm : ℕ → Mat) (a b : ℕ) :
    Dblk D0 Dm 0 a b = if a = b then D0 else 0 := rfl

/-- Sub-diagonal inverse blocks at interior indices: `Km i` equals the
block `M[i+1, i]` of the inverse of the certificate matrix. -/
theorem Km_int (Nf : ℕ → ℕ) (L : ℕ) (Psi : ℚ) (W : ℕ → Mat)
    (t : ℕ → ℕ → ℚ) (D0 : ℚ) (Dm Lm Pm Km : ℕ → Mat)
    (tempL : Mat) (tmp temp2 su : ℕ → Mat) (M : Mat)
    (hL : 2 ≤ L) (hPsi : 0 < Psi)
    (hch : cholRel Nf L Psi 0 W t D0 Dm Lm)
    (hinv : invRel Nf L D0 Dm Lm Pm Km tempL tmp temp2 su)
    (hM : ∀ r < ofs Nf (L + 1), ∀ c < ofs Nf (L + 1),
      mB (ofs Nf (L + 1)) (chiOf Nf L W t (Psi * Psi)) M r c
        = idF (ofs Nf (L + 1)) r c) :
    ∀ i, 1 ≤ i → i < L → ∀ p < Nf (i + 1), ∀ q < Nf i,
      Km i p q = M (ofs Nf (i + 1) + p) (ofs Nf i + q) := by
  intro i hi1 hiL p hp q hq
  have hsym := Minv_symm Nf L W t (Psi * Psi) M hM
  obtain ⟨htmp, hKmE, htemp2, hsu, hPmE⟩ := hinv.2.2.1 i hi1 hiL
  rw [hKmE p hp q hq]
  have h1 : (∑ c ∈ Finset.range (Nf (i + 1)), tmp i q c * Pm (i + 1) c p)
      = ∑ c ∈ Finset.range (Nf (i + 1)),
          tmp i q c * M (ofs Nf (i + 1) + c) (ofs Nf (i + 1) + p) :=
    Finset.sum_congr rfl fun c hc => by
      rw [Pm_diag Nf L Psi W t D0 Dm Lm Pm Km tempL tmp temp2 su M
        hL hPsi hch hinv hM (i + 1) (by omega) (by omega) c
        (Finset.mem_range.mp hc) p hp]
  rw [h1, ← Minv_off Nf L Psi W t D0 Dm Lm Pm Km tempL tmp temp2 su M
    hL hPsi hch hinv hM i hi1 hiL q hq p hp]
  exact hsym (ofs Nf i + q) (ofs_blk_lt Nf (by omega) hq)
    (ofs Nf (i + 1) + p) (ofs_blk_lt Nf (by omega) hp)

/-- Block `M[0,1]` of the inverse in terms of `M[1,1]`, the first
sub-diagonal factor block and the scalar diagonal block `D0`. -/
theorem Minv_off0 (Nf : ℕ → ℕ) (L : ℕ) (Psi : ℚ) (W : ℕ → Mat)
    (t : ℕ → ℕ → ℚ) (D0 : ℚ) (Dm Lm Pm Km : ℕ → Mat)
    (tempL : Mat) (tmp temp2 su : ℕ → Mat) (M : Mat)
    (hL : 2 ≤ L) (hPsi : 0 < Psi)
    (hch : cholRel Nf L Psi 0 W t D0 Dm Lm)
    (hinv : invRel Nf L D0 Dm Lm Pm Km tempL tmp temp2 su)
    (hM : ∀ r < ofs Nf (L + 1), ∀ c < ofs Nf (L + 1),
      mB (ofs Nf (L + 1)) (chiOf Nf L W t (Psi * Psi)) M r c
        = idF (ofs Nf (L + 1)) r c) :
    ∀ p < Nf 0, ∀ q < Nf 1,
      M (ofs Nf 0 + p) (ofs Nf 1 + q)
        = -(∑ c ∈ Finset.range (Nf 1),
            Lm 0 c p * M (ofs Nf 1 + c) (ofs Nf 1 + q)) / D0 := by
  intro p hp q hq
  have hD0 : D0 ≠ 0 := by rw [hch.1]; exact ne_of_gt hPsi
  have hYrow := Yinv_row Nf L D0 Dm Lm M (show (0:ℕ) ≤ L by omega) hp
    (ofs Nf 1 + q)
  simp only [zero_add] at hYrow
  rw [Yinv_upper_zero Nf L Psi W t D0 Dm Lm Pm Km tempL tmp temp2 su M
      hL hPsi hch hinv hM 1 (by omega) 0 (by omega) p hp q hq,
    if_pos (by omega : 0 < L)] at hYrow
  have hD : (∑ c2 ∈ Finset.range (Nf 0),
      Dblk D0 Dm 0 c2 p * M (ofs Nf 0 + c2) (ofs Nf 1 + q))
      = D0 * M (ofs Nf 0 + p) (ofs Nf 1 + q) := by
    rw [Finset.sum_eq_single_of_mem p (Finset.mem_range.mpr hp)]
    · rw [Dblk_zero, if_pos rfl]
    · intro c2 _ hne
      rw [Dblk_zero, if_neg hne, zero_mul]
  rw [hD] at hYrow
  rw [eq_div_iff hD0]
  linarith [hYrow]

/-- First sub-diagonal inverse block at index `0` (scalar branch of the
selected-inverse sweep): `Km 0` equals `M[1, 0]`. -/
theorem Km0_blk (Nf : ℕ → ℕ) (L : ℕ) (Psi : ℚ) (W : ℕ → Mat)
    (t : ℕ → ℕ → ℚ) (D0 : ℚ) (Dm Lm Pm Km : ℕ → Mat)
    (tempL : Mat) (tmp temp2 su : ℕ → Mat) (M : Mat)
    (hL : 2 ≤ L) (hPsi : 0 < Psi)
    (hch : cholRel Nf L Psi 0 W t D0 Dm Lm)
    (hinv : invRel Nf L D0 Dm Lm Pm Km tempL tmp temp2 su)
    (hM : ∀ r < ofs Nf (L + 1), ∀ c < ofs Nf (L + 1),
      mB (ofs Nf (L + 1)) (chiOf Nf L W t (Psi * Psi)) M r c
        = idF (ofs Nf (L + 1)) r c) :
    ∀ a < Nf 1, ∀ b < Nf 0, Km 0 a b = M (ofs Nf 1 + a) (ofs Nf 0 + b) := by
  intro a ha b hb
  have hsym := Minv_symm Nf L W t (Psi * Psi) M hM
  rw [hinv.2.2.2.1 a ha b hb]
  have h1 : (∑ c ∈ Finset.range (Nf 1), Pm 1 c a * Lm 0 c b)
      = ∑ c ∈ Finset.range (Nf 1), Lm 0 c b * M (ofs Nf 1 + c) (ofs Nf 1 + a) :=
    Finset.sum_congr rfl fun c hc => by
      rw [Pm_diag Nf L Psi W t D0 Dm Lm Pm Km tempL tmp temp2 su M
        hL hPsi hch hinv hM 1 le_rfl (by omega) c (Finset.mem_range.mp hc) a ha]
      ring
  rw [h1, show -((∑ c ∈ Finset.range (Nf 1),
      Lm 0 c b * M (ofs Nf 1 + c) (ofs Nf 1 + a)) / D0)
      = -(∑ c ∈ Finset.range (Nf 1),
          Lm 0 c b * M (ofs Nf 1 + c) (ofs Nf 1 + a)) / D0 from (neg_div _ _).symm,
    ← Minv_off0 Nf L Psi W t D0 Dm Lm Pm Km tempL tmp temp2 su M
      hL hPsi hch hinv hM b hb a ha]
  exact hsym (ofs Nf 0 + b) (ofs_blk_lt Nf (by omega) hb)
    (ofs Nf 1 + a) (ofs_blk_lt Nf (by omega) ha)

/-- Diagonal inverse block at index `0` (scalar branch of the
selected-inverse sweep): `Pm 0` equals `M[0, 0]`. -/
theorem Pm0_blk (Nf : ℕ → ℕ) (L : ℕ) (Psi : ℚ) (W : ℕ → Mat)
    (t : ℕ → ℕ → ℚ) (D0 : ℚ) (Dm Lm Pm Km : ℕ → Mat)
    (tempL : Mat) (tmp temp2 su : ℕ → Mat) (M : Mat)
    (hL : 2 ≤ L) (hPsi : 0 < Psi)
    (hch : cholRel Nf L Psi 0 W t D0 Dm Lm)
    (hinv : invRel Nf L D0 Dm Lm Pm Km tempL tmp temp2 su)
    (hM : ∀ r < ofs Nf (L + 1), ∀ c < ofs Nf (L + 1),
      mB (ofs Nf (L + 1)) (chiOf Nf L W t (Psi * Psi)) M r c
        = idF (ofs Nf (L + 1)) r c) :
    ∀ a < Nf 0, ∀ b < Nf 0, Pm 0 a b = M (ofs Nf 0 + a) (ofs Nf 0 + b) := by
  intro a ha b hb
  have hD0 : D0 ≠ 0 := by rw [hch.1]; exact ne_of_gt hPsi
  have hsym := Minv_symm Nf L W t (Psi * Psi) M hM
  have hYrow := Yinv_row Nf L D0 Dm Lm M (show (0:ℕ) ≤ L by omega) ha
    (ofs Nf 0 + b)
  simp only [zero_add] at hYrow
  rw [if_pos (by omega : 0 < L)] at hYrow
  have hDsum : (∑ c2 ∈ Finset.range (Nf 0),
      Dblk D0 Dm 0 c2 a * M (ofs Nf 0 + c2) (ofs Nf 0 + b))
      = D0 * M (ofs Nf 0 + a) (ofs Nf 0 + b) := by
    rw [Finset.sum_eq_single_of_mem a (Finset.mem_range.mpr ha)]
    · rw [Dblk_zero, if_pos rfl]
    · intro c2 _ hne
      rw [Dblk_zero, if_neg hne, zero_mul]
  rw [hDsum] at hYrow
  have hY00 : Yinv Nf L D0 Dm Lm M (ofs Nf 0 + a) (ofs Nf 0 + b) * D0
      = idF (Nf 0) a b := by
    have h0 := Yinv_diag Nf L Psi W t D0 Dm Lm Pm Km tempL tmp temp2 su M
      hL hPsi hch hinv hM 0 (by omega) a ha b hb
    have hsum0 : (∑ c ∈ Finset.range (Nf 0),
        Yinv Nf L D0 Dm Lm M (ofs Nf 0 + a) (ofs Nf 0 + c) * Dblk D0 Dm 0 c b)
        = Yinv Nf L D0 Dm Lm M (ofs Nf 0 + a) (ofs Nf 0 + b) * D0 := by
      rw [Finset.sum_eq_single_of_mem b (Finset.mem_range.mpr hb)]
      · rw [Dblk_zero, if_pos rfl]
      · intro c _ hne
        rw [Dblk_zero, if_neg hne, mul_zero]
    rw [hsum0] at h0
    exact h0
  have hT1 : (∑ c ∈ Finset.range (Nf 1), Km 0 c a * Lm 0 c b)
      = -(∑ c ∈ Finset.range (Nf 1), ∑ e ∈ Finset.range (Nf 1),
          Lm 0 e a * M (ofs Nf 1 + e) (ofs Nf 1 + c) * Lm 0 c b) / D0 := by
    have hmid : (∑ c ∈ Finset.range (Nf 1), Km 0 c a * Lm 0 c b)
        = ∑ c ∈ Finset.range (Nf 1),
            (-(∑ e ∈ Finset.range (Nf 1),
              Lm 0 e a * M (ofs Nf 1 + e) (ofs Nf 1 + c)) / D0) * Lm 0 c b :=
      Finset.sum_congr rfl fun c hc => by
        rw [Km0_blk Nf L Psi W t D0 Dm Lm Pm Km tempL tmp temp2 su M
            hL hPsi hch hinv hM c (Finset.mem_range.mp hc) a ha,
          hsym (ofs Nf 1 + c) (ofs_blk_lt Nf (by omega) (Finset.mem_range.mp hc))
            (ofs Nf 0 + a) (ofs_blk_lt Nf (by omega) ha),
          Minv_off0 Nf L Psi W t D0 Dm Lm Pm Km tempL tmp temp2 su M
            hL hPsi hch hinv hM a ha c (Finset.mem_range.mp hc)]
    rw [hmid]
    have hterm : ∀ c : ℕ,
        (-(∑ e ∈ Finset.range (Nf 1),
            Lm 0 e a * M (ofs Nf 1 + e) (ofs Nf 1 + c)) / D0) * Lm 0 c b
        = (-∑ e ∈ Finset.range (Nf 1),
            Lm 0 e a * M (ofs Nf 1 + e) (ofs Nf 1 + c) * Lm 0 c b) / D0 := by
      intro c
      rw [div_mul_eq_mul_div, neg_mul, Finset.sum_mul]
    simp only [hterm]
    rw [← Finset.sum_div, Finset.sum_neg_distrib]
  have hS1 : (∑ c ∈ Finset.range (Nf 1),
        Lm 0 c a * M (ofs Nf 1 + c) (ofs Nf 0 + b))
      = -(∑ c ∈ Finset.range (Nf 1), ∑ e ∈ Finset.range (Nf 1),
          Lm 0 c a * (Lm 0 e b * M (ofs Nf 1 + e) (ofs Nf 1 + c))) / D0 := by
    have hmid : (∑ c ∈ Finset.range (Nf 1),
          Lm 0 c a * M (ofs Nf 1 + c) (ofs Nf 0 + b))
        = ∑ c ∈ Finset.range (Nf 1),
            Lm 0 c a * (-(∑ e ∈ Finset.range (Nf 1),
              Lm 0 e b * M (ofs Nf 1 + e) (ofs Nf 1 + c)) / D0) :=
      Finset.sum_congr rfl fun c hc => by
        rw [hsym (ofs Nf 1 + c) (ofs_blk_lt Nf (by omega) (Finset.mem_range.mp hc))
            (ofs Nf 0 + b) (ofs_blk_lt Nf (by omega) hb),
          Minv_off0 Nf L Psi W t D0 Dm Lm Pm Km tempL tmp temp2 su M
            hL hPsi hch hinv hM b hb c (Finset.mem_range.mp hc)]
    rw [hmid]
    have hterm : ∀ c : ℕ,
        Lm 0 c a * (-(∑ e ∈ Finset.range (Nf 1),
            Lm 0 e b * M (ofs Nf 1 + e) (ofs Nf 1 + c)) / D0)
        = (-∑ e ∈ Finset.range (Nf 1),
            Lm 0 c a * (Lm 0 e b * M (ofs Nf 1 + e) (ofs Nf 1 + c))) / D0 := by
      intro c
      rw [← mul_div_assoc, mul_neg, Finset.mul_sum]
    simp only [hterm]
    rw [← Finset.sum_div, Finset.sum_neg_distrib]
  have hTS : (∑ c ∈ Finset.range (Nf 1), Km 0 c a * Lm 0 c b)
      = ∑ c ∈ Finset.range (Nf 1), Lm 0 c a * M (ofs Nf 1 + c) (ofs Nf 0 + b) := by
    have hAB : (∑ c ∈ Finset.range (Nf 1), ∑ e ∈ Finset.range (Nf 1),
        Lm 0 e a * M (ofs Nf 1 + e) (ofs Nf 1 + c) * Lm 0 c b)
        = ∑ c ∈ Finset.range (Nf 1), ∑ e ∈ Finset.range (Nf 1),
            Lm 0 c a * (Lm 0 e b * M (ofs Nf 1 + e) (ofs Nf 1 + c)) := by
      rw [Finset.sum_comm]
      refine Finset.sum_congr rfl fun x hx => Finset.sum_congr rfl fun y hy => ?_
      rw [hsym (ofs Nf 1 + x) (ofs_blk_lt Nf (by omega) (Finset.mem_range.mp hx))
        (ofs Nf 1 + y) (ofs_blk_lt Nf (by omega) (Finset.mem_range.mp hy))]
      ring
    rw [hT1, hS1, hAB]
  rw [hinv.2.2.2.2 a ha b hb, hTS]
  have hkey : (D0 * M (ofs Nf 0 + a) (ofs Nf 0 + b)
      + ∑ c2 ∈ Finset.range (Nf 1),
          Lm 0 c2 a * M (ofs Nf 1 + c2) (ofs Nf 0 + b)) * D0
      = idF (Nf 0) a b := by
    rw [← hYrow]
    exact hY00
  by_cases hab : a = b
  · subst hab
    rw [if_pos rfl]
    have hid : idF (Nf 0) a a = 1 := by simp [idF, ha]
    rw [hid] at hkey
    have hstep : 1 / D0 ^ 2 - (∑ c ∈ Finset.range (Nf 1),
        Lm 0 c a * M (ofs Nf 1 + c) (ofs Nf 0 + a)) / D0
        = (1 - (∑ c ∈ Finset.range (Nf 1),
            Lm 0 c a * M (ofs Nf 1 + c) (ofs Nf 0 + a)) * D0) / D0 ^ 2 := by
      field_simp
      ring
    rw [hstep, div_eq_iff (pow_ne_zero 2 hD0)]
    linear_combination -hkey
  · rw [if_neg hab]
    have hid : idF (Nf 0) a b = 0 := by simp [idF, hab]
    rw [hid] at hkey
    have h2 : D0 * M (ofs Nf 0 + a) (ofs Nf 0 + b)
        + (∑ c2 ∈ Finset.range (Nf 1),
            Lm 0 c2 a * M (ofs Nf 1 + c2) (ofs Nf 0 + b)) = 0 := by
      rcases mul_eq_zero.mp hkey with h | h
      · exact h
      · exact absurd h hD0
    rw [zero_sub, ← neg_div, div_eq_iff hD0]
    linear_combination -h2

/-! ## The concrete `(1,1,1)` instance satisfies the sweep equations -/

theorem ofs_nf1 : ∀ i, ofs nf1 i = i := by
  intro i
  induction i with
  | zero => rfl
  | succ i ih => simp [ofs, nf1, ih]

theorem hofs_nf1 : ∀ i, hofs nf1 i = i := by
  intro i
  induction i with
  | zero => rfl
  | succ i ih => simp [hofs, nf1, ih]

theorem inst_cholRel : cholRel nf1 2 (13 / 12) 0 w1 t1 (13 / 12) d1 l1 := by
  refine ⟨rfl, ?_, ?_, ?_, ?_, ?_⟩
  · intro a ha b hb
    have ha' : a < 1 := ha
    have hb' : b < 1 := hb
    obtain rfl : a = 0 := by omega
    obtain rfl : b = 0 := by omega
    norm_num [l1, t1, w1]
  · intro i hi1 hi2 a ha b hb
    obtain rfl : i = 1 := by omega
    have ha' : a < 1 := ha
    have hb' : b < 1 := hb
    obtain rfl : a = 0 := by omega
    obtain rfl : b = 0 := by omega
    norm_num [nf1, d1, t1, l1, Finset.sum_range_one]
  · intro i hi1 hi2
    exact absurd hi2 (by omega)
  · intro a ha b hb
    have ha' : a < 1 := ha
    have hb' : b < 1 := hb
    obtain rfl : a = 0 := by omega
    obtain rfl : b = 0 := by omega
    norm_num [nf1, d1, l1, w1, Finset.sum_range_one]
  · intro a ha b hb
    have ha' : a < 1 := ha
    have hb' : b < 1 := hb
    obtain rfl : a = 0 := by omega
    obtain rfl : b = 0 := by omega
    norm_num [nf1, d1, l1, Finset.sum_range_one]

theorem inst_invRel :
    invRel nf1 2 (13 / 12) d1 l1 pm1 km1 tempL1 tmp1 temp21 su1 := by
  refine ⟨?_, ?_, ?_, ?_, ?_⟩
  · intro a ha b hb
    have ha' : a < 1 := ha
    have hb' : b < 1 := hb
    obtain rfl : a = 0 := by omega
    obtain rfl : b = 0 := by omega
    norm_num [nf1, d1, tempL1, idF, Finset.sum_range_one]
  · intro a ha b hb
    have ha' : a < 1 := ha
    have hb' : b < 1 := hb
    obtain rfl : a = 0 := by omega
    obtain rfl : b = 0 := by omega
    norm_num [nf1, d1, pm1, tempL1, Finset.sum_range_one]
  · intro i hi1 hi2
    obtain rfl : i = 1 := by omega
    refine ⟨?_, ?_, ?_, ?_, ?_⟩ <;>
      · intro a ha b hb
        have ha' : a < 1 := ha
        have hb' : b < 1 := hb
        obtain rfl : a = 0 := by omega
        obtain rfl : b = 0 := by omega
        norm_num [nf1, d1, l1, pm1, km1, tmp1, temp21, su1, idF,
          Finset.sum_range_one]
  · intro a ha b hb
    have ha' : a < 1 := ha
    have hb' : b < 1 := hb
    obtain rfl : a = 0 := by omega
    obtain rfl : b = 0 := by omega
    norm_num [nf1, l1, pm1, km1, Finset.sum_range_one]
  · intro a ha b hb
    have ha' : a < 1 := ha
    have hb' : b < 1 := hb
    obtain rfl : a = 0 := by omega
    obtain rfl : b = 0 := by omega
    norm_num [nf1, l1, pm1, km1, Finset.sum_range_one]

theorem inst_hM :
    ∀ r < ofs nf1 3, ∀ c < ofs nf1 3,
      mB (ofs nf1 3) (chiOf nf1 2 w1 t1 (13 / 12 * (13 / 12))) minv1 r c
        = idF (ofs nf1 3) r c := by
  intro r hr c hc
  have hr' : r < 3 := by rw [ofs_nf1] at hr; exact hr
  have hc' : c < 3 := by rw [ofs_nf1] at hc; exact hc
  rw [show ofs nf1 3 = 3 from ofs_nf1 3]
  interval_cases r <;> interval_cases c <;>
    norm_num [mB, chiOf, triBZ, triAZ, trainA, trainB, trainT, trainQ, tDiag,
      hofs_nf1, ofs_nf1, inBlk, inHBlk, nf1, w1, t1, minv1, idF,
      Finset.sum_range_succ, Finset.sum_range_zero]

/-- Witness for the round-trip factorization theorem at the `(1,1,1)`
instance. -/
theorem chol_roundtrip_factorization_witness :
    (2 ≤ 2 ∧ (0:ℚ) < 13 / 12 ∧ cholRel nf1 2 (13 / 12) 0 w1 t1 (13 / 12) d1 l1)
    ∧ (∀ r < ofs nf1 (2 + 1), ∀ c < ofs nf1 (2 + 1),
        (∑ k ∈ Finset.range (ofs nf1 (2 + 1)),
          trainL nf1 2 (13 / 12) d1 l1 r k * trainL nf1 2 (13 / 12) d1 l1 c k)
          = chiOf nf1 2 w1 t1 (13 / 12 * (13 / 12)) r c) :=
  ⟨⟨by norm_num, by norm_num, inst_cholRel⟩,
    chol_roundtrip_factorization nf1 2 (13 / 12) w1 t1 (13 / 12) d1 l1
      (by norm_num) (by norm_num) inst_cholRel⟩

/-- Claim C2 (inverse correctness): for every factorization `(D0, Dm, Lm)`
of the certificate matrix produced by `barrierfunction_t::chol`
(equations `cholRel`, stabilization disabled) and every run of
`barrierfunction_t::inv` on it (equations `invRel`), if `M` is a right
inverse of `chi(Ψ², W, T)` on the full index range then the diagonal
blocks `Pm 0 … Pm L` and sub-diagonal blocks `Km 0 … Km (L-1)` equal the
corresponding diagonal and first sub-diagonal blocks of `M = chi⁻¹`. -/
theorem inv_selected_blocks (Nf : ℕ → ℕ) (L : ℕ) (Psi : ℚ) (W : ℕ → Mat)
    (t : ℕ → ℕ → ℚ) (D0 : ℚ) (Dm Lm Pm Km : ℕ → Mat)
    (tempL : Mat) (tmp temp2 su : ℕ → Mat) (M : Mat)
    (hL : 2 ≤ L) (hPsi : 0 < Psi)
    (hch : cholRel Nf L Psi 0 W t D0 Dm Lm)
    (hinv : invRel Nf L D0 Dm Lm Pm Km tempL tmp temp2 su)
    (hM : ∀ r < ofs Nf (L + 1), ∀ c < ofs Nf (L + 1),
      mB (ofs Nf (L + 1)) (chiOf Nf L W t (Psi * Psi)) M r c
        = idF (ofs Nf (L + 1)) r c) :
    (∀ i ≤ L, ∀ a < Nf i, ∀ b < Nf i,
      Pm i a b = M (ofs Nf i + a) (ofs Nf i + b))
    ∧ (∀ i < L, ∀ a < Nf (i + 1), ∀ b < Nf i,
      Km i a b = M (ofs Nf (i + 1) + a) (ofs Nf i + b)) := by
  constructor
  · intro i hiL a ha b hb
    rcases Nat.eq_zero_or_pos i with rfl | hi1
    · exact Pm0_blk Nf L Psi W t D0 Dm Lm Pm Km tempL tmp temp2 su M
        hL hPsi hch hinv hM a ha b hb
    · exact Pm_diag Nf L Psi W t D0 Dm Lm Pm Km tempL tmp temp2 su M
        hL hPsi hch hinv hM i hi1 hiL a ha b hb
  · intro i hiL a ha b hb
    rcases Nat.eq_zero_or_pos i with rfl | hi1
    · exact Km0_blk Nf L Psi W t D0 Dm Lm Pm Km tempL tmp temp2 su M
        hL hPsi hch hinv hM a ha b hb
    · exact Km_int Nf L Psi W t D0 Dm Lm Pm Km tempL tmp temp2 su M
        hL hPsi hch hinv hM i hi1 hiL a ha b hb

/-- Witness for the inverse-correctness theorem at the `(1,1,1)`
instance. -/
theorem inv_selected_blocks_witness :
    (2 ≤ 2 ∧ (0:ℚ) < 13 / 12
      ∧ cholRel nf1 2 (13 / 12) 0 w1 t1 (13 / 12) d1 l1
      ∧ invRel nf1 2 (13 / 12) d1 l1 pm1 km1 tempL1 tmp1 temp21 su1
      ∧ (∀ r < ofs nf1 3, ∀ c < ofs nf1 3,
          mB (ofs nf1 3) (chiOf nf1 2 w1 t1 (13 / 12 * (13 / 12))) minv1 r c
            = idF (ofs nf1 3) r c))
    ∧ ((∀ i ≤ 2, ∀ a < nf1 i, ∀ b < nf1 i,
        pm1 i a b = minv1 (ofs nf1 i + a) (ofs nf1 i + b))
      ∧ (∀ i < 2, ∀ a < nf1 (i + 1), ∀ b < nf1 i,
        km1 i a b = minv1 (ofs nf1 (i + 1) + a) (ofs nf1 i + b))) :=
  ⟨⟨by norm_num, by norm_num, inst_cholRel, inst_invRel, inst_hM⟩,
    inv_selected_blocks nf1 2 (13 / 12) w1 t1 (13 / 12) d1 l1 pm1 km1
      tempL1 tmp1 temp21 su1 minv1 (by norm_num) (by norm_num)
      inst_cholRel inst_invRel inst_hM⟩

/-! ## Gradient accumulation of `barrierfunction_t::compute` (claim C3) -/

/-- Claim C3 counterexample: at the `(1,1,1)` instance — whose stacks
satisfy the factorization and selected-inverse equations, and whose
`pm1`/`km1` are genuinely the blocks of `chi⁻¹` since `minv1` inverts the
certificate matrix — with barrier weight `gamma = 2`, the `T`-gradient
entry accumulated by `barrierfunction_t::compute` is `125/104`, which is
the contraction `2·(K₀·W₀ - P₁)` scaled by `2` only; the `2·gamma`-scaled
contraction claimed by the specification would be `125/52`. -/
theorem computeAddT_gamma_counterexample :
    cholRel nf1 2 (13 / 12) 0 w1 t1 (13 / 12) d1 l1
    ∧ invRel nf1 2 (13 / 12) d1 l1 pm1 km1 tempL1 tmp1 temp21 su1
    ∧ (∀ r < ofs nf1 3, ∀ c < ofs nf1 3,
        mB (ofs nf1 3) (chiOf nf1 2 w1 t1 (13 / 12 * (13 / 12))) minv1 r c
          = idF (ofs nf1 3) r c)
    ∧ computeAddT nf1 2 w1 pm1 km1 (fun _ _ => 0) 0 0 = 125 / 104
    ∧ 2 * (2 : ℚ) * ((∑ q ∈ Finset.range (nf1 0), km1 0 0 q * w1 0 0 q)
        - pm1 1 0 0) = 125 / 52
    ∧ (125 / 104 : ℚ) ≠ 125 / 52 :=
  ⟨inst_cholRel, inst_invRel, inst_hM,
    by norm_num [computeAddT, nf1, w1, pm1, km1, Finset.sum_range_one],
    by norm_num [nf1, w1, pm1, km1, Finset.sum_range_one],
    by norm_num⟩

/-- Claim C3 (amended): the barrier contribution accumulated by
`barrierfunction_t::compute` into the caller's gradient buffer is,
entrywise: for the weight gradient, `2·gamma·t_I[a]·K_I[a,b]` at interior
layers and `2·gamma·K_{L-1}[a,b]` at the last layer, with layers at or
beyond `L` untouched; for the `T`-gradient,
`2·(Σ_q K_I[k,q]·W_I[k,q] - P_{I+1}[k,k])` at `I < L-1` — scaled by the
constant `2` but not by `gamma` — and untouched otherwise. -/
theorem compute_grad_contrib (Nf : ℕ → ℕ) (L : ℕ) (W : ℕ → Mat)
    (t : ℕ → ℕ → ℚ) (Pm Km : ℕ → Mat) (gamma : ℚ) (gW : ℕ → Mat)
    (gT : ℕ → ℕ → ℚ) :
    (∀ I a b, computeAddW L t Km gamma gW I a b - gW I a b
      = if I < L - 1 then 2 * gamma * (t I a * Km I a b)
        else if I = L - 1 then 2 * gamma * Km I a b
        else 0)
    ∧ (∀ I k, computeAddT Nf L W Pm Km gT I k - gT I k
      = if I < L - 1 then
          2 * ((∑ q ∈ Finset.range (Nf I), Km I k q * W I k q)
            - Pm (I + 1) k k)
        else 0) := by
  constructor
  · intro I a b
    by_cases h1 : I < L - 1
    · simp only [computeAddW, if_pos h1]
      ring
    · by_cases h2 : I = L - 1
      · simp only [computeAddW, if_neg h1, if_pos h2]
        ring
      · simp only [computeAddW, if_neg h1, if_neg h2]
        ring
  · intro I k
    by_cases h1 : I < L - 1
    · simp only [computeAddT, if_pos h1]
      ring
    · simp only [computeAddT, if_neg h1]
      ring

/-! ## Failure behaviour of the factorization sweep (claim C4) -/

theorem posDefF_one_iff (X : Mat) : posDefF 1 X ↔ 0 < X 0 0 := by
  constructor
  · intro h
    have h1 := h (fun _ => 1) ⟨0, by omega, one_ne_zero⟩
    simpa using h1
  · intro h v hv
    obtain ⟨k, hk, hvk⟩ := hv
    obtain rfl : k = 0 := by omega
    simp only [Finset.sum_range_one]
    calc (0:ℚ) < v 0 * v 0 * X 0 0 := mul_pos (mul_self_pos.mpr hvk) h
      _ = v 0 * X 0 0 * v 0 := by ring

theorem cholStep_some (Nf : ℕ → ℕ) (L : ℕ) (W : ℕ → Mat) (t : ℕ → ℕ → ℚ)
    (stab : Bool) (eps : ℚ) (llh : ℕ → Mat → Option Mat)
    (tsolve : ℕ → ℕ → Mat → Mat → Mat) (i : ℕ)
    (Ds Ls : List Mat) (prev Di : Mat)
    (h : llh (Nf i) (schurAt Nf L t stab eps i prev) = some Di)
    (hiL : i < L) :
    cholStep Nf L W t stab eps llh tsolve i (Ds, Ls, prev)
      = some (Ds ++ [Di], Ls ++ [nextLm Nf L W t tsolve i Di],
          nextLm Nf L W t tsolve i Di) := by
  simp only [cholStep]
  rw [h]
  simp only [Option.map_some']
  rw [if_pos hiL]

theorem cholStep_last (Nf : ℕ → ℕ) (L : ℕ) (W : ℕ → Mat) (t : ℕ → ℕ → ℚ)
    (stab : Bool) (eps : ℚ) (llh : ℕ → Mat → Option Mat)
    (tsolve : ℕ → ℕ → Mat → Mat → Mat) (i : ℕ)
    (Ds Ls : List Mat) (prev Di : Mat)
    (h : llh (Nf i) (schurAt Nf L t stab eps i prev) = some Di)
    (hiL : ¬ i < L) :
    cholStep Nf L W t stab eps llh tsolve i (Ds, Ls, prev)
      = some (Ds ++ [Di], Ls, prev) := by
  simp only [cholStep]
  rw [h]
  simp only [Option.map_some']
  rw [if_neg hiL]

/-- The sweep returns `none` after `n` steps iff the dense factorization
oracle failed at some visited Schur block among steps `1 … n`. -/
theorem cholRun_none_iff (Nf : ℕ → ℕ) (L : ℕ) (W : ℕ → Mat) (t : ℕ → ℕ → ℚ)
    (Psi : ℚ) (stab : Bool) (eps : ℚ) (llh : ℕ → Mat → Option Mat)
    (tsolve : ℕ → ℕ → Mat → Mat → Mat) :
    ∀ n, cholRun Nf L W t Psi stab eps llh tsolve n = none
      ↔ ∃ i, 1 ≤ i ∧ i ≤ n ∧ ∃ st,
          cholRun Nf L W t Psi stab eps llh tsolve (i - 1) = some st
          ∧ llh (Nf i) (schurAt Nf L t stab eps i st.2.2) = none := by
  intro n
  induction n with
  | zero =>
    constructor
    · intro h
      exact absurd h (by simp [cholRun])
    · rintro ⟨i, hi1, hi0, -⟩
      omega
  | succ n ih =>
    constructor
    · intro h
      replace h : (cholRun Nf L W t Psi stab eps llh tsolve n).bind
          (cholStep Nf L W t stab eps llh tsolve (n + 1)) = none := h
      cases hc : cholRun Nf L W t Psi stab eps llh tsolve n with
      | none =>
        obtain ⟨i, hi1, hin, st, hst, hnone⟩ := ih.mp hc
        exact ⟨i, hi1, by omega, st, hst, hnone⟩
      | some st =>
        rw [hc] at h
        replace h : cholStep Nf L W t stab eps llh tsolve (n + 1) st = none := h
        refine ⟨n + 1, by omega, le_refl (n + 1), st, hc, ?_⟩
        unfold cholStep at h
        exact Option.map_eq_none'.mp h
    · rintro ⟨i, hi1, hin, st, hst, hnone⟩
      show (cholRun Nf L W t Psi stab eps llh tsolve n).bind
        (cholStep Nf L W t stab eps llh tsolve (n + 1)) = none
      by_cases hi : i ≤ n
      · rw [ih.mpr ⟨i, hi1, hi, st, hst, hnone⟩]
        rfl
      · obtain rfl : i = n + 1 := by omega
        have hst' : cholRun Nf L W t Psi stab eps llh tsolve n = some st := hst
        rw [hst']
        show cholStep Nf L W t stab eps llh tsolve (n + 1) st = none
        unfold cholStep
        rw [hnone]
        rfl

/-- Claim C4 (factorization failure): with a Cholesky oracle that fails
precisely on non-positive-definite input at every block the sweep visits,
the `chol` call fails (the `NotPositiveDefinite` condition, `none`) iff
some visited Schur-complement block `X_i` — after the optional `eps·I`
offset — is not positive definite; and when every visited block is
positive definite the call returns the factor stacks normally. -/
theorem chol_failure_iff (Nf : ℕ → ℕ) (L : ℕ) (W : ℕ → Mat) (t : ℕ → ℕ → ℚ)
    (Psi : ℚ) (stab : Bool) (eps : ℚ) (llh : ℕ → Mat → Option Mat)
    (tsolve : ℕ → ℕ → Mat → Mat → Mat)
    (hllh : ∀ i st, 1 ≤ i → i ≤ L →
      cholRun Nf L W t Psi stab eps llh tsolve (i - 1) = some st →
      (llh (Nf i) (schurAt Nf L t stab eps i st.2.2) = none
        ↔ ¬ posDefF (Nf i) (schurAt Nf L t stab eps i st.2.2))) :
    (cholRun Nf L W t Psi stab eps llh tsolve L = none
      ↔ ∃ i, 1 ≤ i ∧ i ≤ L ∧ ∃ st,
          cholRun Nf L W t Psi stab eps llh tsolve (i - 1) = some st
          ∧ ¬ posDefF (Nf i) (schurAt Nf L t stab eps i st.2.2))
    ∧ ((∀ i st, 1 ≤ i → i ≤ L →
        cholRun Nf L W t Psi stab eps llh tsolve (i - 1) = some st →
        posDefF (Nf i) (schurAt Nf L t stab eps i st.2.2)) →
      ∃ res, cholRun Nf L W t Psi stab eps llh tsolve L = some res) := by
  have hbase := cholRun_none_iff Nf L W t Psi stab eps llh tsolve L
  constructor
  · constructor
    · intro h
      obtain ⟨i, hi1, hiL, st, hst, hnone⟩ := hbase.mp h
      exact ⟨i, hi1, hiL, st, hst, (hllh i st hi1 hiL hst).mp hnone⟩
    · rintro ⟨i, hi1, hiL, st, hst, hnpd⟩
      exact hbase.mpr ⟨i, hi1, hiL, st, hst, (hllh i st hi1 hiL hst).mpr hnpd⟩
  · intro hall
    rcases hres : cholRun Nf L W t Psi stab eps llh tsolve L with - | res
    · obtain ⟨i, hi1, hiL, st, hst, hnone⟩ := hbase.mp hres
      exact absurd (hall i st hi1 hiL hst) ((hllh i st hi1 hiL hst).mp hnone)
    · exact ⟨res, rfl⟩

/-- Witness for the factorization-failure theorem: the `(1,1,1)` instance
with the lookup oracle `llhW`, whose two visited Schur blocks `[[1]]` and
`[[16/25]]` are both positive definite. -/
theorem chol_failure_iff_witness :
    (∀ i st, 1 ≤ i → i ≤ 2 →
      cholRun nf1 2 w1 t1 (13 / 12) false 0 llhW tsolveW (i - 1) = some st →
      (llhW (nf1 i) (schurAt nf1 2 t1 false 0 i st.2.2) = none
        ↔ ¬ posDefF (nf1 i) (schurAt nf1 2 t1 false 0 i st.2.2)))
    ∧ ((cholRun nf1 2 w1 t1 (13 / 12) false 0 llhW tsolveW 2 = none
        ↔ ∃ i, 1 ≤ i ∧ i ≤ 2 ∧ ∃ st,
            cholRun nf1 2 w1 t1 (13 / 12) false 0 llhW tsolveW (i - 1) = some st
            ∧ ¬ posDefF (nf1 i) (schurAt nf1 2 t1 false 0 i st.2.2))
      ∧ ((∀ i st, 1 ≤ i → i ≤ 2 →
          cholRun nf1 2 w1 t1 (13 / 12) false 0 llhW tsolveW (i - 1) = some st →
          posDefF (nf1 i) (schurAt nf1 2 t1 false 0 i st.2.2)) →
        ∃ res, cholRun nf1 2 w1 t1 (13 / 12) false 0 llhW tsolveW 2 = some res)) := by
  have hX1 : schurAt nf1 2 t1 false 0 1 (L0m nf1 w1 t1 (13 / 12)) 0 0 = 1 := by
    norm_num [schurAt, schurDiagT, L0m, nf1, t1, w1, Finset.sum_range_one]
  have hX2 : schurAt nf1 2 t1 false 0 2
      (nextLm nf1 2 w1 t1 tsolveW 1 (fun _ _ => (1:ℚ))) 0 0 = 16 / 25 := by
    norm_num [schurAt, schurLast, nextLm, tsolveW, nf1, w1, Finset.sum_range_one]
  have hllh1 : llhW (nf1 1) (schurAt nf1 2 t1 false 0 1 (L0m nf1 w1 t1 (13 / 12)))
      = some (fun _ _ => (1:ℚ)) := by
    unfold llhW
    rw [if_pos hX1]
  have hllh2 : llhW (nf1 2) (schurAt nf1 2 t1 false 0 2
      (nextLm nf1 2 w1 t1 tsolveW 1 (fun _ _ => (1:ℚ))))
      = some (fun _ _ => (4 / 5 : ℚ)) := by
    unfold llhW
    rw [if_neg (by rw [hX2]; norm_num), if_pos hX2]
  have h0 : cholRun nf1 2 w1 t1 (13 / 12) false 0 llhW tsolveW 0
      = some ([], [L0m nf1 w1 t1 (13 / 12)], L0m nf1 w1 t1 (13 / 12)) := rfl
  have h1 : cholRun nf1 2 w1 t1 (13 / 12) false 0 llhW tsolveW 1
      = some ([fun _ _ => (1:ℚ)],
          [L0m nf1 w1 t1 (13 / 12), nextLm nf1 2 w1 t1 tsolveW 1 (fun _ _ => (1:ℚ))],
          nextLm nf1 2 w1 t1 tsolveW 1 (fun _ _ => (1:ℚ))) := by
    have hs := cholStep_some nf1 2 w1 t1 false 0 llhW tsolveW 1 []
      [L0m nf1 w1 t1 (13 / 12)] (L0m nf1 w1 t1 (13 / 12)) (fun _ _ => (1:ℚ))
      hllh1 (by omega)
    show ((cholRun nf1 2 w1 t1 (13 / 12) false 0 llhW tsolveW 0).bind
      (cholStep nf1 2 w1 t1 false 0 llhW tsolveW 1)) = _
    rw [h0]
    show cholStep nf1 2 w1 t1 false 0 llhW tsolveW 1
      ([], [L0m nf1 w1 t1 (13 / 12)], L0m nf1 w1 t1 (13 / 12)) = _
    rw [hs]
    simp
  have hyp : ∀ i st, 1 ≤ i → i ≤ 2 →
      cholRun nf1 2 w1 t1 (13 / 12) false 0 llhW tsolveW (i - 1) = some st →
      (llhW (nf1 i) (schurAt nf1 2 t1 false 0 i st.2.2) = none
        ↔ ¬ posDefF (nf1 i) (schurAt nf1 2 t1 false 0 i st.2.2)) := by
    intro i st hi1 hi2 hst
    interval_cases i
    · have hst0 : cholRun nf1 2 w1 t1 (13 / 12) false 0 llhW tsolveW 0
          = some st := hst
      obtain rfl : st = ([], [L0m nf1 w1 t1 (13 / 12)], L0m nf1 w1 t1 (13 / 12)) :=
        (Option.some_inj.mp (h0.symm.trans hst0)).symm
      constructor
      · intro hno
        have h2 : llhW (nf1 1)
            (schurAt nf1 2 t1 false 0 1 (L0m nf1 w1 t1 (13 / 12))) = none := hno
        rw [hllh1] at h2
        exact Option.noConfusion h2
      · intro hnpd
        exact absurd
          ((posDefF_one_iff (schurAt nf1 2 t1 false 0 1
            (L0m nf1 w1 t1 (13 / 12)))).mpr (by rw [hX1]; norm_num)) hnpd
    · have hst1 : cholRun nf1 2 w1 t1 (13 / 12) false 0 llhW tsolveW 1
          = some st := hst
      obtain rfl : st = ([fun _ _ => (1:ℚ)],
          [L0m nf1 w1 t1 (13 / 12), nextLm nf1 2 w1 t1 tsolveW 1 (fun _ _ => (1:ℚ))],
          nextLm nf1 2 w1 t1 tsolveW 1 (fun _ _ => (1:ℚ))) :=
        (Option.some_inj.mp (h1.symm.trans hst1)).symm
      constructor
      · intro hno
        have h2 : llhW (nf1 2) (schurAt nf1 2 t1 false 0 2
            (nextLm nf1 2 w1 t1 tsolveW 1 (fun _ _ => (1:ℚ)))) = none := hno
        rw [hllh2] at h2
        exact Option.noConfusion h2
      · intro hnpd
        exact absurd
          ((posDefF_one_iff (schurAt nf1 2 t1 false 0 2
            (nextLm nf1 2 w1 t1 tsolveW 1 (fun _ _ => (1:ℚ))))).mpr
            (by rw [hX2]; norm_num)) hnpd
  exact ⟨hyp, chol_failure_iff nf1 2 w1 t1 (13 / 12) false 0 llhW tsolveW hyp⟩

/-! ## Eigenvalue post-processing of the line search (claim C5) -/

theorem le_listMax : ∀ (l : List ℚ), ∀ x ∈ l, x ≤ listMax l := by
  intro l
  induction l with
  | nil =>
    intro x hx
    exact absurd hx (List.not_mem_nil x)
  | cons a tl ih =>
    intro x hx
    cases tl with
    | nil =>
      rw [List.mem_singleton] at hx
      subst hx
      exact le_refl _
    | cons b tl2 =>
      rw [show listMax (a :: b :: tl2) = max a (listMax (b :: tl2)) from rfl]
      rcases List.mem_cons.mp hx with rfl | hx2
      · exact le_max_left _ _
      · exact le_trans (ih x hx2) (le_max_right _ _)

theorem listMax_mem : ∀ (l : List ℚ), l ≠ [] → listMax l ∈ l := by
  intro l
  induction l with
  | nil =>
    intro h
    exact absurd rfl h
  | cons a tl ih =>
    intro _
    cases tl with
    | nil =>
      exact List.mem_singleton.mpr rfl
    | cons b tl2 =>
      rw [show listMax (a :: b :: tl2) = max a (listMax (b :: tl2)) from rfl]
      rcases max_choice a (listMax (b :: tl2)) with h | h
      · rw [h]
        exact List.mem_cons_self _ _
      · rw [h]
        exact List.mem_cons_of_mem _ (ih (by simp))

/-- The per-pair map sends eligible pairs to their ratio and everything
else to the sentinel `-1`. -/
theorem feasMapEntry_eq (p : (ℚ × ℚ) × ℚ) :
    feasMapEntry p.1 p.2 = if eligPair p then p.1.1 / p.2 else -1 := by
  unfold feasMapEntry eligPair
  by_cases h1 : |p.1.2| < 1 / 1000000 ∧ 1 / 1000000 < |p.2|
  · rw [if_pos h1]
    by_cases h2 : p.1.1 / p.2 < 0
    · rw [if_pos h2, if_pos ⟨h1.1, h1.2, h2⟩]
    · rw [if_neg h2, if_neg (fun hh => h2 hh.2.2)]
  · rw [if_neg h1, if_neg (fun hh => h1 ⟨hh.1, hh.2.1⟩)]

/-- Claim C5 counterexample: for a `gges` output consisting of a single
non-real pair — so that no eligible pair exists — the value returned by
`feasibilitycheck_t::compute` is `|max{-1}| = 1`, not the `0` stated by the
specification. -/
theorem feasPost_no_eligible_counterexample :
    (∀ p ∈ [(((1:ℚ), (1:ℚ)), (1:ℚ))], ¬ eligPair p)
    ∧ feasPost [(((1:ℚ), (1:ℚ)), (1:ℚ))] = 1
    ∧ (1:ℚ) ≠ 0 := by
  refine ⟨?_, ?_, by norm_num⟩
  · intro p hp
    rw [List.mem_singleton] at hp
    subst hp
    intro hel
    have h1 := hel.1
    norm_num at h1
  · norm_num [feasPost, listMax, feasMapEntry]

/-- Claim C5 (amended): on a nonempty `gges` output with no eligible pair,
`feasibilitycheck_t::compute` returns `1` (the absolute value of the
sentinel `-1`), not `0`; every eligible ratio is bounded by the maximum of
the mapped vector; and whenever some eligible pair has ratio `≥ -1`, the
returned value is the absolute value of the eligible ratio closest to zero
(the greatest eligible ratio). -/
theorem feasPost_edge (l : List ((ℚ × ℚ) × ℚ)) :
    (l ≠ [] → (∀ p ∈ l, ¬ eligPair p) → feasPost l = 1)
    ∧ (∀ p ∈ l, eligPair p →
        p.1.1 / p.2 ≤ listMax (l.map fun q => feasMapEntry q.1 q.2))
    ∧ ((∃ p ∈ l, eligPair p ∧ -1 ≤ p.1.1 / p.2) →
        ∃ p ∈ l, eligPair p ∧ feasPost l = |p.1.1 / p.2|
          ∧ ∀ q ∈ l, eligPair q → q.1.1 / q.2 ≤ p.1.1 / p.2) := by
  have hle : ∀ p ∈ l, eligPair p →
      p.1.1 / p.2 ≤ listMax (l.map fun q => feasMapEntry q.1 q.2) := by
    intro p hp hel
    have hmem : feasMapEntry p.1 p.2 ∈ l.map fun q => feasMapEntry q.1 q.2 :=
      List.mem_map_of_mem _ hp
    have h2 := le_listMax _ _ hmem
    rw [feasMapEntry_eq, if_pos hel] at h2
    exact h2
  refine ⟨?_, hle, ?_⟩
  · intro hne hall
    unfold feasPost
    have hmem := listMax_mem (l.map fun q => feasMapEntry q.1 q.2)
      (fun h => hne (by simpa using h))
    obtain ⟨q, hq, hqe⟩ := List.mem_map.mp hmem
    replace hqe : feasMapEntry q.1 q.2
        = listMax (l.map fun q => feasMapEntry q.1 q.2) := hqe
    rw [← hqe, feasMapEntry_eq, if_neg (hall q hq)]
    norm_num
  · rintro ⟨p0, hp0, hel0, hge0⟩
    have hmemmap : feasMapEntry p0.1 p0.2 ∈ l.map fun q => feasMapEntry q.1 q.2 :=
      List.mem_map_of_mem _ hp0
    have hmapne : (l.map fun q => feasMapEntry q.1 q.2) ≠ [] :=
      List.ne_nil_of_mem hmemmap
    obtain ⟨q, hq, hqe⟩ := List.mem_map.mp (listMax_mem _ hmapne)
    replace hqe : feasMapEntry q.1 q.2
        = listMax (l.map fun q => feasMapEntry q.1 q.2) := hqe
    by_cases helq : eligPair q
    · refine ⟨q, hq, helq, ?_, ?_⟩
      · unfold feasPost
        rw [← hqe, feasMapEntry_eq, if_pos helq]
      · intro q2 hq2 hel2
        have h2 := hle q2 hq2 hel2
        rw [← hqe, feasMapEntry_eq, if_pos helq] at h2
        exact h2
    · have hm : listMax (l.map fun q => feasMapEntry q.1 q.2) = -1 := by
        rw [← hqe, feasMapEntry_eq, if_neg helq]
      have hle0 := hle p0 hp0 hel0
      rw [hm] at hle0
      have heq0 : p0.1.1 / p0.2 = -1 := le_antisymm hle0 hge0
      refine ⟨p0, hp0, hel0, ?_, ?_⟩
      · unfold feasPost
        rw [hm, heq0]
      · intro q2 hq2 hel2
        have h2 := hle q2 hq2 hel2
        rw [hm] at h2
        rw [heq0]
        exact h2

/-- Witness for the amended line-search theorem on a list with one
eligible pair of ratio `-1/2` and one ineligible pair. -/
theorem feasPost_edge_witness :
    (∃ p ∈ [((-(1:ℚ)/2, (0:ℚ)), (1:ℚ)), (((1:ℚ), (1:ℚ)), (1:ℚ))],
      eligPair p ∧ -1 ≤ p.1.1 / p.2)
    ∧ (∃ p ∈ [((-(1:ℚ)/2, (0:ℚ)), (1:ℚ)), (((1:ℚ), (1:ℚ)), (1:ℚ))],
        eligPair p
        ∧ feasPost [((-(1:ℚ)/2, (0:ℚ)), (1:ℚ)), (((1:ℚ), (1:ℚ)), (1:ℚ))]
            = |p.1.1 / p.2|
        ∧ ∀ q ∈ [((-(1:ℚ)/2, (0:ℚ)), (1:ℚ)), (((1:ℚ), (1:ℚ)), (1:ℚ))],
            eligPair q → q.1.1 / q.2 ≤ p.1.1 / p.2) :=
  ⟨⟨((-(1:ℚ)/2, (0:ℚ)), (1:ℚ)), by simp,
      by norm_num [eligPair], by norm_num⟩,
    (feasPost_edge [((-(1:ℚ)/2, (0:ℚ)), (1:ℚ)), (((1:ℚ), (1:ℚ)), (1:ℚ))]).2.2
      ⟨((-(1:ℚ)/2, (0:ℚ)), (1:ℚ)), by simp,
        by norm_num [eligPair], by norm_num⟩⟩

/-! ## Numerical stabilization of the sweep (claim C6) -/

/-- Claim C6 (numerical stabilization): with stabilization on and ratio
`eps > 0`, every Schur block fed to the dense factorization — from the
first (`i = 1`) through the last (`i = L`) — equals the unstabilized block
plus `eps·I`; the default ratio (`std::ratio<1, 100>`) is `1/100`. -/
theorem schur_stabilization (Nf : ℕ → ℕ) (L : ℕ) (t : ℕ → ℕ → ℚ) (eps : ℚ)
    (heps : 0 < eps) :
    (∀ i, 1 ≤ i → i ≤ L → ∀ prev a b,
      schurAt Nf L t true eps i prev a b
        = schurAt Nf L t false 0 i prev a b + (if a = b then eps else 0))
    ∧ stabRatioDefault = 1 / 100 := by
  refine ⟨?_, rfl⟩
  intro i hi1 hiL prev a b
  unfold schurAt
  by_cases hL : i = L
  · rw [if_pos hL, if_pos hL]
    unfold schurLast
    by_cases hab : a = b
    · subst hab
      simp
      ring
    · simp [hab]
  · rw [if_neg hL, if_neg hL]
    unfold schurDiagT
    by_cases hab : a = b
    · subst hab
      simp
    · simp [hab]

/-- Witness for the stabilization theorem at the default ratio `1/100`. -/
theorem schur_stabilization_witness :
    (0 : ℚ) < 1 / 100
    ∧ ((∀ i, 1 ≤ i → i ≤ 2 → ∀ prev a b,
        schurAt nf1 2 t1 true (1 / 100) i prev a b
          = schurAt nf1 2 t1 false 0 i prev a b + (if a = b then 1 / 100 else 0))
      ∧ stabRatioDefault = 1 / 100) :=
  ⟨by norm_num, schur_stabilization nf1 2 t1 (1 / 100) (by norm_num)⟩

/-! ## Central-path stage control (claim C7) -/

/-- Claim C7 (central-path stage control): the inner Adam loop of stage `k`
runs with thresholds `diff·β₃^(S-k)` and `threshold·β₃^(S-k)`, and performs
another iteration exactly when the successive objective difference exceeds
the first threshold, the iteration count is below `max_iter`, and the
sliding-window average is below minus the second; at every stage boundary
`gamma` is multiplied by `gammadec` and `alpha` by `alphadec` (both `1/2`
by default), the position being carried through the stage state. -/
theorem stage_control {V : Type} (ops : VOps V) (prob : ℕ → V → ℚ → V × ℚ)
    (fstep : V → V → ℚ) (feas : Bool) (p : AdamParams) (fxlInit : ℚ)
    (gamma alpha : ℚ) (k : ℕ) :
    (∀ s : AdamSt V,
      (innerCond p (p.diff * p.beta3 ^ (p.cpsteps - k))
          (p.threshold * p.beta3 ^ (p.cpsteps - k)) s
        ↔ (p.diff * p.beta3 ^ (p.cpsteps - k) < |s.fxl - s.fx|
            ∧ s.i < p.max_iter
            ∧ s.avg < -(p.threshold * p.beta3 ^ (p.cpsteps - k))))
      ∧ innerLoop ops prob fstep feas p (p.diff * p.beta3 ^ (p.cpsteps - k))
          (p.threshold * p.beta3 ^ (p.cpsteps - k)) gamma alpha s
        = if innerCond p (p.diff * p.beta3 ^ (p.cpsteps - k))
              (p.threshold * p.beta3 ^ (p.cpsteps - k)) s then
            innerLoop ops prob fstep feas p (p.diff * p.beta3 ^ (p.cpsteps - k))
              (p.threshold * p.beta3 ^ (p.cpsteps - k)) gamma alpha
              (innerBody ops prob fstep feas p gamma alpha s)
          else s)
    ∧ (∀ j gamma0 alpha0 c,
        stageStep ops prob fstep feas p fxlInit j gamma0 alpha0 c
          = carryOf (innerLoop ops prob fstep feas p
              (p.diff * p.beta3 ^ (p.cpsteps - j))
              (p.threshold * p.beta3 ^ (p.cpsteps - j)) gamma0 alpha0
              (stageInit ops prob fxlInit gamma0 c)))
    ∧ (∀ togo j gamma0 alpha0 c,
        runStages ops prob fstep feas p fxlInit (togo + 1) j gamma0 alpha0 c
          = runStages ops prob fstep feas p fxlInit togo (j + 1)
              (gamma0 * p.gammadec) (alpha0 * p.alphadec)
              (stageStep ops prob fstep feas p fxlInit j gamma0 alpha0 c))
    ∧ (∀ togo j c, runStages ops prob fstep feas p fxlInit togo j
          (p.gamma * p.gammadec ^ j) (p.alpha * p.alphadec ^ j) c
        = runStagesC ops prob fstep feas p fxlInit togo j c)
    ∧ defaultAdamParams.gammadec = 1 / 2 ∧ defaultAdamParams.alphadec = 1 / 2 := by
  refine ⟨?_, fun j gamma0 alpha0 c => rfl, fun togo j gamma0 alpha0 c => rfl,
    ?_, rfl, rfl⟩
  · intro s
    refine ⟨Iff.rfl, ?_⟩
    rw [innerLoop]
  · intro togo
    induction togo with
    | zero =>
      intro j c
      rfl
    | succ togo ih =>
      intro j c
      have h1 : runStages ops prob fstep feas p fxlInit (togo + 1) j
          (p.gamma * p.gammadec ^ j) (p.alpha * p.alphadec ^ j) c
          = runStages ops prob fstep feas p fxlInit togo (j + 1)
              (p.gamma * p.gammadec ^ j * p.gammadec)
              (p.alpha * p.alphadec ^ j * p.alphadec)
              (stageStep ops prob fstep feas p fxlInit j
                (p.gamma * p.gammadec ^ j) (p.alpha * p.alphadec ^ j) c) := rfl
      have h2 : runStagesC ops prob fstep feas p fxlInit (togo + 1) j c
          = runStagesC ops prob fstep feas p fxlInit togo (j + 1)
              (stageStep ops prob fstep feas p fxlInit j
                (p.gamma * p.gammadec ^ j) (p.alpha * p.alphadec ^ j) c) := rfl
      rw [h1, h2,
        show p.gamma * p.gammadec ^ j * p.gammadec
          = p.gamma * p.gammadec ^ (j + 1) from by ring,
        show p.alpha * p.alphadec ^ j * p.alphadec
          = p.alpha * p.alphadec ^ (j + 1) from by ring]
      exact ih (j + 1) _

/-! ## The feasibility guard (claim C8) -/

/-- Claim C8 (feasibility guard): with feasibility checking enabled, when
the line-search bound for the proposed Adam direction is below the planned
step `alpha`, the iteration resets both moment accumulators to zero and
applies the shrunk update `x - (α⋆/4)·direction`; otherwise it applies the
full step `alpha·direction` and keeps the accumulators. -/
theorem feas_guard_step {V : Type} (ops : VOps V) (prob : ℕ → V → ℚ → V × ℚ)
    (fstep : V → V → ℚ) (p : AdamParams) (gamma alpha : ℚ) (s : AdamSt V)
    (halpha : alpha ≠ 0) :
    (fstep s.x (adamDir ops p s) < alpha →
      (innerBody ops prob fstep true p gamma alpha s).m = ops.zero
      ∧ (innerBody ops prob fstep true p gamma alpha s).v = ops.zero
      ∧ (innerBody ops prob fstep true p gamma alpha s).x
          = ops.sub s.x (ops.smul (fstep s.x (adamDir ops p s) / 4)
              (adamDir ops p s)))
    ∧ (¬ fstep s.x (adamDir ops p s) < alpha →
      (innerBody ops prob fstep true p gamma alpha s).m = adamM1 ops p s
      ∧ (innerBody ops prob fstep true p gamma alpha s).v = adamV1 ops p s
      ∧ (innerBody ops prob fstep true p gamma alpha s).x
          = ops.sub s.x (ops.smul alpha (adamDir ops p s))) := by
  constructor
  · intro hguard
    have hg : (true = true ∧ fstep s.x (adamDir ops p s) < 1 * alpha) :=
      ⟨rfl, by rwa [one_mul]⟩
    refine ⟨?_, ?_, ?_⟩
    · show (if (true = true) ∧ fstep s.x (adamDir ops p s) < 1 * alpha
          then ops.zero else adamM1 ops p s) = ops.zero
      exact if_pos hg
    · show (if (true = true) ∧ fstep s.x (adamDir ops p s) < 1 * alpha
          then ops.zero else adamV1 ops p s) = ops.zero
      exact if_pos hg
    · show ops.sub s.x (ops.smul (alpha *
          (if (true = true) ∧ fstep s.x (adamDir ops p s) < 1 * alpha
            then fstep s.x (adamDir ops p s) / alpha / 4 else 1))
          (adamDir ops p s)) = _
      rw [if_pos hg, show alpha * (fstep s.x (adamDir ops p s) / alpha / 4)
          = fstep s.x (adamDir ops p s) / 4 from by field_simp; ring]
  · intro hguard
    have hg : ¬((true = true) ∧ fstep s.x (adamDir ops p s) < 1 * alpha) := by
      rintro ⟨-, h⟩
      rw [one_mul] at h
      exact hguard h
    refine ⟨?_, ?_, ?_⟩
    · show (if (true = true) ∧ fstep s.x (adamDir ops p s) < 1 * alpha
          then ops.zero else adamM1 ops p s) = adamM1 ops p s
      exact if_neg hg
    · show (if (true = true) ∧ fstep s.x (adamDir ops p s) < 1 * alpha
          then ops.zero else adamV1 ops p s) = adamV1 ops p s
      exact if_neg hg
    · show ops.sub s.x (ops.smul (alpha *
          (if (true = true) ∧ fstep s.x (adamDir ops p s) < 1 * alpha
            then fstep s.x (adamDir ops p s) / alpha / 4 else 1))
          (adamDir ops p s)) = _
      rw [if_neg hg, mul_one]

/-- Witness for the feasibility-guard theorem on the scalar instance. -/
theorem feas_guard_step_witness :
    ((1 : ℚ) ≠ 0)
    ∧ (((fun (_ : ℚ) (_ : ℚ) => (0:ℚ)) (1:ℚ)
          (adamDir qVOps defaultAdamParams ⟨1, 2, 3, 4, 5, 6, 7, 0, 0⟩) < 1 →
        (innerBody qVOps (fun _ x g => (x, g)) (fun _ _ => 0) true
            defaultAdamParams 1 1 ⟨1, 2, 3, 4, 5, 6, 7, 0, 0⟩).m = qVOps.zero
        ∧ (innerBody qVOps (fun _ x g => (x, g)) (fun _ _ => 0) true
            defaultAdamParams 1 1 ⟨1, 2, 3, 4, 5, 6, 7, 0, 0⟩).v = qVOps.zero
        ∧ (innerBody qVOps (fun _ x g => (x, g)) (fun _ _ => 0) true
            defaultAdamParams 1 1 ⟨1, 2, 3, 4, 5, 6, 7, 0, 0⟩).x
            = qVOps.sub (1:ℚ) (qVOps.smul
                ((fun (_ : ℚ) (_ : ℚ) => (0:ℚ)) (1:ℚ)
                  (adamDir qVOps defaultAdamParams ⟨1, 2, 3, 4, 5, 6, 7, 0, 0⟩) / 4)
                (adamDir qVOps defaultAdamParams ⟨1, 2, 3, 4, 5, 6, 7, 0, 0⟩)))
      ∧ (¬ (fun (_ : ℚ) (_ : ℚ) => (0:ℚ)) (1:ℚ)
            (adamDir qVOps defaultAdamParams ⟨1, 2, 3, 4, 5, 6, 7, 0, 0⟩) < 1 →
        (innerBody qVOps (fun _ x g => (x, g)) (fun _ _ => 0) true
            defaultAdamParams 1 1 ⟨1, 2, 3, 4, 5, 6, 7, 0, 0⟩).m
            = adamM1 qVOps defaultAdamParams ⟨1, 2, 3, 4, 5, 6, 7, 0, 0⟩
        ∧ (innerBody qVOps (fun _ x g => (x, g)) (fun _ _ => 0) true
            defaultAdamParams 1 1 ⟨1, 2, 3, 4, 5, 6, 7, 0, 0⟩).v
            = adamV1 qVOps defaultAdamParams ⟨1, 2, 3, 4, 5, 6, 7, 0, 0⟩
        ∧ (innerBody qVOps (fun _ x g => (x, g)) (fun _ _ => 0) true
            defaultAdamParams 1 1 ⟨1, 2, 3, 4, 5, 6, 7, 0, 0⟩).x
            = qVOps.sub (1:ℚ) (qVOps.smul 1
                (adamDir qVOps defaultAdamParams ⟨1, 2, 3, 4, 5, 6, 7, 0, 0⟩)))) :=
  ⟨by norm_num,
    feas_guard_step qVOps (fun _ x g => (x, g)) (fun _ _ => 0)
      defaultAdamParams 1 1 ⟨1, 2, 3, 4, 5, 6, 7, 0, 0⟩ (by norm_num)⟩

/-! ## The returned objective of the training problem (claim C9) -/

/-- Claim C9 (implicit): the scalar objective returned by
`network_problem_log_barrier_t::run` is exactly the statistical loss
produced by backpropagation; the barrier term is accumulated only into the
gradient components (through `computeAddW`/`computeAddT`) and never added
to the returned scalar, which is independent of `gamma` and of the inverse
blocks. -/
theorem problemRun_objective (Nf : ℕ → ℕ) (L : ℕ)
    (back : (ℕ → Mat) → ((ℕ → Mat) × ℚ)) (W : ℕ → Mat) (t : ℕ → ℕ → ℚ)
    (Pm Km : ℕ → Mat) (gamma gamma2 : ℚ) (Pm2 Km2 : ℕ → Mat) :
    (problemRun Nf L back W t Pm Km gamma).2.2 = (back W).2
    ∧ (problemRun Nf L back W t Pm Km gamma).1
        = computeAddW L t Km gamma (back W).1
    ∧ (problemRun Nf L back W t Pm Km gamma).2.1
        = computeAddT Nf L W Pm Km (fun _ _ => 0)
    ∧ (problemRun Nf L back W t Pm Km gamma).2.2
        = (problemRun Nf L back W t Pm2 Km2 gamma2).2.2 :=
  ⟨rfl, rfl, rfl, rfl⟩

/-! ## Accumulators across stage boundaries (claim C10) -/

/-- Claim C10 (implicit): the Adam moment accumulators are carried over
unchanged at every stage boundary — the stage-entry state keeps the carried
`m`/`v`, and the carry extracted after the inner loop keeps the loop's
final `m`/`v` — and an iteration zeroes them only when the feasibility
guard triggers: with the guard disabled they always take the usual Adam
moment updates, and with it enabled but not triggered likewise. -/
theorem stage_carry_accumulators {V : Type} (ops : VOps V)
    (prob : ℕ → V → ℚ → V × ℚ) (fstep : V → V → ℚ) (p : AdamParams)
    (fxlInit gamma alpha : ℚ) :
    (∀ c : Carry V, (stageInit ops prob fxlInit gamma c).m = c.m
      ∧ (stageInit ops prob fxlInit gamma c).v = c.v)
    ∧ (∀ s : AdamSt V, (carryOf s).m = s.m ∧ (carryOf s).v = s.v)
    ∧ (∀ s : AdamSt V,
        (innerBody ops prob fstep false p gamma alpha s).m = adamM1 ops p s
        ∧ (innerBody ops prob fstep false p gamma alpha s).v = adamV1 ops p s)
    ∧ (∀ s : AdamSt V, ¬ fstep s.x (adamDir ops p s) < 1 * alpha →
        (innerBody ops prob fstep true p gamma alpha s).m = adamM1 ops p s
        ∧ (innerBody ops prob fstep true p gamma alpha s).v = adamV1 ops p s) := by
  refine ⟨fun c => ⟨rfl, rfl⟩, fun s => ⟨rfl, rfl⟩, fun s => ?_, fun s hs => ?_⟩
  · have hg : ¬((false = true) ∧ fstep s.x (adamDir ops p s) < 1 * alpha) := by
      rintro ⟨h, -⟩
      exact Bool.false_ne_true h
    constructor
    · show (if (false = true) ∧ fstep s.x (adamDir ops p s) < 1 * alpha
          then ops.zero else adamM1 ops p s) = adamM1 ops p s
      exact if_neg hg
    · show (if (false = true) ∧ fstep s.x (adamDir ops p s) < 1 * alpha
          then ops.zero else adamV1 ops p s) = adamV1 ops p s
      exact if_neg hg
  · have hg : ¬((true = true) ∧ fstep s.x (adamDir ops p s) < 1 * alpha) := by
      rintro ⟨-, h⟩
      exact hs h
    constructor
    · show (if (true = true) ∧ fstep s.x (adamDir ops p s) < 1 * alpha
          then ops.zero else adamM1 ops p s) = adamM1 ops p s
      exact if_neg hg
    · show (if (true = true) ∧ fstep s.x (adamDir ops p s) < 1 * alpha
          then ops.zero else adamV1 ops p s) = adamV1 ops p s
      exact if_neg hg

end LipNet
